import Mathlib

/-!
# SDDS reader/writer: a verification model

The repository ships SDDS (Self-Describing Data Set) header fixtures and
example scripts; the reader/writer library they exercise is specified in
`spec.md`.  This file embeds that library shallowly: the namelist
tokenizer, the header parser, the binary and ASCII codecs, the page
reader/writer and the document round trip, together with theorems about
the fixtures (`header1` .. `header4` from `tests/headers.py`).

Byte streams are `List Nat` (each byte `< 256` where it matters); header
text is ASCII so characters and bytes coincide.
-/

deriving instance DecidableEq for Except

namespace SDDS

/-- Byte strings (and ASCII text) are lists of naturals. -/
abbrev Bytes := List Nat

/-- ASCII text of a Lean string literal, as bytes. -/
def strB (s : String) : Bytes := s.data.map Char.toNat

/-- Modelled from the spec: the error taxonomy of section 7 (the library
itself is absent from the repository; only its header fixtures are). -/
inductive Err where
  | MalformedNamelist
  | UnsupportedVersion
  | DuplicateFieldName
  | MissingType
  | UnknownDataMode
  | MissingDataCommand
  | RowCountRequired
  | TruncatedStream
  | FieldCountMismatch
  | TypeMismatch
  | RowCountMismatch
deriving DecidableEq, Repr

/-- Horizontal whitespace: space, tab, carriage return. -/
def isWs (b : Nat) : Bool := b == 32 || b == 9 || b == 13

/-- The bytes of the literal word `end`. -/
def endWord : Bytes := [101, 110, 100]

/-- The bytes of the literal word `data`. -/
def dataWord : Bytes := [100, 97, 116, 97]

/-- Drop trailing horizontal whitespace. -/
def rtrimB (l : Bytes) : Bytes := (l.reverse.dropWhile (fun b => isWs b)).reverse

/-- Drop leading horizontal whitespace. -/
def ltrimB (l : Bytes) : Bytes := l.dropWhile (fun b => isWs b)

/-- One tokenized namelist command: `&name key=value, ... &end`. -/
structure Command where
  name : Bytes
  fields : List (Bytes × Bytes)
deriving DecidableEq, Repr

/-- Tokenizer output: a command, or a `!#` directive line. -/
inductive Token where
  | cmd (c : Command)
  | directive (txt : Bytes)
deriving DecidableEq, Repr

/-- Sub-state of the tokenizer while inside a command. -/
inductive FState where
  | seek
  | amp (acc : Bytes)
  | key (acc : Bytes)
  | eq (k : Bytes)
  | vstart (k : Bytes)
  | bare (k : Bytes) (acc : Bytes)
  | quoted (k : Bytes) (acc : Bytes)
  | esc (k : Bytes) (acc : Bytes)
deriving DecidableEq, Repr

/-- Tokenizer state. -/
inductive TkState where
  | top
  | bang
  | comment
  | dirAcc (acc : Bytes)
  | word (acc : Bytes)
  | cname (acc : Bytes)
  | infield (cn : Bytes) (facc : List (Bytes × Bytes)) (fs : FState)
deriving DecidableEq, Repr

/-- Modelled from the spec: one transition of the namelist tokenizer
(section 4.1; the tokenizer itself is absent from the repository).
Handles quoted strings with backslash escapes, bareword values running to
the next comma, `&end` or newline, comments and `!#` directive lines. -/
def fStep (cn : Bytes) (facc : List (Bytes × Bytes)) :
    FState → Nat → Except Err (TkState × Option Token)
  | .seek, b =>
    if isWs b || b == 10 || b == 44 then .ok (.infield cn facc .seek, none)
    else if b == 38 then .ok (.infield cn facc (.amp []), none)
    else if b == 34 || b == 61 then .error .MalformedNamelist
    else .ok (.infield cn facc (.key [b]), none)
  | .amp acc, b =>
    if isWs b || b == 10 || b == 44 then
      if acc = endWord then .ok (.top, some (.cmd ⟨cn, facc⟩))
      else .error .MalformedNamelist
    else if b == 38 then
      if acc = endWord then .ok (.cname [], some (.cmd ⟨cn, facc⟩))
      else .error .MalformedNamelist
    else .ok (.infield cn facc (.amp (acc ++ [b])), none)
  | .key acc, b =>
    if b == 61 then .ok (.infield cn facc (.vstart acc), none)
    else if isWs b || b == 10 then .ok (.infield cn facc (.eq acc), none)
    else if b == 44 || b == 38 || b == 34 then .error .MalformedNamelist
    else .ok (.infield cn facc (.key (acc ++ [b])), none)
  | .eq k, b =>
    if b == 61 then .ok (.infield cn facc (.vstart k), none)
    else if isWs b || b == 10 then .ok (.infield cn facc (.eq k), none)
    else .error .MalformedNamelist
  | .vstart k, b =>
    if isWs b || b == 10 then .ok (.infield cn facc (.vstart k), none)
    else if b == 34 then .ok (.infield cn facc (.quoted k []), none)
    else if b == 44 then .ok (.infield cn (facc ++ [(k, [])]) .seek, none)
    else if b == 38 then .ok (.infield cn (facc ++ [(k, [])]) (.amp []), none)
    else .ok (.infield cn facc (.bare k [b]), none)
  | .bare k acc, b =>
    if b == 44 || b == 10 then
      .ok (.infield cn (facc ++ [(k, rtrimB acc)]) .seek, none)
    else if b == 38 then
      .ok (.infield cn (facc ++ [(k, rtrimB acc)]) (.amp []), none)
    else .ok (.infield cn facc (.bare k (acc ++ [b])), none)
  | .quoted k acc, b =>
    if b == 34 then .ok (.infield cn (facc ++ [(k, acc)]) .seek, none)
    else if b == 92 then .ok (.infield cn facc (.esc k acc), none)
    else .ok (.infield cn facc (.quoted k (acc ++ [b])), none)
  | .esc k acc, b => .ok (.infield cn facc (.quoted k (acc ++ [b])), none)

/-- Modelled from the spec: tokenizer transition outside commands. -/
def tkStep : TkState → Nat → Except Err (TkState × Option Token)
  | .top, b =>
    if isWs b || b == 10 then .ok (.top, none)
    else if b == 33 then .ok (.bang, none)
    else if b == 38 then .ok (.cname [], none)
    else .ok (.word [b], none)
  | .bang, b =>
    if b == 35 then .ok (.dirAcc [], none)
    else if b == 10 then .ok (.top, none)
    else .ok (.comment, none)
  | .comment, b => if b == 10 then .ok (.top, none) else .ok (.comment, none)
  | .dirAcc acc, b =>
    if b == 10 then .ok (.top, some (.directive (ltrimB (rtrimB acc))))
    else .ok (.dirAcc (acc ++ [b]), none)
  | .word acc, b =>
    if isWs b || b == 10 then .ok (.top, some (.cmd ⟨acc, []⟩))
    else if b == 38 then .ok (.cname [], some (.cmd ⟨acc, []⟩))
    else .ok (.word (acc ++ [b]), none)
  | .cname acc, b =>
    if isWs b || b == 10 || b == 44 then
      if acc = ([] : Bytes) then .error .MalformedNamelist
      else .ok (.infield acc [] .seek, none)
    else if b == 38 || b == 34 || b == 61 then .error .MalformedNamelist
    else .ok (.cname (acc ++ [b]), none)
  | .infield cn facc fs, b => fStep cn facc fs b

/-- Does this token end the header (the `&data` command)? -/
def isDataTok : Token → Bool
  | .cmd c => c.name == dataWord
  | .directive _ => false

/-- End-of-input handling: a command opened but never closed with `&end`
fails with `MalformedNamelist` (so does an unbalanced quote). -/
def tkFinish : TkState → Except Err (List Token)
  | .top => .ok []
  | .bang => .ok []
  | .comment => .ok []
  | .dirAcc acc => .ok [.directive (ltrimB (rtrimB acc))]
  | .word acc => .ok [.cmd ⟨acc, []⟩]
  | .cname _ => .error .MalformedNamelist
  | .infield cn facc (.amp acc) =>
    if acc = endWord then .ok [.cmd ⟨cn, facc⟩] else .error .MalformedNamelist
  | .infield _ _ _ => .error .MalformedNamelist

/-- Run the tokenizer from a state; stops right after the `&data` command
and returns the unconsumed remainder of the stream (the data section). -/
def tkRun (st : TkState) : Bytes → Except Err (List Token × Bytes)
  | [] =>
    match tkFinish st with
    | .error e => .error e
    | .ok ts => .ok (ts, [])
  | b :: rest =>
    match tkStep st b with
    | .error e => .error e
    | .ok (st2, none) => tkRun st2 rest
    | .ok (st2, some t) =>
      if isDataTok t then .ok ([t], rest)
      else
        match tkRun st2 rest with
        | .error e => .error e
        | .ok (ts, rem) => .ok (t :: ts, rem)

/-- Modelled from the spec: the namelist tokenizer of section 4.1. -/
def tokenize (s : Bytes) : Except Err (List Token × Bytes) := tkRun .top s

/-! ## Schema data model -/

/-- Field kinds: parameters, columns and arrays share one namespace. -/
inductive FieldKind where
  | parameter
  | column
  | array
deriving DecidableEq, Repr

/-- The scalar types of the format. -/
inductive ScalarType where
  | double
  | float
  | long
  | short
  | character
  | string
  | boolean
deriving DecidableEq, Repr

/-- The header spelling of each scalar type. -/
def typeName : ScalarType → Bytes
  | .double => strB ("double")
  | .float => strB ("float")
  | .long => strB ("long")
  | .short => strB ("short")
  | .character => strB ("character")
  | .string => strB ("string")
  | .boolean => strB ("boolean")

/-- Recover a scalar type from its header spelling. -/
def nameToType (b : Bytes) : Option ScalarType :=
  if b = strB ("double") then some .double
  else if b = strB ("float") then some .float
  else if b = strB ("long") then some .long
  else if b = strB ("short") then some .short
  else if b = strB ("character") then some .character
  else if b = strB ("string") then some .string
  else if b = strB ("boolean") then some .boolean
  else none

/-- One field definition: kind, name, scalar type, optional header-level
`fixed_value` literal, array length, and opaque extra metadata
(units, symbol, description, format_string, ... preserved verbatim). -/
structure FieldDef where
  kind : FieldKind
  name : Bytes
  type : ScalarType
  fixed_value : Option Bytes := none
  field_length : Nat := 0
  extra : List (Bytes × Bytes) := []
deriving DecidableEq, Repr

/-- Physical data modes. -/
inductive Mode where
  | ascii
  | binary
deriving DecidableEq, Repr

/-- Byte orders. -/
inductive Endian where
  | little
  | big
deriving DecidableEq, Repr

/-- A parsed schema: ordered field definitions plus the `&data` mode
directives, optional description and unresolved `&include` references. -/
structure Schema where
  fields : List FieldDef
  mode : Mode
  endian : Endian
  no_row_counts : Bool
  description : Option (List (Bytes × Bytes)) := none
  includes : List (List (Bytes × Bytes)) := []
deriving DecidableEq, Repr

/-- Parameters of the schema, in declaration order. -/
def Schema.parameters (s : Schema) : List FieldDef :=
  s.fields.filter (fun f => f.kind == .parameter)

/-- Columns of the schema, in declaration order. -/
def Schema.columns (s : Schema) : List FieldDef :=
  s.fields.filter (fun f => f.kind == .column)

/-- Arrays of the schema, in declaration order. -/
def Schema.arrays (s : Schema) : List FieldDef :=
  s.fields.filter (fun f => f.kind == .array)

/-- Parameters that actually travel in the data section (fixed_value
parameters are supplied from the schema, never read from the stream). -/
def Schema.dataParameters (s : Schema) : List FieldDef :=
  s.parameters.filter (fun f => f.fixed_value.isNone)

/-- Columns that actually travel in the data section. -/
def Schema.dataColumns (s : Schema) : List FieldDef :=
  s.columns.filter (fun f => f.fixed_value.isNone)

/-- Arrays that actually travel in the data section. -/
def Schema.dataArrays (s : Schema) : List FieldDef :=
  s.arrays.filter (fun f => f.fixed_value.isNone)

/-! ## Decimal digits -/

/-- Is this byte an ASCII digit? -/
def isDigit (b : Nat) : Bool := 48 ≤ b && b ≤ 57

/-- Decimal digits of a natural, least significant first; the fuel
argument bounds the digit count. -/
def natDigitsAux : Nat → Nat → Bytes
  | 0, _ => []
  | fuel + 1, n =>
    if n < 10 then [48 + n] else (48 + n % 10) :: natDigitsAux fuel (n / 10)

/-- Decimal digits of a natural, least significant first. -/
def natDigitsRev (n : Nat) : Bytes := natDigitsAux (n + 1) n

/-- Decimal rendering of a natural number. -/
def natDigits (n : Nat) : Bytes := (natDigitsRev n).reverse

/-- Value of a digit string given least significant first. -/
def valRev : Bytes → Nat
  | [] => 0
  | d :: ds => (d - 48) + 10 * valRev ds

/-- Value of a digit string, most significant first. -/
def digitsToNat (l : Bytes) : Nat := valRev l.reverse

/-- Parse a nonempty all-digit byte string as a natural. -/
def parseNatB (l : Bytes) : Option Nat :=
  if l ≠ [] ∧ ∀ b ∈ l, isDigit b then some (digitsToNat l) else none

/-- Decimal rendering of an integer (minus sign for negatives). -/
def intDigits (i : Int) : Bytes :=
  if i < 0 then 45 :: natDigits (-i).toNat else natDigits i.toNat

/-- Parse an optionally-signed digit string as an integer. -/
def parseIntB (l : Bytes) : Option Int :=
  if l.head? = some 45 then
    match parseNatB l.tail with
    | some n => some (-(n : Int))
    | none => none
  else
    match parseNatB l with
    | some n => some ((n : Nat) : Int)
    | none => none

/-! ## Header parser -/

/-- Accumulating state of the header parser. -/
structure PState where
  fields : List FieldDef
  description : Option (List (Bytes × Bytes))
  includes : List (List (Bytes × Bytes))
deriving DecidableEq, Repr

/-- The empty parser state. -/
def PState.init : PState := ⟨[], none, []⟩

/-- Names already defined, across all kinds (one shared namespace). -/
def PState.names (st : PState) : List Bytes := st.fields.map (fun f => f.name)

/-- First value bound to a key in a command. -/
def fieldVal (c : Command) (k : Bytes) : Option Bytes := c.fields.lookup k

/-- Keys of a field command that the parser interprets itself; all other
keys are preserved as opaque metadata. -/
def isSpecialKey (k : Bytes) : Bool :=
  k == strB ("name") || k == strB ("type") ||
  k == strB ("fixed_value") || k == strB ("field_length")

/-- Modelled from the spec: fold one `&parameter`/`&column`/`&array`
command into the parser state (section 4.2).  The duplicate-name check
spans all kinds and precedes the type check. -/
def processFieldCmd (kind : FieldKind) (st : PState) (c : Command) :
    Except Err PState :=
  match fieldVal c (strB ("name")) with
  | none => .error .MalformedNamelist
  | some n =>
    if st.names.contains n then .error .DuplicateFieldName
    else
      match fieldVal c (strB ("type")) with
      | none => .error .MissingType
      | some tb =>
        match nameToType tb with
        | none => .error .MissingType
        | some t =>
          let fv := fieldVal c (strB ("fixed_value"))
          let fl := match fieldVal c (strB ("field_length")) with
                    | some d => (parseNatB d).getD 0
                    | none => 0
          let ex := c.fields.filter (fun p => !isSpecialKey p.1)
          .ok { st with fields := st.fields ++ [⟨kind, n, t, fv, fl, ex⟩] }

/-- Modelled from the spec: interpret the `&data` command, which
terminates the header (mode must be `ascii` or `binary`, otherwise
`UnknownDataMode`, including when `mode` is absent). -/
def processData (st : PState) (endian : Endian) (c : Command) :
    Except Err Schema :=
  match fieldVal c (strB ("mode")) with
  | none => .error .UnknownDataMode
  | some m =>
    let nrc := fieldVal c (strB ("no_row_counts")) = some (strB ("1"))
    if m = strB ("ascii") then
      .ok ⟨st.fields, .ascii, endian, nrc, st.description, st.includes⟩
    else if m = strB ("binary") then
      .ok ⟨st.fields, .binary, endian, nrc, st.description, st.includes⟩
    else .error .UnknownDataMode

/-- Modelled from the spec: fold the command stream into a schema;
`MissingDataCommand` if it ends before `&data`. -/
def parseCmds (st : PState) (endian : Endian) : List Token → Except Err Schema
  | [] => .error .MissingDataCommand
  | .directive _ :: rest => parseCmds st endian rest
  | .cmd c :: rest =>
    if c.name = strB ("description") then
      if st.description.isSome || !st.fields.isEmpty then .error .MalformedNamelist
      else parseCmds { st with description := some c.fields } endian rest
    else if c.name = strB ("parameter") then
      match processFieldCmd .parameter st c with
      | .error e => .error e
      | .ok st2 => parseCmds st2 endian rest
    else if c.name = strB ("column") then
      match processFieldCmd .column st c with
      | .error e => .error e
      | .ok st2 => parseCmds st2 endian rest
    else if c.name = strB ("array") then
      match processFieldCmd .array st c with
      | .error e => .error e
      | .ok st2 => parseCmds st2 endian rest
    else if c.name = strB ("include") then
      parseCmds { st with includes := st.includes ++ [c.fields] } endian rest
    else if c.name = dataWord then processData st endian c
    else .error .MalformedNamelist

/-- Modelled from the spec: the header parser (section 4.2): version tag
first, then an optional endianness directive, then the commands.  The
caller supplies the default endianness used when no directive is given. -/
def parseHeader (dflt : Endian) : List Token → Except Err Schema
  | .cmd c :: rest =>
    if c.name = strB ("SDDS1") then
      match rest with
      | .directive d :: rest2 =>
        if d = strB ("little-endian") then parseCmds .init .little rest2
        else if d = strB ("big-endian") then parseCmds .init .big rest2
        else parseCmds .init dflt rest2
      | _ => parseCmds .init dflt rest
    else .error .UnsupportedVersion
  | _ => .error .UnsupportedVersion

/-! ## Header renderer (write path) -/

/-- Backslash-escape one byte for a double-quoted value. -/
def esc1 (b : Nat) : Bytes := if b = 34 ∨ b = 92 then [92, b] else [b]

/-- Backslash-escape a byte string for a double-quoted value. -/
def escapeB (v : Bytes) : Bytes := (v.map esc1).flatten

/-- Render one `key="value"` pair followed by a comma and a space. -/
def renderPair (p : Bytes × Bytes) : Bytes :=
  p.1 ++ [61, 34] ++ escapeB p.2 ++ [34, 44, 32]

/-- Render one namelist command on a single line. -/
def renderCmd (name : Bytes) (fields : List (Bytes × Bytes)) : Bytes :=
  [38] ++ name ++ [32] ++ (fields.map renderPair).flatten ++ [38] ++ endWord ++ [10]

/-- The header spelling of each field kind. -/
def kindName : FieldKind → Bytes
  | .parameter => strB ("parameter")
  | .column => strB ("column")
  | .array => strB ("array")

/-- The key/value pairs of one rendered field definition. -/
def fieldPairs (f : FieldDef) : List (Bytes × Bytes) :=
  [(strB ("name"), f.name), (strB ("type"), typeName f.type)] ++
  (match f.fixed_value with
   | some v => [(strB ("fixed_value"), v)]
   | none => []) ++
  (if f.kind = .array then [(strB ("field_length"), natDigits f.field_length)]
   else []) ++ f.extra

/-- Render one field definition as a namelist command. -/
def renderField (f : FieldDef) : Bytes := renderCmd (kindName f.kind) (fieldPairs f)

/-- The header spelling of each mode. -/
def modeName : Mode → Bytes
  | .ascii => strB ("ascii")
  | .binary => strB ("binary")

/-- The key/value pairs of the rendered `&data` command. -/
def dataPairs (s : Schema) : List (Bytes × Bytes) :=
  [(strB ("mode"), modeName s.mode),
   (strB ("no_row_counts"), if s.no_row_counts then strB ("1") else strB ("0"))]

/-- The header spelling of the endianness directive payload. -/
def endianName : Endian → Bytes
  | .little => strB ("little-endian")
  | .big => strB ("big-endian")

/-- Modelled from the spec: re-render the namelist header (section 2,
"Writing is the mirror"): version tag, endianness directive, optional
description, includes, field definitions, and the `&data` command. -/
def renderSchema (s : Schema) : Bytes :=
  strB ("SDDS1\n") ++
  ([33, 35, 32] ++ endianName s.endian ++ [10]) ++
  (match s.description with
   | some fl => renderCmd (strB ("description")) fl
   | none => []) ++
  (s.includes.map (renderCmd (strB ("include")))).flatten ++
  (s.fields.map renderField).flatten ++
  renderCmd dataWord (dataPairs s)

/-- The token stream the rendered header tokenizes to. -/
def schemaTokens (s : Schema) : List Token :=
  [.cmd ⟨strB ("SDDS1"), []⟩, .directive (endianName s.endian)] ++
  (match s.description with
   | some fl => [.cmd ⟨strB ("description"), fl⟩]
   | none => []) ++
  s.includes.map (fun fl => Token.cmd ⟨strB ("include"), fl⟩) ++
  s.fields.map (fun f => Token.cmd ⟨kindName f.kind, fieldPairs f⟩) ++
  [.cmd ⟨dataWord, dataPairs s⟩]

/-! ## Render specification for arbitrary-whitespace commands -/

/-- May this byte appear in a command or key word? -/
def wordChar (b : Nat) : Bool :=
  !(isWs b || b == 10 || b == 44 || b == 38 || b == 61 || b == 34)

/-- A rendered field value: a bareword or a double-quoted string. -/
inductive RVal where
  | bare (v : Bytes)
  | quoted (v : Bytes)
deriving DecidableEq, Repr

/-- The on-wire text of a rendered value. -/
def RVal.text : RVal → Bytes
  | .bare v => v
  | .quoted v => [34] ++ escapeB v ++ [34]

/-- The logical value of a rendered value. -/
def RVal.value : RVal → Bytes
  | .bare v => v
  | .quoted v => v

/-- One rendered `key = value` field with its surrounding layout: the
whitespace before and after `=`, and the terminator that follows the
value (comma and/or whitespace, possibly spanning lines). -/
structure RFld where
  key : Bytes
  preEq : Bytes
  postEq : Bytes
  rv : RVal
  term : Bytes
deriving DecidableEq, Repr

/-- The on-wire text of one rendered field. -/
def renderRFld (f : RFld) : Bytes :=
  f.key ++ f.preEq ++ [61] ++ f.postEq ++ f.rv.text ++ f.term

/-- The key/value pair a rendered field tokenizes to. -/
def RFld.pair (f : RFld) : Bytes × Bytes := (f.key, f.rv.value)

/-- The on-wire text of a rendered command (without its final
delimiter). -/
def renderRCmd (name nameSep : Bytes) (fs : List RFld) : Bytes :=
  [38] ++ name ++ nameSep ++ (fs.map renderRFld).flatten ++ [38] ++ endWord

/-- A nonempty word of word characters. -/
def ValidKey (k : Bytes) : Prop := k ≠ [] ∧ ∀ b ∈ k, wordChar b = true

/-- Whitespace (spaces, tabs, carriage returns, newlines). -/
def ValidWs (l : Bytes) : Prop := ∀ b ∈ l, (isWs b || b == 10) = true

/-- Whitespace or commas (skippable between fields). -/
def ValidSeekWs (l : Bytes) : Prop :=
  ∀ b ∈ l, (isWs b || b == 10 || b == 44) = true

/-- Validity of a rendered value: a bareword must be nonempty, free of
commas, newlines and ampersands, must not start like whitespace or a
quote, and must carry no trailing whitespace; a quoted value is
unconstrained. -/
def ValidRVal : RVal → Prop
  | .bare v => (∀ b ∈ v, b ≠ 44 ∧ b ≠ 10 ∧ b ≠ 38) ∧
      (∃ c cs, v = c :: cs ∧ isWs c = false ∧ c ≠ 34) ∧ rtrimB v = v
  | .quoted _ => True

/-- Validity of a field terminator: after a bareword it must start with
a comma or newline; after a quoted value any whitespace/comma run
(possibly empty) will do. -/
def ValidTerm : RVal → Bytes → Prop
  | .bare _, t => ∃ c cs, t = c :: cs ∧ (c = 44 ∨ c = 10) ∧ ValidSeekWs cs
  | .quoted _, t => ValidSeekWs t

/-- Validity of one rendered field. -/
def ValidRFld (f : RFld) : Prop :=
  ValidKey f.key ∧ ValidWs f.preEq ∧ ValidWs f.postEq ∧ ValidRVal f.rv ∧
  ValidTerm f.rv f.term

/-- Validity of a whole schema for header round-tripping: unique field
names, well-formed opaque metadata keys, array lengths only on arrays,
binary mode always with explicit row counts, and at least one column
under `no_row_counts`. -/
def ValidSchema (s : Schema) : Prop :=
  (s.fields.map (fun f => f.name)).Nodup ∧
  (∀ f ∈ s.fields, (∀ p ∈ f.extra, ValidKey p.1 ∧ isSpecialKey p.1 = false) ∧
    (f.kind ≠ .array → f.field_length = 0)) ∧
  (∀ fl ∈ s.includes, ∀ p ∈ fl, ValidKey p.1) ∧
  (∀ p ∈ s.description.getD [], ValidKey p.1) ∧
  (s.mode = .binary → s.no_row_counts = false) ∧
  (s.no_row_counts = true → s.dataColumns ≠ [])


/-! ## Values -/

/-- A typed scalar value.  IEEE-754 `double`/`float` payloads are
modelled by their raw bit patterns (64 and 32 bits respectively): the
codecs move them byte-for-byte and never do arithmetic on them.  String
payloads are raw bytes. -/
inductive Value where
  | vDouble (bits : Nat)
  | vFloat (bits : Nat)
  | vLong (i : Int)
  | vShort (i : Int)
  | vChar (b : Nat)
  | vString (s : Bytes)
  | vBool (b : Bool)
deriving DecidableEq, Repr

/-- Does a value inhabit a scalar type? -/
def hasType : ScalarType → Value → Bool
  | .double, .vDouble _ => true
  | .float, .vFloat _ => true
  | .long, .vLong _ => true
  | .short, .vShort _ => true
  | .character, .vChar _ => true
  | .string, .vString _ => true
  | .boolean, .vBool _ => true
  | _, _ => false

/-- Range validity of a value: bit patterns fit their width, integers
fit their signed width, string payloads are bytes of bounded length. -/
def validValueB : Value → Bool
  | .vDouble bits => bits < 2 ^ 64
  | .vFloat bits => bits < 2 ^ 32
  | .vLong i => -(2 ^ 31) ≤ i && i < 2 ^ 31
  | .vShort i => -(2 ^ 15) ≤ i && i < 2 ^ 15
  | .vChar b => b < 256
  | .vString s => s.length < 2 ^ 31 && s.all (fun b => b < 256)
  | .vBool _ => true

/-- In ASCII mode string payloads must not contain a newline byte
(values render one per line). -/
def lineSafeB : Value → Bool
  | .vString s => s.all (fun b => b ≠ 10)
  | _ => true

/-! ## Binary codec -/

/-- `w` little-endian bytes of `n`. -/
def leBytes : Nat → Nat → Bytes
  | 0, _ => []
  | w + 1, n => n % 256 :: leBytes w (n / 256)

/-- Value of little-endian bytes. -/
def leVal : Bytes → Nat
  | [] => 0
  | b :: bs => b + 256 * leVal bs

/-- `w` bytes of `n` in the given byte order. -/
def ordBytes (e : Endian) (w n : Nat) : Bytes :=
  match e with
  | .little => leBytes w n
  | .big => (leBytes w n).reverse

/-- Value of bytes in the given byte order. -/
def ordVal (e : Endian) (bs : Bytes) : Nat :=
  match e with
  | .little => leVal bs
  | .big => leVal bs.reverse

/-- Two's-complement representation of `i` in `w` bits. -/
def toTwos (w : Nat) (i : Int) : Nat := (i % ((2 : Int) ^ w)).toNat

/-- Signed value of a `w`-bit two's-complement pattern. -/
def fromTwos (w : Nat) (n : Nat) : Int :=
  if n < 2 ^ (w - 1) then (n : Int) else (n : Int) - (2 : Int) ^ w

/-- Modelled from the spec: the binary encoding of one value
(section 4.3): fixed widths for numeric types, a 4-byte signed length
followed by the raw bytes for strings, 0/1 in 4 bytes for booleans. -/
def encodeBin (e : Endian) : Value → Bytes
  | .vDouble bits => ordBytes e 8 bits
  | .vFloat bits => ordBytes e 4 bits
  | .vLong i => ordBytes e 4 (toTwos 32 i)
  | .vShort i => ordBytes e 2 (toTwos 16 i)
  | .vChar b => [b]
  | .vString s => ordBytes e 4 (toTwos 32 s.length) ++ s
  | .vBool b => ordBytes e 4 (if b then 1 else 0)

/-- Take exactly `k` bytes or fail with `TruncatedStream`. -/
def takeB (k : Nat) (s : Bytes) : Except Err (Bytes × Bytes) :=
  if s.length < k then .error .TruncatedStream else .ok (s.take k, s.drop k)

/-- Modelled from the spec: the binary decoding of one value of a known
scalar type.  A length prefix exceeding the remaining buffer fails with
`TruncatedStream`; any nonzero boolean pattern decodes as true. -/
def decodeBin (t : ScalarType) (e : Endian) (s : Bytes) :
    Except Err (Value × Bytes) :=
  match t with
  | .double => do
    let (bs, r) ← takeB 8 s
    .ok (.vDouble (ordVal e bs), r)
  | .float => do
    let (bs, r) ← takeB 4 s
    .ok (.vFloat (ordVal e bs), r)
  | .long => do
    let (bs, r) ← takeB 4 s
    .ok (.vLong (fromTwos 32 (ordVal e bs)), r)
  | .short => do
    let (bs, r) ← takeB 2 s
    .ok (.vShort (fromTwos 16 (ordVal e bs)), r)
  | .character => do
    let (bs, r) ← takeB 1 s
    .ok (.vChar (leVal bs), r)
  | .string => do
    let (lb, r1) ← takeB 4 s
    let len := fromTwos 32 (ordVal e lb)
    if len < 0 then .error .TruncatedStream
    else do
      let (sb, r2) ← takeB len.toNat r1
      .ok (.vString sb, r2)
  | .boolean => do
    let (bs, r) ← takeB 4 s
    .ok (.vBool (fromTwos 32 (ordVal e bs) != 0), r)

/-- Decode a sequence of values of the given types. -/
def decodeBinList (e : Endian) : List ScalarType → Bytes →
    Except Err (List Value × Bytes)
  | [], s => .ok ([], s)
  | t :: ts, s => do
    let (v, s1) ← decodeBin t e s
    let (vs, s2) ← decodeBinList e ts s1
    .ok (v :: vs, s2)

/-- Encode a sequence of values back-to-back, no padding. -/
def encodeBinList (e : Endian) (vs : List Value) : Bytes :=
  (vs.map (encodeBin e)).flatten

/-! ## ASCII codec: cells, tokens, rows -/

/-- Modelled from the spec: the ASCII rendering of one value
(section 4.4).  Numeric values render in locale-independent decimal
(for `double`/`float` the 64/32-bit payload is rendered losslessly);
strings render double-quoted with backslash escaping; booleans as 1/0. -/
def renderCell : Value → Bytes
  | .vDouble bits => natDigits bits
  | .vFloat bits => natDigits bits
  | .vLong i => intDigits i
  | .vShort i => intDigits i
  | .vChar b => natDigits b
  | .vString s => [34] ++ escapeB s ++ [34]
  | .vBool b => if b then [49] else [48]

/-- One ASCII token: was it quoted, and its (unescaped) content. -/
abbrev ATok := Bool × Bytes

/-- State of the quote-aware whitespace splitter. -/
inductive SplState where
  | between
  | inBare (acc : Bytes)
  | inQuoted (acc : Bytes)
  | inEsc (acc : Bytes)
deriving DecidableEq, Repr

/-- Modelled from the spec: split one data line into whitespace-separated
tokens, honouring double quotes with backslash escapes (mirroring the
tokenizer's quoting rules). -/
def splitGo : SplState → Bytes → Except Err (List ATok)
  | .between, [] => .ok []
  | .between, b :: r =>
    if isWs b then splitGo .between r
    else if b = 34 then splitGo (.inQuoted []) r
    else splitGo (.inBare [b]) r
  | .inBare acc, [] => .ok [(false, acc)]
  | .inBare acc, b :: r =>
    if isWs b then
      match splitGo .between r with
      | .error e => .error e
      | .ok ts => .ok ((false, acc) :: ts)
    else splitGo (.inBare (acc ++ [b])) r
  | .inQuoted _, [] => .error .MalformedNamelist
  | .inQuoted acc, b :: r =>
    if b = 34 then
      match splitGo .between r with
      | .error e => .error e
      | .ok ts => .ok ((true, acc) :: ts)
    else if b = 92 then splitGo (.inEsc acc) r
    else splitGo (.inQuoted (acc ++ [b])) r
  | .inEsc _, [] => .error .MalformedNamelist
  | .inEsc acc, b :: r => splitGo (.inQuoted (acc ++ [b])) r

/-- Split a whole line into tokens. -/
def splitTokens (l : Bytes) : Except Err (List ATok) := splitGo .between l

/-- Parse one token as a value of a known scalar type. -/
def parseCell (t : ScalarType) (tok : ATok) : Except Err Value :=
  match t with
  | .double =>
    if tok.1 then .error .TypeMismatch
    else match parseNatB tok.2 with
      | some n => .ok (.vDouble n)
      | none => .error .TypeMismatch
  | .float =>
    if tok.1 then .error .TypeMismatch
    else match parseNatB tok.2 with
      | some n => .ok (.vFloat n)
      | none => .error .TypeMismatch
  | .long =>
    if tok.1 then .error .TypeMismatch
    else match parseIntB tok.2 with
      | some i => .ok (.vLong i)
      | none => .error .TypeMismatch
  | .short =>
    if tok.1 then .error .TypeMismatch
    else match parseIntB tok.2 with
      | some i => .ok (.vShort i)
      | none => .error .TypeMismatch
  | .character =>
    if tok.1 then .error .TypeMismatch
    else match parseNatB tok.2 with
      | some n => .ok (.vChar n)
      | none => .error .TypeMismatch
  | .string => .ok (.vString tok.2)
  | .boolean =>
    if tok.1 then .error .TypeMismatch
    else match parseNatB tok.2 with
      | some n => .ok (.vBool (n != 0))
      | none => .error .TypeMismatch

/-- Parse a sequence of tokens against a sequence of types. -/
def parseCellList : List ScalarType → List ATok → Except Err (List Value)
  | [], [] => .ok []
  | t :: ts, x :: xs => do
    let v ← parseCell t x
    let vs ← parseCellList ts xs
    .ok (v :: vs)
  | _, _ => .error .FieldCountMismatch

/-- Join token texts with single spaces. -/
def joinSp : List Bytes → Bytes
  | [] => []
  | [t] => t
  | t :: ts => t ++ [32] ++ joinSp ts

/-- Read one newline-terminated line; a stream that ends mid-line is a
truncation. -/
def readLine : Bytes → Except Err (Bytes × Bytes)
  | [] => .error .TruncatedStream
  | b :: r =>
    if b = 10 then .ok ([], r)
    else
      match readLine r with
      | .error e => .error e
      | .ok (l, rest) => .ok (b :: l, rest)

/-! ## Pages -/

/-- One dataset page: one value per non-fixed parameter (in declaration
order), a row count, one value sequence per non-fixed column (each of
length `row_count`), and one value sequence per non-fixed array (each of
its declared length).  Fixed-value fields are schema-level constants and
are not stored per page. -/
structure Page where
  params : List Value
  row_count : Nat
  columns : List (List Value)
  arrays : List (List Value)
deriving DecidableEq, Repr

/-- Typed lookup of a parameter value: fixed_value parameters yield the
header-declared literal, other parameters index into the page. -/
def fixedLiteralValue (t : ScalarType) (lit : Bytes) : Value :=
  match t with
  | .double => .vDouble ((parseNatB lit).getD 0)
  | .float => .vFloat ((parseNatB lit).getD 0)
  | .long => .vLong ((parseIntB lit).getD 0)
  | .short => .vShort ((parseIntB lit).getD 0)
  | .character => .vChar ((parseNatB lit).getD 0)
  | .string => .vString lit
  | .boolean => .vBool (((parseNatB lit).getD 0) != 0)

/-- Position of a named parameter among the data-carrying parameters. -/
def dataParamIndex (s : Schema) (n : Bytes) : Option Nat :=
  (s.dataParameters.map (fun f => f.name)).indexOf? n

/-- Look up a parameter value by name: the header literal for fixed_value
parameters, the page's stored value otherwise. -/
def getParam (s : Schema) (p : Page) (n : Bytes) : Option Value :=
  match s.parameters.find? (fun f => f.name == n) with
  | none => none
  | some f =>
    match f.fixed_value with
    | some lit => some (fixedLiteralValue f.type lit)
    | none =>
      match dataParamIndex s n with
      | some i => p.params.get? i
      | none => none

/-- Do the values fit the field definitions (same count, matching types,
in-range payloads; in ASCII mode strings must be line-safe)? -/
def typedVals (fs : List FieldDef) (vs : List Value) (asciiMode : Bool) : Bool :=
  fs.length == vs.length &&
  (List.zip fs vs).all (fun q =>
    hasType q.1.type q.2 && validValueB q.2 && (!asciiMode || lineSafeB q.2))

/-- As `typedVals` for a list of value sequences (columns or arrays). -/
def typedSeqs (fs : List FieldDef) (seqs : List (List Value)) (asciiMode : Bool) :
    Bool :=
  fs.length == seqs.length &&
  (List.zip fs seqs).all (fun q =>
    q.2.all (fun v =>
      hasType q.1.type v && validValueB v && (!asciiMode || lineSafeB v)))

/-- Modelled from the spec: eager validation before a single byte is
emitted (section 4.5): parameter values must match their FieldDefs, every
column sequence must have exactly `row_count` elements, arrays their
declared lengths. -/
def validate_page (s : Schema) (p : Page) : Except Err Unit :=
  let asc := s.mode == Mode.ascii
  if !typedVals s.dataParameters p.params asc then .error .TypeMismatch
  else if p.columns.length != s.dataColumns.length then .error .FieldCountMismatch
  else if !(p.columns.all (fun col => col.length == p.row_count)) then
    .error .RowCountMismatch
  else if 2 ^ 31 ≤ p.row_count then .error .RowCountMismatch
  else if !typedSeqs s.dataColumns p.columns asc then .error .TypeMismatch
  else if p.arrays.length != s.dataArrays.length then .error .FieldCountMismatch
  else if !((List.zip s.dataArrays p.arrays).all
      (fun q => q.2.length == q.1.field_length)) then .error .RowCountMismatch
  else if !typedSeqs s.dataArrays p.arrays asc then .error .TypeMismatch
  else .ok ()

/-- Row-major view of the column data (for the ASCII writer). -/
def rowsOf (rc : Nat) (cols : List (List Value)) : List (List Value) :=
  (List.range rc).map (fun r => cols.map (fun col => col.getD r (.vBool false)))

/-- Column-major view of row data (for the ASCII reader). -/
def colsOf (nc : Nat) (rows : List (List Value)) : List (List Value) :=
  (List.range nc).map (fun c => rows.map (fun row => row.getD c (.vBool false)))

/-- One rendered ASCII line (newline-terminated). -/
def lineOf (l : Bytes) : Bytes := l ++ [10]

/-- One ASCII line per value (for the parameter block). -/
def cellLines (vs : List Value) : Bytes :=
  (vs.map (fun v => lineOf (renderCell v))).flatten

/-- One ASCII line per value sequence (rows, or array blocks). -/
def rowLines (rows : List (List Value)) : Bytes :=
  (rows.map (fun row => lineOf (joinSp (row.map renderCell)))).flatten

/-- The ASCII data lines of one page: parameters one per line, then the
row count (unless `no_row_counts`), then one line per row, a blank line
under `no_row_counts`, then one line per array. -/
def encodePageAscii (s : Schema) (p : Page) : Bytes :=
  cellLines p.params ++
  (if s.no_row_counts then [] else lineOf (natDigits p.row_count)) ++
  rowLines (rowsOf p.row_count p.columns) ++
  (if s.no_row_counts then [10] else []) ++
  rowLines p.arrays

/-- The binary bytes of one page: parameters, the 4-byte signed row
count, the column data (`row_count` values per column, in declaration
order), then the array data. -/
def encodePageBin (s : Schema) (p : Page) : Bytes :=
  encodeBinList s.endian p.params ++
  ordBytes s.endian 4 (toTwos 32 (p.row_count : Int)) ++
  (p.columns.map (encodeBinList s.endian)).flatten ++
  (p.arrays.map (encodeBinList s.endian)).flatten

/-- The data-section bytes of one page, per the schema's mode. -/
def pageBytes (s : Schema) (p : Page) : Bytes :=
  match s.mode with
  | .ascii => encodePageAscii s p
  | .binary => encodePageBin s p

/-- Modelled from the spec: `write_page` (section 4.5) validates
eagerly, then emits; no bytes are produced for an invalid page. -/
def write_page (s : Schema) (p : Page) : Except Err Bytes :=
  match validate_page s p with
  | .error e => .error e
  | .ok () => .ok (pageBytes s p)

/-- Appending writer: on success the stream grows by the page's bytes;
on a validation failure the stream is returned unchanged. -/
def writeTo (s : Schema) (p : Page) (stream : Bytes) : Bytes × Option Err :=
  match write_page s p with
  | .error e => (stream, some e)
  | .ok bs => (stream ++ bs, none)

/-- Read one ASCII line holding exactly one token and parse it. -/
def readCellLine (t : ScalarType) (str : Bytes) : Except Err (Value × Bytes) := do
  let (ln, rest) ← readLine str
  let toks ← splitTokens ln
  match toks with
  | [tok] => do
    let v ← parseCell t tok
    .ok (v, rest)
  | _ => .error .FieldCountMismatch

/-- Read one ASCII line per given field and parse its value. -/
def readCellLines : List ScalarType → Bytes → Except Err (List Value × Bytes)
  | [], str => .ok ([], str)
  | t :: ts, str => do
    let (v, r1) ← readCellLine t str
    let (vs, r2) ← readCellLines ts r1
    .ok (v :: vs, r2)

/-- Read one ASCII data row: a line whose token count must equal the
declared column count (`FieldCountMismatch` otherwise). -/
def readRow (ts : List ScalarType) (str : Bytes) :
    Except Err (List Value × Bytes) := do
  let (ln, rest) ← readLine str
  let toks ← splitTokens ln
  if toks.length != ts.length then .error .FieldCountMismatch
  else do
    let vs ← parseCellList ts toks
    .ok (vs, rest)

/-- Read a declared number of ASCII rows. -/
def readRows (ts : List ScalarType) : Nat → Bytes →
    Except Err (List (List Value) × Bytes)
  | 0, str => .ok ([], str)
  | n + 1, str => do
    let (row, r1) ← readRow ts str
    let (rows, r2) ← readRows ts n r1
    .ok (row :: rows, r2)

/-- Modelled from the spec: under `no_row_counts` rows end at a blank
line or end-of-stream, without over-reading into the next page
(section 4.4).  The fuel argument bounds recursion by the stream length. -/
def readRowsNRC (ts : List ScalarType) : Nat → Bytes →
    Except Err (List (List Value) × Bytes)
  | _, [] => .ok ([], [])
  | 0, _ => .error .TruncatedStream
  | fuel + 1, str =>
    if str.head? = some 10 then .ok ([], str.tail)
    else do
      let (row, r1) ← readRow ts str
      let (rows, r2) ← readRowsNRC ts fuel r1
      .ok (row :: rows, r2)

/-- Read the ASCII row-count line. -/
def readCountLine (str : Bytes) : Except Err (Nat × Bytes) := do
  let (ln, rest) ← readLine str
  let toks ← splitTokens ln
  match toks with
  | [(false, txt)] =>
    match parseNatB txt with
    | some n => .ok (n, rest)
    | none => .error .TypeMismatch
  | _ => .error .FieldCountMismatch

/-- Read array lines: one line per array, token count must equal the
declared length. -/
def readArrayLines : List (ScalarType × Nat) → Bytes →
    Except Err (List (List Value) × Bytes)
  | [], str => .ok ([], str)
  | (t, len) :: fs, str => do
    let (ln, r1) ← readLine str
    let toks ← splitTokens ln
    if toks.length != len then .error .FieldCountMismatch
    else do
      let vs ← parseCellList (List.replicate len t) toks
      let (rest, r2) ← readArrayLines fs r1
      .ok (vs :: rest, r2)

/-- Decode one ASCII page from a nonempty stream. -/
def readPageAscii (s : Schema) (str : Bytes) : Except Err (Page × Bytes) := do
  let (params, r1) ← readCellLines (s.dataParameters.map (fun f => f.type)) str
  let colTypes := s.dataColumns.map (fun f => f.type)
  let (rc, rows, r2) ←
    (if s.no_row_counts then do
      let (rows, r2) ← readRowsNRC colTypes r1.length r1
      .ok (rows.length, rows, r2)
    else do
      let (rc, r1b) ← readCountLine r1
      let (rows, r2) ← readRows colTypes rc r1b
      .ok (rc, rows, r2) :
      Except Err (Nat × List (List Value) × Bytes))
  let (arrs, r3) ← readArrayLines
    (s.dataArrays.map (fun f => (f.type, f.field_length))) r2
  .ok (⟨params, rc, colsOf s.dataColumns.length rows, arrs⟩, r3)

/-- Decode the binary column block: `row_count` values per column. -/
def decodeColsBin (e : Endian) : List ScalarType → Nat → Bytes →
    Except Err (List (List Value) × Bytes)
  | [], _, str => .ok ([], str)
  | t :: ts, rc, str => do
    let (col, r1) ← decodeBinList e (List.replicate rc t) str
    let (cols, r2) ← decodeColsBin e ts rc r1
    .ok (col :: cols, r2)

/-- Decode the binary array block: each array's declared length of
values. -/
def decodeArrsBin (e : Endian) : List (ScalarType × Nat) → Bytes →
    Except Err (List (List Value) × Bytes)
  | [], str => .ok ([], str)
  | (t, len) :: fs, str => do
    let (vals, r1) ← decodeBinList e (List.replicate len t) str
    let (rest, r2) ← decodeArrsBin e fs r1
    .ok (vals :: rest, r2)

/-- Decode one binary page from a nonempty stream.  Binary pages always
carry an explicit 4-byte row count; under `no_row_counts` the stream
carries none and decoding fails with `RowCountRequired`. -/
def readPageBin (s : Schema) (str : Bytes) : Except Err (Page × Bytes) :=
  if s.no_row_counts then .error .RowCountRequired
  else do
    let (params, r1) ← decodeBinList s.endian
      (s.dataParameters.map (fun f => f.type)) str
    let (cb, r2) ← takeB 4 r1
    let rcI := fromTwos 32 (ordVal s.endian cb)
    if rcI < 0 then .error .TruncatedStream
    else do
      let (cols, r3) ← decodeColsBin s.endian
        (s.dataColumns.map (fun f => f.type)) rcI.toNat r2
      let (arrs, r4) ← decodeArrsBin s.endian
        (s.dataArrays.map (fun f => (f.type, f.field_length))) r3
      .ok (⟨params, rcI.toNat, cols, arrs⟩, r4)

/-- Modelled from the spec: `read_page` (section 4.5).  Returns `none`
(EndOfDocument) exactly when the stream is exhausted at a page boundary;
otherwise decodes one page per the schema's mode. -/
def read_page (s : Schema) (str : Bytes) : Except Err (Option (Page × Bytes)) :=
  if str = [] then .ok none
  else
    match s.mode with
    | .ascii =>
      match readPageAscii s str with
      | .error e => .error e
      | .ok (p, rest) => .ok (some (p, rest))
    | .binary =>
      match readPageBin s str with
      | .error e => .error e
      | .ok (p, rest) => .ok (some (p, rest))

/-! ## Documents -/

/-- A document: one schema plus its pages. -/
structure Document where
  schema : Schema
  pages : List Page
deriving DecidableEq, Repr

/-- Write all pages (fail-fast on the first invalid page). -/
def writePages (s : Schema) : List Page → Except Err Bytes
  | [] => .ok []
  | p :: ps => do
    let b ← write_page s p
    let bs ← writePages s ps
    .ok (b ++ bs)

/-- Modelled from the spec: `write` — re-render the header, then the
pages (section 2). -/
def writeDocument (d : Document) : Except Err Bytes := do
  let pb ← writePages d.schema d.pages
  .ok (renderSchema d.schema ++ pb)

/-- Read pages until EndOfDocument; fuel bounds the recursion by the
stream length. -/
def readPagesF (s : Schema) : Nat → Bytes → Except Err (List Page)
  | 0, _ => .error .TruncatedStream
  | fuel + 1, str =>
    match read_page s str with
    | .error e => .error e
    | .ok none => .ok []
    | .ok (some (p, rest)) => do
      let ps ← readPagesF s fuel rest
      .ok (p :: ps)

/-- Modelled from the spec: `read` — tokenize and parse the header, then
read pages until end-of-stream (section 2).  The caller supplies the
default endianness used when the header carries no directive. -/
def readDocument (dflt : Endian) (str : Bytes) : Except Err Document := do
  let (toks, rest) ← tokenize str
  let schema ← parseHeader dflt toks
  let pages ← readPagesF schema (rest.length + 1) rest
  .ok ⟨schema, pages⟩

/-- Validity of a whole document: valid schema, valid pages. -/
def ValidDocument (d : Document) : Prop :=
  ValidSchema d.schema ∧ ∀ p ∈ d.pages, validate_page d.schema p = .ok ()

/-! ## Decoder specifications -/

/-- A decoder consumes exactly `enc` producing `a`, whatever follows. -/
def DecodesX {α : Type} (d : Bytes → Except Err (α × Bytes)) (enc : Bytes)
    (a : α) : Prop :=
  ∀ rest, d (enc ++ rest) = .ok (a, rest)

/-- A decoder fails with `TruncatedStream` on every strict prefix of its
encoding. -/
def DecodesT {α : Type} (d : Bytes → Except Err (α × Bytes)) (enc : Bytes) :
    Prop :=
  ∀ n, n < enc.length → d (enc.take n) = .error .TruncatedStream

/-- Values match types pairwise and are in range. -/
def TypedList (ts : List ScalarType) (vs : List Value) : Prop :=
  List.Forall₂ (fun t v => hasType t v = true ∧ validValueB v = true) ts vs

/-- As `TypedList`, plus line-safety (no newline bytes in strings),
needed on the ASCII path. -/
def TypedListA (ts : List ScalarType) (vs : List Value) : Prop :=
  List.Forall₂ (fun t v =>
    hasType t v = true ∧ validValueB v = true ∧ lineSafeB v = true) ts vs

/-- The ASCII token a value renders to: quoted for strings, a bareword
for everything else. -/
def cellTok : Value → ATok
  | .vString s => (true, s)
  | .vDouble bits => (false, natDigits bits)
  | .vFloat bits => (false, natDigits bits)
  | .vLong i => (false, intDigits i)
  | .vShort i => (false, intDigits i)
  | .vChar b => (false, natDigits b)
  | .vBool b => (false, if b then [49] else [48])

/-! ## Concrete fixtures (from src/tests/headers.py) and witness data -/

/-- The schema of `header3` (OPAL `.stat` file): a description, three
parameters, 42 columns, `&data mode=ascii, no_row_counts=1`. -/
def schemaHeader3 : Schema :=
  { fields :=
  [
   ⟨.parameter, strB ("processors"), .long, none, 0, [(strB ("description"), strB ("Number of Cores used"))]⟩,
   ⟨.parameter, strB ("revision"), .string, none, 0, [(strB ("description"), strB ("git revision of opal"))]⟩,
   ⟨.parameter, strB ("flavor"), .string, none, 0, [(strB ("description"), strB ("OPAL flavor that wrote file"))]⟩,
   ⟨.column, strB ("t"), .double, none, 0, [(strB ("units"), strB ("ns")), (strB ("description"), strB ("1 Time"))]⟩,
   ⟨.column, strB ("s"), .double, none, 0, [(strB ("units"), strB ("m")), (strB ("description"), strB ("2 Average Longitudinal Position"))]⟩,
   ⟨.column, strB ("numParticles"), .long, none, 0, [(strB ("units"), strB ("1")), (strB ("description"), strB ("3 Number of Macro Particles"))]⟩,
   ⟨.column, strB ("charge"), .double, none, 0, [(strB ("units"), strB ("1")), (strB ("description"), strB ("4 Bunch Charge"))]⟩,
   ⟨.column, strB ("energy"), .double, none, 0, [(strB ("units"), strB ("MeV")), (strB ("description"), strB ("5 Mean Energy"))]⟩,
   ⟨.column, strB ("rms_x"), .double, none, 0, [(strB ("units"), strB ("m")), (strB ("description"), strB ("6 RMS Beamsize in x"))]⟩,
   ⟨.column, strB ("rms_y"), .double, none, 0, [(strB ("units"), strB ("m")), (strB ("description"), strB ("7 RMS Beamsize in y"))]⟩,
   ⟨.column, strB ("rms_s"), .double, none, 0, [(strB ("units"), strB ("m")), (strB ("description"), strB ("8 RMS Beamsize in s"))]⟩,
   ⟨.column, strB ("rms_px"), .double, none, 0, [(strB ("units"), strB ("1")), (strB ("description"), strB ("9 RMS Momenta in x"))]⟩,
   ⟨.column, strB ("rms_py"), .double, none, 0, [(strB ("units"), strB ("1")), (strB ("description"), strB ("10 RMS Momenta in y"))]⟩,
   ⟨.column, strB ("rms_ps"), .double, none, 0, [(strB ("units"), strB ("1")), (strB ("description"), strB ("11 RMS Momenta in s"))]⟩,
   ⟨.column, strB ("emit_x"), .double, none, 0, [(strB ("units"), strB ("m")), (strB ("description"), strB ("12 Normalized Emittance x"))]⟩,
   ⟨.column, strB ("emit_y"), .double, none, 0, [(strB ("units"), strB ("m")), (strB ("description"), strB ("13 Normalized Emittance y"))]⟩,
   ⟨.column, strB ("emit_s"), .double, none, 0, [(strB ("units"), strB ("m")), (strB ("description"), strB ("14 Normalized Emittance s"))]⟩,
   ⟨.column, strB ("mean_x"), .double, none, 0, [(strB ("units"), strB ("m")), (strB ("description"), strB ("15 Mean Beam Position in x"))]⟩,
   ⟨.column, strB ("mean_y"), .double, none, 0, [(strB ("units"), strB ("m")), (strB ("description"), strB ("16 Mean Beam Position in y"))]⟩,
   ⟨.column, strB ("mean_s"), .double, none, 0, [(strB ("units"), strB ("m")), (strB ("description"), strB ("17 Mean Beam Position in s"))]⟩,
   ⟨.column, strB ("ref_x"), .double, none, 0, [(strB ("units"), strB ("m")), (strB ("description"), strB ("18 x coordinate of reference particle in lab cs"))]⟩,
   ⟨.column, strB ("ref_y"), .double, none, 0, [(strB ("units"), strB ("m")), (strB ("description"), strB ("19 y coordinate of reference particle in lab cs"))]⟩,
   ⟨.column, strB ("ref_z"), .double, none, 0, [(strB ("units"), strB ("m")), (strB ("description"), strB ("20 z coordinate of reference particle in lab cs"))]⟩,
   ⟨.column, strB ("ref_px"), .double, none, 0, [(strB ("units"), strB ("1")), (strB ("description"), strB ("21 x momentum of reference particle in lab cs"))]⟩,
   ⟨.column, strB ("ref_py"), .double, none, 0, [(strB ("units"), strB ("1")), (strB ("description"), strB ("22 y momentum of reference particle in lab cs"))]⟩,
   ⟨.column, strB ("ref_pz"), .double, none, 0, [(strB ("units"), strB ("1")), (strB ("description"), strB ("23 z momentum of reference particle in lab cs"))]⟩,
   ⟨.column, strB ("max_x"), .double, none, 0, [(strB ("units"), strB ("m")), (strB ("description"), strB ("24 Max Beamsize in x"))]⟩,
   ⟨.column, strB ("max_y"), .double, none, 0, [(strB ("units"), strB ("m")), (strB ("description"), strB ("25 Max Beamsize in y"))]⟩,
   ⟨.column, strB ("max_s"), .double, none, 0, [(strB ("units"), strB ("m")), (strB ("description"), strB ("26 Max Beamsize in s"))]⟩,
   ⟨.column, strB ("xpx"), .double, none, 0, [(strB ("units"), strB ("1")), (strB ("description"), strB ("27 Correlation xpx"))]⟩,
   ⟨.column, strB ("ypy"), .double, none, 0, [(strB ("units"), strB ("1")), (strB ("description"), strB ("28 Correlation ypyy"))]⟩,
   ⟨.column, strB ("zpz"), .double, none, 0, [(strB ("units"), strB ("1")), (strB ("description"), strB ("29 Correlation zpz"))]⟩,
   ⟨.column, strB ("Dx"), .double, none, 0, [(strB ("units"), strB ("m")), (strB ("description"), strB ("30 Dispersion in x"))]⟩,
   ⟨.column, strB ("DDx"), .double, none, 0, [(strB ("units"), strB ("1")), (strB ("description"), strB ("31 Derivative of dispersion in x"))]⟩,
   ⟨.column, strB ("Dy"), .double, none, 0, [(strB ("units"), strB ("m")), (strB ("description"), strB ("32 Dispersion in y"))]⟩,
   ⟨.column, strB ("DDy"), .double, none, 0, [(strB ("units"), strB ("1")), (strB ("description"), strB ("33 Derivative of dispersion in y"))]⟩,
   ⟨.column, strB ("Bx_ref"), .double, none, 0, [(strB ("units"), strB ("T")), (strB ("description"), strB ("34 Bx-Field component of ref particle"))]⟩,
   ⟨.column, strB ("By_ref"), .double, none, 0, [(strB ("units"), strB ("T")), (strB ("description"), strB ("35 By-Field component of ref particle"))]⟩,
   ⟨.column, strB ("Bz_ref"), .double, none, 0, [(strB ("units"), strB ("T")), (strB ("description"), strB ("36 Bz-Field component of ref particle"))]⟩,
   ⟨.column, strB ("Ex_ref"), .double, none, 0, [(strB ("units"), strB ("MV/m")), (strB ("description"), strB ("37 Ex-Field component of ref particle"))]⟩,
   ⟨.column, strB ("Ey_ref"), .double, none, 0, [(strB ("units"), strB ("MV/m")), (strB ("description"), strB ("38 Ey-Field component of ref particle"))]⟩,
   ⟨.column, strB ("Ez_ref"), .double, none, 0, [(strB ("units"), strB ("MV/m")), (strB ("description"), strB ("39 Ez-Field component of ref particle"))]⟩,
   ⟨.column, strB ("dE"), .double, none, 0, [(strB ("units"), strB ("MeV")), (strB ("description"), strB ("40 energy spread of the beam"))]⟩,
   ⟨.column, strB ("dt"), .double, none, 0, [(strB ("units"), strB ("ns")), (strB ("description"), strB ("41 time step size"))]⟩,
   ⟨.column, strB ("partsOutside"), .double, none, 0, [(strB ("units"), strB ("1")), (strB ("description"), strB ("42 outside n*sigma of the beam"))]⟩
  ],
    mode := .ascii, endian := .little, no_row_counts := true,
    description := some [(strB ("text"), (strB ("Statistics data ") ++ [39] ++ strB ("spectrometer.in") ++ [39] ++ strB (" 31/12/2019 18:03:12"))), (strB ("contents"), strB ("stat parameters"))],
    includes := [] }

/-- A zero-row page under `schemaHeader3` (3 parameter values, 42 empty
columns). -/
def pageHeader3Zero : Page :=
  { params := [.vLong 4, .vString (strB ("abc")), .vString (strB ("OPAL"))],
    row_count := 0, columns := List.replicate 42 [], arrays := [] }

/-- A two-row page under `schemaHeader3` (column `numParticles` is the
only `long` column; the rest are `double`). -/
def pageHeader3Two : Page :=
  { params := [.vLong 8, .vString (strB ("abd")), .vString (strB ("OPAL"))],
    row_count := 2,
    columns := (List.range 42).map (fun i =>
      if i = 2 then [.vLong 1, .vLong 2] else [.vDouble 1, .vDouble 2]),
    arrays := [] }

/-- A small ASCII little-endian schema (one double parameter, one long
column). -/
def exSchemaAsc : Schema :=
  { fields := [⟨.parameter, strB ("par1"), .double, none, 0, []⟩,
               ⟨.column, strB ("col1"), .long, none, 0, []⟩],
    mode := .ascii, endian := .little, no_row_counts := false }

/-- A valid page for `exSchemaAsc`. -/
def exPageAsc : Page :=
  { params := [.vDouble 314], row_count := 2,
    columns := [[.vLong 1, .vLong (-2)]], arrays := [] }

/-- A one-page ASCII document. -/
def exDocAsc : Document := ⟨exSchemaAsc, [exPageAsc]⟩

/-- A small binary big-endian schema (one string parameter, one double
column). -/
def exSchemaBin : Schema :=
  { fields := [⟨.parameter, strB ("par1"), .string, none, 0, []⟩,
               ⟨.column, strB ("col1"), .double, none, 0, []⟩],
    mode := .binary, endian := .big, no_row_counts := false }

/-- A valid page for `exSchemaBin`. -/
def exPageBin : Page :=
  { params := [.vString (strB ("ab c"))], row_count := 1,
    columns := [[.vDouble 7]], arrays := [] }

/-- A two-page binary document. -/
def exDocBin : Document := ⟨exSchemaBin, [exPageBin, exPageBin]⟩

/-- The `SVNVersion` parameter of `header4`: a string parameter with
`fixed_value=26104M`. -/
def svnVersionField : FieldDef :=
  ⟨.parameter, strB ("SVNVersion"), .string, some (strB ("26104M")), 0,
    [(strB ("description"), strB ("SVN version number"))]⟩

/-- A binary little-endian schema holding `header4`'s fixed-value
parameter alongside an ordinary one. -/
def exSchemaFixed : Schema :=
  { fields := [⟨.parameter, strB ("Step"), .long, none, 0, []⟩,
               svnVersionField],
    mode := .binary, endian := .little, no_row_counts := false }

/-- A page for `exSchemaFixed`: one stored value (for `Step` only; the
fixed-value parameter stores nothing). -/
def exPageFixed : Page :=
  { params := [.vLong 42], row_count := 0, columns := [], arrays := [] }

/-- The key/value pairs of `header1`'s `col2` column command, whose
`symbol` value is the two-character string `&n`. -/
def h1Col2Pairs : List (Bytes × Bytes) :=
  [(strB ("name"), strB ("col2")), (strB ("type"), strB ("double")),
   (strB ("units"), strB ("m")), (strB ("symbol"), strB ("&n")),
   (strB ("description"), strB ("A test description"))]

/-- The first `&parameter` command of `header3` in its multi-line layout
(one `key=value` per line, indented by eight spaces). -/
def h3ParamFlds : List RFld :=
  [⟨strB ("name"), [], [], .bare (strB ("processors")),
      44 :: 10 :: List.replicate 8 32⟩,
   ⟨strB ("type"), [], [], .bare (strB ("long")),
      44 :: 10 :: List.replicate 8 32⟩,
   ⟨strB ("description"), [], [], .quoted (strB ("Number of Cores used")),
      [10]⟩]

/-! ## Decidability of the validity predicates -/

instance (k : Bytes) : Decidable (ValidKey k) :=
  decidable_of_iff (k ≠ [] ∧ ∀ b ∈ k, wordChar b = true) Iff.rfl

instance (l : Bytes) : Decidable (ValidWs l) :=
  decidable_of_iff (∀ b ∈ l, (isWs b || b == 10) = true) Iff.rfl

instance (l : Bytes) : Decidable (ValidSeekWs l) :=
  decidable_of_iff (∀ b ∈ l, (isWs b || b == 10 || b == 44) = true) Iff.rfl

instance : (rv : RVal) → Decidable (ValidRVal rv)
  | .bare [] => .isFalse (by
      intro h
      obtain ⟨_, ⟨c, cs, hc, _⟩, _⟩ := h
      cases hc)
  | .bare (c :: cs) => decidable_of_iff
      ((∀ b ∈ c :: cs, b ≠ 44 ∧ b ≠ 10 ∧ b ≠ 38) ∧
        (isWs c = false ∧ c ≠ 34) ∧ rtrimB (c :: cs) = c :: cs)
      (by
        constructor
        · rintro ⟨h1, ⟨h2a, h2b⟩, h3⟩
          exact ⟨h1, ⟨c, cs, rfl, h2a, h2b⟩, h3⟩
        · rintro ⟨h1, ⟨d, ds, hd, h2a, h2b⟩, h3⟩
          cases hd
          exact ⟨h1, ⟨h2a, h2b⟩, h3⟩)
  | .quoted _ => .isTrue trivial

instance : (rv : RVal) → (t : Bytes) → Decidable (ValidTerm rv t)
  | .bare _, [] => .isFalse (by
      intro h
      obtain ⟨c, cs, hc, _⟩ := h
      cases hc)
  | .bare _, c :: cs => decidable_of_iff ((c = 44 ∨ c = 10) ∧ ValidSeekWs cs)
      (by
        constructor
        · rintro ⟨h1, h2⟩
          exact ⟨c, cs, rfl, h1, h2⟩
        · rintro ⟨d, ds, hd, h1, h2⟩
          cases hd
          exact ⟨h1, h2⟩)
  | .quoted _, t => inferInstanceAs (Decidable (ValidSeekWs t))

instance (f : RFld) : Decidable (ValidRFld f) :=
  decidable_of_iff (ValidKey f.key ∧ ValidWs f.preEq ∧ ValidWs f.postEq ∧
    ValidRVal f.rv ∧ ValidTerm f.rv f.term) Iff.rfl

instance (s : Schema) : Decidable (ValidSchema s) := by
  unfold ValidSchema
  infer_instance

instance (d : Document) : Decidable (ValidDocument d) := by
  unfold ValidDocument
  infer_instance


end SDDS

namespace SDDS

/-! # THEOREMS -/

/-! ## Except plumbing -/

@[simp] theorem okBind {α β : Type} (a : α) (k : α → Except Err β) :
    (Except.ok a >>= k) = k a := rfl

@[simp] theorem errBind {α β : Type} (e : Err) (k : α → Except Err β) :
    ((Except.error e : Except Err α) >>= k) = .error e := rfl

/-! ## Decimal digits -/

theorem valRev_natDigitsAux :
    ∀ fuel n, n < 10 ^ fuel → valRev (natDigitsAux fuel n) = n := by
  intro fuel
  induction fuel with
  | zero => intro n h; simp at h; simp [h, natDigitsAux, valRev]
  | succ fuel ih =>
    intro n h
    by_cases h10 : n < 10
    · simp [natDigitsAux, h10, valRev]
    · have hdiv : n / 10 < 10 ^ fuel := by
        rw [Nat.div_lt_iff_lt_mul (by omega)]
        calc n < 10 ^ (fuel + 1) := h
        _ = 10 ^ fuel * 10 := by ring
      simp [natDigitsAux, h10, valRev, ih _ hdiv]
      omega

theorem valRev_natDigitsRev (n : Nat) : valRev (natDigitsRev n) = n := by
  have h1 : n < 10 ^ n := Nat.lt_pow_self (by norm_num) n
  have h2 : (10 : Nat) ^ n ≤ 10 ^ (n + 1) :=
    Nat.pow_le_pow_right (by norm_num) (Nat.le_succ n)
  exact valRev_natDigitsAux (n + 1) n (by omega)

theorem digitsToNat_natDigits (n : Nat) : digitsToNat (natDigits n) = n := by
  unfold digitsToNat natDigits
  rw [List.reverse_reverse]
  exact valRev_natDigitsRev n

theorem natDigitsAux_ne_nil (fuel n : Nat) : natDigitsAux (fuel + 1) n ≠ [] := by
  unfold natDigitsAux
  split <;> simp

theorem natDigits_ne_nil (n : Nat) : natDigits n ≠ [] := by
  unfold natDigits natDigitsRev
  simp only [ne_eq, List.reverse_eq_nil_iff]
  exact natDigitsAux_ne_nil n n

theorem natDigitsAux_digits :
    ∀ fuel n, ∀ b ∈ natDigitsAux fuel n, isDigit b = true := by
  intro fuel
  induction fuel with
  | zero => intro n b hb; simp [natDigitsAux] at hb
  | succ fuel ih =>
    intro n b hb
    unfold natDigitsAux at hb
    split at hb
    · simp at hb
      simp [hb, isDigit]
      omega
    · rcases List.mem_cons.mp hb with h | h
      · have : n % 10 < 10 := Nat.mod_lt _ (by omega)
        simp [h, isDigit]
        omega
      · exact ih _ _ h

theorem natDigits_digits (n : Nat) : ∀ b ∈ natDigits n, isDigit b = true := by
  intro b hb
  unfold natDigits natDigitsRev at hb
  exact natDigitsAux_digits _ _ _ (List.mem_reverse.mp hb)

theorem parseNatB_natDigits (n : Nat) : parseNatB (natDigits n) = some n := by
  unfold parseNatB
  rw [if_pos ⟨natDigits_ne_nil n, natDigits_digits n⟩, digitsToNat_natDigits]

theorem natDigits_head_digit (n : Nat) :
    ∃ b l, natDigits n = b :: l ∧ isDigit b = true := by
  rcases hl : natDigits n with _ | ⟨b, l⟩
  · exact absurd hl (natDigits_ne_nil n)
  · exact ⟨b, l, rfl, natDigits_digits n b (by rw [hl]; simp)⟩

theorem parseIntB_intDigits (i : Int) : parseIntB (intDigits i) = some i := by
  by_cases hneg : i < 0
  · have hl : intDigits i = 45 :: natDigits (-i).toNat := by
      unfold intDigits
      rw [if_pos hneg]
    rw [hl]
    unfold parseIntB
    rw [if_pos (by simp)]
    simp only [List.tail_cons, parseNatB_natDigits]
    have h2 : (((-i).toNat : Nat) : Int) = -i := Int.toNat_of_nonneg (by omega)
    rw [h2, neg_neg]
  · have hl : intDigits i = natDigits i.toNat := by
      unfold intDigits
      rw [if_neg hneg]
    rcases natDigits_head_digit i.toNat with ⟨b, l, hd, hdig⟩
    have hb : b ≠ 45 := by simp [isDigit] at hdig; omega
    rw [hl, hd]
    unfold parseIntB
    rw [if_neg (by simp [hb])]
    rw [← hd, parseNatB_natDigits]
    have h2 : ((i.toNat : Nat) : Int) = i := Int.toNat_of_nonneg (by omega)
    show some ((i.toNat : Nat) : Int) = some i
    rw [h2]

/-! ## Binary codec lemmas -/

theorem leBytes_length (w n : Nat) : (leBytes w n).length = w := by
  induction w generalizing n with
  | zero => rfl
  | succ w ih => simp [leBytes, ih]

theorem ordBytes_length (e : Endian) (w n : Nat) :
    (ordBytes e w n).length = w := by
  cases e <;> simp [ordBytes, leBytes_length]

theorem leVal_leBytes (w n : Nat) (h : n < 256 ^ w) :
    leVal (leBytes w n) = n := by
  induction w generalizing n with
  | zero => simp at h; simp [h, leBytes, leVal]
  | succ w ih =>
    have hdiv : n / 256 < 256 ^ w := by
      rw [Nat.div_lt_iff_lt_mul (by omega)]
      calc n < 256 ^ (w + 1) := h
      _ = 256 ^ w * 256 := by ring
    simp [leBytes, leVal, ih _ hdiv]
    omega

theorem ordVal_ordBytes (e : Endian) (w n : Nat) (h : n < 256 ^ w) :
    ordVal e (ordBytes e w n) = n := by
  cases e <;> simp [ordVal, ordBytes, List.reverse_reverse, leVal_leBytes w n h]

theorem toTwos32_lt (i : Int) : toTwos 32 i < 4294967296 := by
  unfold toTwos
  omega

theorem toTwos16_lt (i : Int) : toTwos 16 i < 65536 := by
  unfold toTwos
  omega

theorem fromTwos_toTwos32 (i : Int) (h1 : -(2 ^ 31) ≤ i) (h2 : i < 2 ^ 31) :
    fromTwos 32 (toTwos 32 i) = i := by
  unfold fromTwos toTwos
  norm_num at h1 h2 ⊢
  split <;> omega

theorem fromTwos_toTwos16 (i : Int) (h1 : -(2 ^ 15) ≤ i) (h2 : i < 2 ^ 15) :
    fromTwos 16 (toTwos 16 i) = i := by
  unfold fromTwos toTwos
  norm_num at h1 h2 ⊢
  split <;> omega

theorem takeB_X (k : Nat) (bs rest : Bytes) (h : bs.length = k) :
    takeB k (bs ++ rest) = .ok (bs, rest) := by
  unfold takeB
  rw [if_neg (by simp [h])]
  subst h
  rw [List.take_left, List.drop_left]

theorem takeB_T (k : Nat) (s : Bytes) (h : s.length < k) :
    takeB k s = .error .TruncatedStream := by
  unfold takeB
  rw [if_pos h]

theorem ordVal_toTwos32 (e : Endian) (i : Int) :
    ordVal e (ordBytes e 4 (toTwos 32 i)) = toTwos 32 i :=
  ordVal_ordBytes e 4 _ (by have := toTwos32_lt i; norm_num; omega)

theorem ordVal_toTwos16 (e : Endian) (i : Int) :
    ordVal e (ordBytes e 2 (toTwos 16 i)) = toTwos 16 i :=
  ordVal_ordBytes e 2 _ (by have := toTwos16_lt i; norm_num; omega)

theorem decodeBin_X (t : ScalarType) (e : Endian) (v : Value)
    (ht : hasType t v = true) (hv : validValueB v = true) :
    DecodesX (decodeBin t e) (encodeBin e v) v := by
  intro rest
  cases t <;> cases v <;> simp_all [hasType]
  case double bits =>
    simp only [decodeBin, encodeBin,
      takeB_X 8 _ rest (ordBytes_length e 8 bits), okBind]
    rw [ordVal_ordBytes e 8 bits (by simp [validValueB] at hv; norm_num; omega)]
  case float bits =>
    simp only [decodeBin, encodeBin,
      takeB_X 4 _ rest (ordBytes_length e 4 bits), okBind]
    rw [ordVal_ordBytes e 4 bits (by simp [validValueB] at hv; norm_num; omega)]
  case long i =>
    simp only [decodeBin, encodeBin,
      takeB_X 4 _ rest (ordBytes_length e 4 _), okBind]
    rw [ordVal_toTwos32, fromTwos_toTwos32 i (by simp [validValueB] at hv; omega)
      (by simp [validValueB] at hv; omega)]
  case short i =>
    simp only [decodeBin, encodeBin,
      takeB_X 2 _ rest (ordBytes_length e 2 _), okBind]
    rw [ordVal_toTwos16, fromTwos_toTwos16 i (by simp [validValueB] at hv; omega)
      (by simp [validValueB] at hv; omega)]
  case character b =>
    have hx : ([b] : Bytes).length = 1 := rfl
    simp only [decodeBin, encodeBin, List.cons_append, List.nil_append]
    rw [show (b :: rest : Bytes) = [b] ++ rest from rfl, takeB_X 1 _ rest hx]
    simp [leVal]
  case string s =>
    have hlen : s.length < 2 ^ 31 := by simp [validValueB] at hv; omega
    simp only [decodeBin, encodeBin, List.append_assoc,
      takeB_X 4 _ (s ++ rest) (ordBytes_length e 4 _), okBind]
    rw [ordVal_toTwos32,
      fromTwos_toTwos32 (s.length : Int) (by omega) (by exact_mod_cast hlen)]
    rw [if_neg (by omega)]
    rw [show ((s.length : Int)).toNat = s.length from rfl, takeB_X _ s rest rfl]
    rfl
  case boolean b =>
    have h1 : (if b then (1 : Nat) else 0) < 256 ^ 4 := by split <;> norm_num
    simp only [decodeBin, encodeBin,
      takeB_X 4 _ rest (ordBytes_length e 4 _), okBind]
    rw [ordVal_ordBytes e 4 _ h1]
    cases b <;> simp [fromTwos]

theorem decodeBin_T (t : ScalarType) (e : Endian) (v : Value)
    (ht : hasType t v = true) (hv : validValueB v = true) :
    DecodesT (decodeBin t e) (encodeBin e v) := by
  intro n hn
  cases t <;> cases v <;> simp_all [hasType]
  case double bits =>
    simp only [encodeBin, ordBytes_length] at hn
    have ht8 : takeB 8 ((encodeBin e (Value.vDouble bits)).take n) =
        .error .TruncatedStream :=
      takeB_T _ _ (by simp [encodeBin, List.length_take, ordBytes_length]; omega)
    simp only [decodeBin, ht8, errBind]
  case float bits =>
    simp only [encodeBin, ordBytes_length] at hn
    have ht4 : takeB 4 ((encodeBin e (Value.vFloat bits)).take n) =
        .error .TruncatedStream :=
      takeB_T _ _ (by simp [encodeBin, List.length_take, ordBytes_length]; omega)
    simp only [decodeBin, ht4, errBind]
  case long i =>
    simp only [encodeBin, ordBytes_length] at hn
    have ht4 : takeB 4 ((encodeBin e (Value.vLong i)).take n) =
        .error .TruncatedStream :=
      takeB_T _ _ (by simp [encodeBin, List.length_take, ordBytes_length]; omega)
    simp only [decodeBin, ht4, errBind]
  case short i =>
    simp only [encodeBin, ordBytes_length] at hn
    have ht2 : takeB 2 ((encodeBin e (Value.vShort i)).take n) =
        .error .TruncatedStream :=
      takeB_T _ _ (by simp [encodeBin, List.length_take, ordBytes_length]; omega)
    simp only [decodeBin, ht2, errBind]
  case character b =>
    simp only [encodeBin, List.length_cons, List.length_nil] at hn
    have ht1 : takeB 1 ((encodeBin e (Value.vChar b)).take n) =
        .error .TruncatedStream :=
      takeB_T _ _ (by simp [encodeBin, List.length_take]; omega)
    simp only [decodeBin, ht1, errBind]
  case string s =>
    have hlen : s.length < 2 ^ 31 := by simp [validValueB] at hv; omega
    simp only [encodeBin, List.length_append, ordBytes_length] at hn
    by_cases h4 : n < 4
    · have ht4 : takeB 4 ((encodeBin e (Value.vString s)).take n) =
          .error .TruncatedStream :=
        takeB_T _ _ (by
          simp [encodeBin, List.length_take, List.length_append, ordBytes_length]
          omega)
      simp only [decodeBin, ht4, errBind]
    · have htk : (ordBytes e 4 (toTwos 32 (s.length : Int)) ++ s).take n =
          ordBytes e 4 (toTwos 32 (s.length : Int)) ++ s.take (n - 4) := by
        rw [List.take_append_eq_append_take, ordBytes_length,
          List.take_of_length_le (by rw [ordBytes_length]; omega)]
      simp only [decodeBin, encodeBin, htk,
        takeB_X 4 _ (s.take (n - 4)) (ordBytes_length e 4 _), okBind]
      rw [ordVal_toTwos32,
        fromTwos_toTwos32 (s.length : Int) (by omega) (by exact_mod_cast hlen)]
      rw [if_neg (by omega)]
      rw [show ((s.length : Int)).toNat = s.length from rfl,
        takeB_T _ _ (by simp [List.length_take]; omega)]
      rfl
  case boolean b =>
    simp only [encodeBin, ordBytes_length] at hn
    have ht4 : takeB 4 ((encodeBin e (Value.vBool b)).take n) =
        .error .TruncatedStream :=
      takeB_T _ _ (by simp [encodeBin, List.length_take, ordBytes_length]; omega)
    simp only [decodeBin, ht4, errBind]

@[simp] theorem encodeBinList_nil (e : Endian) : encodeBinList e [] = [] := rfl

theorem encodeBinList_cons (e : Endian) (v : Value) (vs : List Value) :
    encodeBinList e (v :: vs) = encodeBin e v ++ encodeBinList e vs := by
  simp [encodeBinList]

theorem decodeBinList_X (e : Endian) :
    ∀ {ts vs}, TypedList ts vs → ∀ rest,
      decodeBinList e ts (encodeBinList e vs ++ rest) = .ok (vs, rest) := by
  intro ts vs h
  induction h with
  | nil => intro rest; simp [decodeBinList, encodeBinList]
  | @cons t v ts vs hd _ ih =>
    intro rest
    rw [encodeBinList_cons, List.append_assoc]
    simp only [decodeBinList]
    rw [decodeBin_X t e v hd.1 hd.2 (encodeBinList e vs ++ rest)]
    simp only [okBind]
    rw [ih rest]
    rfl

theorem decodeBinList_T (e : Endian) :
    ∀ {ts vs}, TypedList ts vs → ∀ n, n < (encodeBinList e vs).length →
      decodeBinList e ts ((encodeBinList e vs).take n) =
        .error .TruncatedStream := by
  intro ts vs h
  induction h with
  | nil => intro n hn; simp [encodeBinList] at hn
  | @cons t v ts vs hd _ ih =>
    intro n hn
    rw [encodeBinList_cons] at hn ⊢
    simp only [decodeBinList]
    by_cases hlt : n < (encodeBin e v).length
    · rw [List.take_append_of_le_length (by omega),
        decodeBin_T t e v hd.1 hd.2 n hlt]
      simp only [errBind]
    · rw [List.take_append_eq_append_take,
        List.take_of_length_le (by omega),
        decodeBin_X t e v hd.1 hd.2]
      simp only [okBind]
      rw [ih _ (by simp [List.length_append] at hn; omega)]
      simp only [errBind]

theorem decodeColsBin_X (e : Endian) (rc : Nat) :
    ∀ {ts cols},
      List.Forall₂ (fun t col => TypedList (List.replicate rc t) col) ts cols →
      ∀ rest, decodeColsBin e ts rc ((cols.map (encodeBinList e)).flatten ++ rest) =
        .ok (cols, rest) := by
  intro ts cols h
  induction h with
  | nil => intro rest; simp [decodeColsBin]
  | @cons t col ts cols hd _ ih =>
    intro rest
    simp only [List.map_cons, List.flatten_cons, List.append_assoc]
    simp only [decodeColsBin]
    rw [decodeBinList_X e hd ((cols.map (encodeBinList e)).flatten ++ rest)]
    simp only [okBind]
    rw [ih rest]
    rfl

theorem decodeColsBin_T (e : Endian) (rc : Nat) :
    ∀ {ts cols},
      List.Forall₂ (fun t col => TypedList (List.replicate rc t) col) ts cols →
      ∀ n, n < ((cols.map (encodeBinList e)).flatten).length →
      decodeColsBin e ts rc (((cols.map (encodeBinList e)).flatten).take n) =
        .error .TruncatedStream := by
  intro ts cols h
  induction h with
  | nil => intro n hn; simp at hn
  | @cons t col ts cols hd _ ih =>
    intro n hn
    simp only [List.map_cons, List.flatten_cons] at hn ⊢
    simp only [decodeColsBin]
    by_cases hlt : n < (encodeBinList e col).length
    · rw [List.take_append_of_le_length (by omega),
        decodeBinList_T e hd n hlt]
      simp only [errBind]
    · rw [List.take_append_eq_append_take,
        List.take_of_length_le (by omega),
        decodeBinList_X e hd]
      simp only [okBind]
      rw [ih _ (by simp [List.length_append, List.length_flatten, List.map_map] at hn ⊢; omega)]
      simp only [errBind]

theorem decodeArrsBin_X (e : Endian) :
    ∀ {fs arrs},
      List.Forall₂ (fun q vals => TypedList (List.replicate (Prod.snd q) (Prod.fst q)) vals)
        fs arrs →
      ∀ rest, decodeArrsBin e fs ((arrs.map (encodeBinList e)).flatten ++ rest) =
        .ok (arrs, rest) := by
  intro fs arrs h
  induction h with
  | nil => intro rest; simp [decodeArrsBin]
  | @cons q vals fs arrs hd _ ih =>
    intro rest
    simp only [List.map_cons, List.flatten_cons, List.append_assoc]
    rcases q with ⟨t, len⟩
    simp only [decodeArrsBin]
    rw [decodeBinList_X e hd ((arrs.map (encodeBinList e)).flatten ++ rest)]
    simp only [okBind]
    rw [ih rest]
    rfl

theorem decodeArrsBin_T (e : Endian) :
    ∀ {fs arrs},
      List.Forall₂ (fun q vals => TypedList (List.replicate (Prod.snd q) (Prod.fst q)) vals)
        fs arrs →
      ∀ n, n < ((arrs.map (encodeBinList e)).flatten).length →
      decodeArrsBin e fs (((arrs.map (encodeBinList e)).flatten).take n) =
        .error .TruncatedStream := by
  intro fs arrs h
  induction h with
  | nil => intro n hn; simp at hn
  | @cons q vals fs arrs hd _ ih =>
    intro n hn
    simp only [List.map_cons, List.flatten_cons] at hn ⊢
    rcases q with ⟨t, len⟩
    simp only [decodeArrsBin]
    by_cases hlt : n < (encodeBinList e vals).length
    · rw [List.take_append_of_le_length (by omega),
        decodeBinList_T e hd n hlt]
      simp only [errBind]
    · rw [List.take_append_eq_append_take,
        List.take_of_length_le (by omega),
        decodeBinList_X e hd]
      simp only [okBind]
      rw [ih _ (by simp [List.length_append, List.length_flatten, List.map_map] at hn ⊢; omega)]
      simp only [errBind]

/-! ## Validation extraction -/

theorem notTrue {b : Bool} (h : ¬ b = true) : (!b) = true := by
  cases b <;> simp_all

theorem notFalse {b : Bool} (h : b = true) : ¬ ((!b) = true) := by simp [h]

theorem bneNe {m n : Nat} (h : ¬ m = n) : (m != n) = true := by simpa using h

theorem bneEq {m n : Nat} (h : m = n) : ¬ ((m != n) = true) := by simp [h]

theorem validate_page_ok {s : Schema} {p : Page}
    (h : validate_page s p = .ok ()) :
    typedVals s.dataParameters p.params (s.mode == Mode.ascii) = true ∧
    p.columns.length = s.dataColumns.length ∧
    (p.columns.all fun col => col.length == p.row_count) = true ∧
    p.row_count < 2 ^ 31 ∧
    typedSeqs s.dataColumns p.columns (s.mode == Mode.ascii) = true ∧
    p.arrays.length = s.dataArrays.length ∧
    ((List.zip s.dataArrays p.arrays).all
      fun q => q.2.length == q.1.field_length) = true ∧
    typedSeqs s.dataArrays p.arrays (s.mode == Mode.ascii) = true := by
  unfold validate_page at h
  by_cases c1 : typedVals s.dataParameters p.params (s.mode == Mode.ascii) = true
  swap
  · rw [if_pos (notTrue c1)] at h
    exact absurd h (by simp)
  rw [if_neg (notFalse c1)] at h
  by_cases c2 : p.columns.length = s.dataColumns.length
  swap
  · rw [if_pos (bneNe c2)] at h
    exact absurd h (by simp)
  rw [if_neg (bneEq c2)] at h
  by_cases c3 : (p.columns.all fun col => col.length == p.row_count) = true
  swap
  · rw [if_pos (notTrue c3)] at h
    exact absurd h (by simp)
  rw [if_neg (notFalse c3)] at h
  by_cases c4 : 2 ^ 31 ≤ p.row_count
  · rw [if_pos c4] at h
    exact absurd h (by simp)
  rw [if_neg c4] at h
  by_cases c5 : typedSeqs s.dataColumns p.columns (s.mode == Mode.ascii) = true
  swap
  · rw [if_pos (notTrue c5)] at h
    exact absurd h (by simp)
  rw [if_neg (notFalse c5)] at h
  by_cases c6 : p.arrays.length = s.dataArrays.length
  swap
  · rw [if_pos (bneNe c6)] at h
    exact absurd h (by simp)
  rw [if_neg (bneEq c6)] at h
  by_cases c7 : ((List.zip s.dataArrays p.arrays).all
      fun q => q.2.length == q.1.field_length) = true
  swap
  · rw [if_pos (notTrue c7)] at h
    exact absurd h (by simp)
  rw [if_neg (notFalse c7)] at h
  by_cases c8 : typedSeqs s.dataArrays p.arrays (s.mode == Mode.ascii) = true
  swap
  · rw [if_pos (notTrue c8)] at h
    exact absurd h (by simp)
  exact ⟨c1, c2, c3, by omega, c5, c6, c7, c8⟩

theorem replicate_typedList {t : ScalarType} {col : List Value} {rc : Nat}
    {asc : Bool} (hlen : col.length = rc)
    (hall : (col.all fun v =>
      hasType t v && validValueB v && (!asc || lineSafeB v)) = true) :
    TypedList (List.replicate rc t) col := by
  subst hlen
  induction col with
  | nil => exact .nil
  | cons v col ih =>
    simp only [List.all_cons, Bool.and_eq_true, Bool.or_eq_true] at hall
    simp only [List.length_cons, List.replicate_succ]
    exact .cons ⟨hall.1.1.1, hall.1.1.2⟩ (ih (by
      simp only [List.all_eq_true] at hall ⊢
      intro v hv
      exact hall.2 v hv))

theorem typedVals_typedList {fs : List FieldDef} {vs : List Value} {asc : Bool}
    (h : typedVals fs vs asc = true) :
    TypedList (fs.map fun f => f.type) vs := by
  unfold typedVals at h
  rw [Bool.and_eq_true] at h
  have hlen : fs.length = vs.length := by simpa using h.1
  have hall := h.2
  clear h
  induction fs generalizing vs with
  | nil =>
    cases vs with
    | nil => exact .nil
    | cons v vs => simp at hlen
  | cons f fs ih =>
    cases vs with
    | nil => simp at hlen
    | cons v vs =>
      simp only [List.zip_cons_cons, List.all_cons, Bool.and_eq_true,
        Bool.or_eq_true] at hall
      simp only [List.map_cons]
      refine .cons ⟨hall.1.1.1, hall.1.1.2⟩ (ih (by simpa using hlen) ?_)
      simp only [List.all_eq_true]
      intro q hq
      have := hall.2
      simp only [List.all_eq_true] at this
      exact this q hq

theorem typedCols_rel {fs : List FieldDef} {seqs : List (List Value)}
    {asc : Bool} {rc : Nat} (hlen : fs.length = seqs.length)
    (hrc : (seqs.all fun col => col.length == rc) = true)
    (hts : typedSeqs fs seqs asc = true) :
    List.Forall₂ (fun t col => TypedList (List.replicate rc t) col)
      (fs.map fun f => f.type) seqs := by
  unfold typedSeqs at hts
  rw [Bool.and_eq_true] at hts
  have hall := hts.2
  clear hts
  induction fs generalizing seqs with
  | nil =>
    cases seqs with
    | nil => exact .nil
    | cons c cs => simp at hlen
  | cons f fs ih =>
    cases seqs with
    | nil => simp at hlen
    | cons col seqs =>
      simp only [List.zip_cons_cons, List.all_cons, Bool.and_eq_true] at hrc hall
      simp only [List.map_cons]
      refine .cons (replicate_typedList (by simpa using hrc.1) hall.1)
        (ih (by simpa using hlen) hrc.2 hall.2)

theorem typedArrs_rel {fs : List FieldDef} {seqs : List (List Value)}
    {asc : Bool} (hlen : fs.length = seqs.length)
    (hzip : ((List.zip fs seqs).all
      fun q => q.2.length == q.1.field_length) = true)
    (hts : typedSeqs fs seqs asc = true) :
    List.Forall₂
      (fun q vals => TypedList (List.replicate (Prod.snd q) (Prod.fst q)) vals)
      (fs.map fun f => (f.type, f.field_length)) seqs := by
  unfold typedSeqs at hts
  rw [Bool.and_eq_true] at hts
  have hall := hts.2
  clear hts
  induction fs generalizing seqs with
  | nil =>
    cases seqs with
    | nil => exact .nil
    | cons c cs => simp at hlen
  | cons f fs ih =>
    cases seqs with
    | nil => simp at hlen
    | cons col seqs =>
      simp only [List.zip_cons_cons, List.all_cons, Bool.and_eq_true] at hzip hall
      simp only [List.map_cons]
      refine .cons (replicate_typedList (by simpa using hzip.1) hall.1)
        (ih (by simpa using hlen) hzip.2 hall.2)

/-! ## Binary page round trip -/

theorem readPageBin_X (s : Schema) (p : Page) (hnrc : s.no_row_counts = false)
    (hv : validate_page s p = .ok ()) (rest : Bytes) :
    readPageBin s (encodePageBin s p ++ rest) = .ok (p, rest) := by
  obtain ⟨h1, h2, h3, h4, h5, h6, h7, h8⟩ := validate_page_ok hv
  have hparams := typedVals_typedList h1
  have hcols := typedCols_rel h2.symm h3 h5
  have harrs := typedArrs_rel h6.symm h7 h8
  unfold readPageBin encodePageBin
  rw [if_neg (by simp [hnrc])]
  simp only [List.append_assoc]
  rw [decodeBinList_X s.endian hparams]
  simp only [okBind]
  rw [takeB_X 4 _ _ (ordBytes_length s.endian 4 _)]
  simp only [okBind]
  rw [ordVal_toTwos32,
    fromTwos_toTwos32 (p.row_count : Int) (by omega) (by exact_mod_cast h4)]
  rw [if_neg (by omega)]
  rw [show ((p.row_count : Int)).toNat = p.row_count from rfl]
  rw [decodeColsBin_X s.endian p.row_count hcols]
  simp only [okBind]
  rw [decodeArrsBin_X s.endian harrs rest]
  rfl

theorem readPageBin_T (s : Schema) (p : Page) (hnrc : s.no_row_counts = false)
    (hv : validate_page s p = .ok ()) :
    ∀ n, n < (encodePageBin s p).length →
      readPageBin s ((encodePageBin s p).take n) = .error .TruncatedStream := by
  obtain ⟨h1, h2, h3, h4, h5, h6, h7, h8⟩ := validate_page_ok hv
  have hparams := typedVals_typedList h1
  have hcols := typedCols_rel h2.symm h3 h5
  have harrs := typedArrs_rel h6.symm h7 h8
  intro n hn
  unfold encodePageBin at hn ⊢
  unfold readPageBin
  rw [if_neg (by simp [hnrc])]
  simp only [List.append_assoc]
  simp only [List.length_append, ordBytes_length] at hn
  by_cases hp : n < (encodeBinList s.endian p.params).length
  · rw [List.take_append_of_le_length (by omega),
      decodeBinList_T s.endian hparams n hp]
    simp only [errBind]
  · rw [List.take_append_eq_append_take,
      List.take_of_length_le (by omega),
      decodeBinList_X s.endian hparams]
    simp only [okBind]
    by_cases hc : n - (encodeBinList s.endian p.params).length < 4
    · have ht4 : takeB 4 ((ordBytes s.endian 4 (toTwos 32 (p.row_count : Int)) ++
          ((p.columns.map (encodeBinList s.endian)).flatten ++
            (p.arrays.map (encodeBinList s.endian)).flatten)).take
          (n - (encodeBinList s.endian p.params).length)) = .error .TruncatedStream :=
        takeB_T _ _ (by simp [List.length_take]; omega)
      rw [ht4]
      simp only [errBind]
    · rw [List.take_append_eq_append_take,
        List.take_of_length_le (by rw [ordBytes_length]; omega),
        ordBytes_length]
      rw [takeB_X 4 _ _ (ordBytes_length s.endian 4 _)]
      simp only [okBind]
      rw [ordVal_toTwos32,
        fromTwos_toTwos32 (p.row_count : Int) (by omega) (by exact_mod_cast h4)]
      rw [if_neg (by omega)]
      rw [show ((p.row_count : Int)).toNat = p.row_count from rfl]
      by_cases hco : n - (encodeBinList s.endian p.params).length - 4 <
          ((p.columns.map (encodeBinList s.endian)).flatten).length
      · rw [List.take_append_of_le_length (by omega),
          decodeColsBin_T s.endian p.row_count hcols _ hco]
        simp only [errBind]
      · rw [List.take_append_eq_append_take,
          List.take_of_length_le (by omega),
          decodeColsBin_X s.endian p.row_count hcols]
        simp only [okBind]
        rw [decodeArrsBin_T s.endian harrs _ (by omega)]
        simp only [errBind]

/-! ## ASCII splitter lemmas -/

theorem mem_escapeB {b : Nat} {s : Bytes} (h : b ∈ escapeB s) :
    b = 92 ∨ b ∈ s := by
  unfold escapeB at h
  rw [List.mem_flatten] at h
  obtain ⟨l, hl, hbl⟩ := h
  rw [List.mem_map] at hl
  obtain ⟨c, hc, hcl⟩ := hl
  unfold esc1 at hcl
  split at hcl <;> subst hcl <;> simp at hbl
  · rcases hbl with h | h
    · exact .inl h
    · exact .inr (h ▸ hc)
  · exact .inr (hbl ▸ hc)

/-- Characters of a bareword token: not whitespace, not a quote. -/
def bareChar (b : Nat) : Prop := isWs b = false ∧ b ≠ 34

theorem digit_bareChar {b : Nat} (h : isDigit b = true) : bareChar b := by
  simp [isDigit] at h
  constructor <;> simp [isWs] <;> omega

theorem splitGo_between_ws (rest : Bytes) (b : Nat) (h : isWs b = true) :
    splitGo .between (b :: rest) = splitGo .between rest := by
  simp [splitGo, h]

theorem escapeB_cons (c : Nat) (s : Bytes) :
    escapeB (c :: s) = esc1 c ++ escapeB s := by
  simp [escapeB]

theorem splitGo_bare_accum :
    ∀ (w : Bytes), (∀ b ∈ w, bareChar b) → ∀ acc rest,
      splitGo (.inBare acc) (w ++ rest) = splitGo (.inBare (acc ++ w)) rest := by
  intro w hw
  induction w with
  | nil => intro acc rest; simp
  | cons b w ih =>
    intro acc rest
    have hb := hw b (List.mem_cons_self b w)
    have step : splitGo (.inBare acc) ((b :: w) ++ rest) =
        splitGo (.inBare (acc ++ [b])) (w ++ rest) := by
      simp [splitGo, hb.1, hb.2]
    rw [step, ih (fun c hc => hw c (List.mem_cons_of_mem _ hc)) (acc ++ [b]) rest]
    simp

theorem splitGo_quoted_accum :
    ∀ (s : Bytes) (acc rest : Bytes),
      splitGo (.inQuoted acc) (escapeB s ++ rest) =
        splitGo (.inQuoted (acc ++ s)) rest := by
  intro s
  induction s with
  | nil => intro acc rest; simp [escapeB]
  | cons c s ih =>
    intro acc rest
    rw [escapeB_cons, List.append_assoc]
    by_cases h34 : c = 34
    · subst h34
      have he : esc1 34 = [92, 34] := by simp [esc1]
      rw [he]
      have step : splitGo (.inQuoted acc) ([92, 34] ++ (escapeB s ++ rest)) =
          splitGo (.inQuoted (acc ++ [34])) (escapeB s ++ rest) := by
        simp [splitGo]
      rw [step, ih (acc ++ [34]) rest]
      simp
    · by_cases h92 : c = 92
      · subst h92
        have he : esc1 92 = [92, 92] := by simp [esc1]
        rw [he]
        have step : splitGo (.inQuoted acc) ([92, 92] ++ (escapeB s ++ rest)) =
            splitGo (.inQuoted (acc ++ [92])) (escapeB s ++ rest) := by
          simp [splitGo]
        rw [step, ih (acc ++ [92]) rest]
        simp
      · have he : esc1 c = [c] := by simp [esc1, h34, h92]
        rw [he]
        have step : splitGo (.inQuoted acc) ([c] ++ (escapeB s ++ rest)) =
            splitGo (.inQuoted (acc ++ [c])) (escapeB s ++ rest) := by
          simp [splitGo, h34, h92]
        rw [step, ih (acc ++ [c]) rest]
        simp

/-- A bareword token followed by a space: one token, then the rest. -/
theorem splitGo_bare_sp (w : Bytes) (hne : w ≠ [])
    (hw : ∀ b ∈ w, bareChar b) (rest : Bytes) :
    splitGo .between (w ++ 32 :: rest) =
      match splitGo .between rest with
      | .error e => .error e
      | .ok ts => .ok ((false, w) :: ts) := by
  rcases w with _ | ⟨b, w⟩
  · exact absurd rfl hne
  have hb := hw b (List.mem_cons_self b w)
  have step : splitGo .between ((b :: w) ++ 32 :: rest) =
      splitGo (.inBare [b]) (w ++ 32 :: rest) := by
    simp [splitGo, hb.1, hb.2]
  rw [step,
    splitGo_bare_accum w (fun c hc => hw c (List.mem_cons_of_mem _ hc)) [b]
      (32 :: rest)]
  simp [splitGo, isWs]

/-- A bareword token at the end of the line. -/
theorem splitGo_bare_end (w : Bytes) (hne : w ≠ [])
    (hw : ∀ b ∈ w, bareChar b) :
    splitGo .between w = .ok [(false, w)] := by
  rcases w with _ | ⟨b, w⟩
  · exact absurd rfl hne
  have hb := hw b (List.mem_cons_self b w)
  have step : splitGo .between (b :: w) =
      splitGo (.inBare [b]) (w ++ []) := by
    simp [splitGo, hb.1, hb.2]
  rw [step,
    splitGo_bare_accum w (fun c hc => hw c (List.mem_cons_of_mem _ hc)) [b] []]
  simp [splitGo]

/-- A quoted token followed by a space. -/
theorem splitGo_quoted_sp (s : Bytes) (rest : Bytes) :
    splitGo .between (([34] ++ escapeB s ++ [34]) ++ 32 :: rest) =
      match splitGo .between rest with
      | .error e => .error e
      | .ok ts => .ok ((true, s) :: ts) := by
  have step : splitGo .between (([34] ++ escapeB s ++ [34]) ++ 32 :: rest) =
      splitGo (.inQuoted []) (escapeB s ++ ([34] ++ 32 :: rest)) := by
    simp [splitGo, isWs]
  rw [step, splitGo_quoted_accum s [] ([34] ++ 32 :: rest)]
  simp only [List.nil_append]
  have step2 : splitGo (.inQuoted s) ([34] ++ 32 :: rest) =
      match splitGo .between (32 :: rest) with
      | .error e => .error e
      | .ok ts => .ok ((true, s) :: ts) := by
    simp [splitGo]
  rw [step2, splitGo_between_ws rest 32 (by simp [isWs])]

/-- A quoted token at the end of the line. -/
theorem splitGo_quoted_end (s : Bytes) :
    splitGo .between ([34] ++ escapeB s ++ [34]) = .ok [(true, s)] := by
  have step : splitGo .between ([34] ++ escapeB s ++ [34]) =
      splitGo (.inQuoted []) (escapeB s ++ [34]) := by
    simp [splitGo, isWs]
  rw [step, splitGo_quoted_accum s [] [34]]
  simp only [List.nil_append]
  simp [splitGo]

/-! ## ASCII cell lemmas -/

theorem intDigits_ne_nil (i : Int) : intDigits i ≠ [] := by
  unfold intDigits
  split
  · simp
  · exact natDigits_ne_nil _

theorem intDigits_chars (i : Int) :
    ∀ b ∈ intDigits i, b = 45 ∨ isDigit b = true := by
  intro b hb
  unfold intDigits at hb
  split at hb
  · rcases List.mem_cons.mp hb with h | h
    · exact .inl h
    · exact .inr (natDigits_digits _ _ h)
  · exact .inr (natDigits_digits _ _ hb)

theorem intDigits_bareChar (i : Int) : ∀ b ∈ intDigits i, bareChar b := by
  intro b hb
  rcases intDigits_chars i b hb with h | h
  · subst h
    constructor <;> simp [isWs]
  · exact digit_bareChar h

theorem natDigits_bareChar (n : Nat) : ∀ b ∈ natDigits n, bareChar b :=
  fun b hb => digit_bareChar (natDigits_digits n b hb)

theorem splitGo_cell_sp (v : Value) (rest : Bytes) :
    splitGo .between (renderCell v ++ 32 :: rest) =
      match splitGo .between rest with
      | .error e => .error e
      | .ok ts => .ok (cellTok v :: ts) := by
  cases v with
  | vString s => exact splitGo_quoted_sp s rest
  | vDouble bits =>
    exact splitGo_bare_sp _ (natDigits_ne_nil bits) (natDigits_bareChar bits) rest
  | vFloat bits =>
    exact splitGo_bare_sp _ (natDigits_ne_nil bits) (natDigits_bareChar bits) rest
  | vLong i =>
    exact splitGo_bare_sp _ (intDigits_ne_nil i) (intDigits_bareChar i) rest
  | vShort i =>
    exact splitGo_bare_sp _ (intDigits_ne_nil i) (intDigits_bareChar i) rest
  | vChar b =>
    exact splitGo_bare_sp _ (natDigits_ne_nil b) (natDigits_bareChar b) rest
  | vBool b =>
    cases b
    · exact splitGo_bare_sp [48] (by simp)
        (by intro c hc; simp at hc; subst hc; exact ⟨by simp [isWs], by omega⟩) rest
    · exact splitGo_bare_sp [49] (by simp)
        (by intro c hc; simp at hc; subst hc; exact ⟨by simp [isWs], by omega⟩) rest

theorem splitGo_cell_end (v : Value) :
    splitGo .between (renderCell v) = .ok [cellTok v] := by
  cases v with
  | vString s => exact splitGo_quoted_end s
  | vDouble bits =>
    exact splitGo_bare_end _ (natDigits_ne_nil bits) (natDigits_bareChar bits)
  | vFloat bits =>
    exact splitGo_bare_end _ (natDigits_ne_nil bits) (natDigits_bareChar bits)
  | vLong i =>
    exact splitGo_bare_end _ (intDigits_ne_nil i) (intDigits_bareChar i)
  | vShort i =>
    exact splitGo_bare_end _ (intDigits_ne_nil i) (intDigits_bareChar i)
  | vChar b =>
    exact splitGo_bare_end _ (natDigits_ne_nil b) (natDigits_bareChar b)
  | vBool b =>
    cases b
    · exact splitGo_bare_end [48] (by simp)
        (by intro c hc; simp at hc; subst hc; exact ⟨by simp [isWs], by omega⟩)
    · exact splitGo_bare_end [49] (by simp)
        (by intro c hc; simp at hc; subst hc; exact ⟨by simp [isWs], by omega⟩)

theorem parseCell_cellTok (t : ScalarType) (v : Value)
    (ht : hasType t v = true) :
    parseCell t (cellTok v) = .ok v := by
  cases t <;> cases v <;> simp_all [hasType]
  case double bits => simp [parseCell, cellTok, parseNatB_natDigits]
  case float bits => simp [parseCell, cellTok, parseNatB_natDigits]
  case long i => simp [parseCell, cellTok, parseIntB_intDigits]
  case short i => simp [parseCell, cellTok, parseIntB_intDigits]
  case character b => simp [parseCell, cellTok, parseNatB_natDigits]
  case string s => rfl
  case boolean b => cases b <;> decide

theorem splitTokens_cells (vs : List Value) :
    splitTokens (joinSp (vs.map renderCell)) = .ok (vs.map cellTok) := by
  induction vs with
  | nil => rfl
  | cons v vs ih =>
    cases vs with
    | nil =>
      show splitGo .between (joinSp [renderCell v]) = _
      simp only [joinSp]
      rw [splitGo_cell_end v]
      rfl
    | cons v2 vs2 =>
      show splitGo .between (joinSp (renderCell v :: renderCell v2 ::
        List.map renderCell vs2)) = _
      simp only [joinSp]
      rw [show renderCell v ++ [32] ++ joinSp (renderCell v2 ::
        List.map renderCell vs2) = renderCell v ++ 32 ::
        joinSp (renderCell v2 :: List.map renderCell vs2) by simp]
      rw [splitGo_cell_sp v]
      rw [show splitGo SplState.between (joinSp (renderCell v2 ::
        List.map renderCell vs2)) = splitTokens (joinSp (List.map renderCell
        (v2 :: vs2))) from rfl]
      rw [ih]
      rfl

/-! ## Line reading -/

theorem readLine_X (l : Bytes) (hl : ∀ b ∈ l, b ≠ 10) (rest : Bytes) :
    readLine (l ++ 10 :: rest) = .ok (l, rest) := by
  induction l with
  | nil => simp [readLine]
  | cons b l ih =>
    have hb := hl b (List.mem_cons_self b l)
    simp only [List.cons_append, readLine, List.append_eq]
    rw [if_neg hb, ih (fun c hc => hl c (List.mem_cons_of_mem _ hc))]

theorem readLine_T (l : Bytes) (hl : ∀ b ∈ l, b ≠ 10) :
    readLine l = .error .TruncatedStream := by
  induction l with
  | nil => rfl
  | cons b l ih =>
    have hb := hl b (List.mem_cons_self b l)
    simp only [readLine]
    rw [if_neg hb, ih (fun c hc => hl c (List.mem_cons_of_mem _ hc))]

theorem renderCell_no_nl (v : Value) (hs : lineSafeB v = true) :
    ∀ b ∈ renderCell v, b ≠ 10 := by
  intro b hb
  cases v with
  | vString s =>
    simp only [renderCell, List.cons_append, List.nil_append] at hb
    rcases List.mem_cons.mp hb with h | h
    · omega
    · rcases List.mem_append.mp h with h2 | h2
      · rcases mem_escapeB h2 with h3 | h3
        · omega
        · simp [lineSafeB, List.all_eq_true] at hs
          exact hs b h3
      · simp at h2
        omega
  | vDouble bits => have := natDigits_digits bits b hb; simp [isDigit] at this; omega
  | vFloat bits => have := natDigits_digits bits b hb; simp [isDigit] at this; omega
  | vChar c => have := natDigits_digits c b hb; simp [isDigit] at this; omega
  | vLong i =>
    rcases intDigits_chars i b hb with h | h
    · omega
    · simp [isDigit] at h; omega
  | vShort i =>
    rcases intDigits_chars i b hb with h | h
    · omega
    · simp [isDigit] at h; omega
  | vBool c =>
    cases c <;> simp [renderCell] at hb <;> omega

theorem joinSp_no_nl (ls : List Bytes) (h : ∀ l ∈ ls, ∀ b ∈ l, b ≠ 10) :
    ∀ b ∈ joinSp ls, b ≠ 10 := by
  induction ls with
  | nil => intro b hb; simp [joinSp] at hb
  | cons l ls ih =>
    intro b hb
    cases ls with
    | nil => exact h l (by simp) b (by simpa [joinSp] using hb)
    | cons l2 ls2 =>
      simp only [joinSp, List.append_assoc, List.mem_append] at hb
      rcases hb with h1 | h1
      · exact h l (by simp) b h1
      · rcases h1 with h2 | h2
        · simp at h2
          omega
        · exact ih (fun m hm => h m (List.mem_cons_of_mem _ hm)) b h2

/-! ## ASCII cell-line and row lemmas -/

theorem typedListA_safe {ts : List ScalarType} {vs : List Value}
    (h : TypedListA ts vs) : ∀ v ∈ vs, lineSafeB v = true := by
  induction h with
  | nil => intro v hv; simp at hv
  | cons hd _ ih =>
    intro v hv
    rcases List.mem_cons.mp hv with h1 | h1
    · exact h1 ▸ hd.2.2
    · exact ih v h1

theorem parseCellList_cellToks :
    ∀ {ts : List ScalarType} {vs : List Value}, TypedListA ts vs →
      parseCellList ts (vs.map cellTok) = .ok vs := by
  intro ts vs h
  induction h with
  | nil => rfl
  | @cons t v ts vs hd _ ih =>
    simp only [List.map_cons, parseCellList]
    rw [parseCell_cellTok t v hd.1]
    simp only [okBind]
    rw [ih]
    rfl

theorem readCellLine_X (t : ScalarType) (v : Value) (ht : hasType t v = true)
    (hsafe : lineSafeB v = true) (rest : Bytes) :
    readCellLine t (lineOf (renderCell v) ++ rest) = .ok (v, rest) := by
  unfold readCellLine lineOf
  rw [show (renderCell v ++ [10]) ++ rest = renderCell v ++ 10 :: rest by simp]
  rw [readLine_X _ (renderCell_no_nl v hsafe)]
  simp only [okBind]
  rw [show splitTokens (renderCell v) = .ok [cellTok v] from splitGo_cell_end v]
  simp only [okBind]
  rw [parseCell_cellTok t v ht]
  rfl

theorem readCellLine_T (t : ScalarType) (v : Value)
    (hsafe : lineSafeB v = true) :
    ∀ n, n < (lineOf (renderCell v)).length →
      readCellLine t ((lineOf (renderCell v)).take n) =
        .error .TruncatedStream := by
  intro n hn
  unfold lineOf at hn ⊢
  simp only [List.length_append, List.length_cons, List.length_nil] at hn
  rw [List.take_append_of_le_length (by omega)]
  unfold readCellLine
  rw [readLine_T _ (fun b hb =>
    renderCell_no_nl v hsafe b (List.take_subset n _ hb))]
  rfl

theorem cellLines_cons (v : Value) (vs : List Value) :
    cellLines (v :: vs) = lineOf (renderCell v) ++ cellLines vs := by
  simp [cellLines]

theorem readCellLines_X :
    ∀ {ts vs}, TypedListA ts vs → ∀ rest,
      readCellLines ts (cellLines vs ++ rest) = .ok (vs, rest) := by
  intro ts vs h
  induction h with
  | nil => intro rest; simp [readCellLines, cellLines]
  | @cons t v ts vs hd _ ih =>
    intro rest
    rw [cellLines_cons, List.append_assoc]
    simp only [readCellLines]
    rw [readCellLine_X t v hd.1 hd.2.2]
    simp only [okBind]
    rw [ih rest]
    rfl

theorem readCellLines_T :
    ∀ {ts vs}, TypedListA ts vs → ∀ n, n < (cellLines vs).length →
      readCellLines ts ((cellLines vs).take n) = .error .TruncatedStream := by
  intro ts vs h
  induction h with
  | nil => intro n hn; simp [cellLines] at hn
  | @cons t v ts vs hd _ ih =>
    intro n hn
    rw [cellLines_cons] at hn ⊢
    simp only [readCellLines]
    by_cases hlt : n < (lineOf (renderCell v)).length
    · rw [List.take_append_of_le_length (by omega),
        readCellLine_T t v hd.2.2 n hlt]
      rfl
    · rw [List.take_append_eq_append_take,
        List.take_of_length_le (by omega),
        readCellLine_X t v hd.1 hd.2.2]
      simp only [okBind]
      rw [ih _ (by simp [List.length_append] at hn; omega)]
      rfl

theorem readCountLine_X (rc : Nat) (rest : Bytes) :
    readCountLine (lineOf (natDigits rc) ++ rest) = .ok (rc, rest) := by
  unfold readCountLine lineOf
  rw [show (natDigits rc ++ [10]) ++ rest = natDigits rc ++ 10 :: rest by simp]
  rw [readLine_X _ (fun b hb => by
    have := natDigits_digits rc b hb
    simp [isDigit] at this
    omega)]
  simp only [okBind]
  rw [show splitTokens (natDigits rc) = .ok [(false, natDigits rc)] from
    splitGo_bare_end _ (natDigits_ne_nil rc) (natDigits_bareChar rc)]
  simp only [okBind, parseNatB_natDigits]

theorem readCountLine_T (rc : Nat) :
    ∀ n, n < (lineOf (natDigits rc)).length →
      readCountLine ((lineOf (natDigits rc)).take n) =
        .error .TruncatedStream := by
  intro n hn
  unfold lineOf at hn ⊢
  simp only [List.length_append, List.length_cons, List.length_nil] at hn
  rw [List.take_append_of_le_length (by omega)]
  unfold readCountLine
  rw [readLine_T _ (fun b hb => by
    have := natDigits_digits rc b (List.take_subset n _ hb)
    simp [isDigit] at this
    omega)]
  rfl

theorem rowLine_no_nl {ts : List ScalarType} {row : List Value}
    (h : TypedListA ts row) :
    ∀ b ∈ joinSp (row.map renderCell), b ≠ 10 := by
  apply joinSp_no_nl
  intro l hl
  rw [List.mem_map] at hl
  obtain ⟨v, hv, hlv⟩ := hl
  exact hlv ▸ renderCell_no_nl v (typedListA_safe h v hv)

theorem readRow_X {ts : List ScalarType} {row : List Value}
    (h : TypedListA ts row) (rest : Bytes) :
    readRow ts (lineOf (joinSp (row.map renderCell)) ++ rest) =
      .ok (row, rest) := by
  unfold readRow lineOf
  rw [show (joinSp (row.map renderCell) ++ [10]) ++ rest =
    joinSp (row.map renderCell) ++ 10 :: rest by simp]
  rw [readLine_X _ (rowLine_no_nl h)]
  simp only [okBind]
  rw [show splitTokens (joinSp (row.map renderCell)) =
    .ok (row.map cellTok) from splitTokens_cells row]
  simp only [okBind]
  rw [if_neg (by simp [List.length_map, h.length_eq])]
  rw [parseCellList_cellToks h]
  rfl

theorem readRow_T {ts : List ScalarType} {row : List Value}
    (h : TypedListA ts row) :
    ∀ n, n < (lineOf (joinSp (row.map renderCell))).length →
      readRow ts ((lineOf (joinSp (row.map renderCell))).take n) =
        .error .TruncatedStream := by
  intro n hn
  unfold lineOf at hn ⊢
  simp only [List.length_append, List.length_cons, List.length_nil] at hn
  rw [List.take_append_of_le_length (by omega)]
  unfold readRow
  rw [readLine_T _ (fun b hb => rowLine_no_nl h b (List.take_subset n _ hb))]
  rfl

theorem rowLines_cons (row : List Value) (rows : List (List Value)) :
    rowLines (row :: rows) =
      lineOf (joinSp (row.map renderCell)) ++ rowLines rows := by
  simp [rowLines]

theorem readRows_X {ts : List ScalarType} :
    ∀ {rows : List (List Value)}, (∀ row ∈ rows, TypedListA ts row) →
      ∀ rest, readRows ts rows.length (rowLines rows ++ rest) =
        .ok (rows, rest) := by
  intro rows h
  induction rows with
  | nil => intro rest; simp [readRows, rowLines]
  | cons row rows ih =>
    intro rest
    rw [rowLines_cons, List.append_assoc]
    simp only [List.length_cons, readRows]
    rw [readRow_X (h row (List.mem_cons_self row rows)) _]
    simp only [okBind]
    rw [ih (fun r hr => h r (List.mem_cons_of_mem _ hr)) rest]
    rfl

theorem readRows_T {ts : List ScalarType} :
    ∀ {rows : List (List Value)}, (∀ row ∈ rows, TypedListA ts row) →
      ∀ n, n < (rowLines rows).length →
        readRows ts rows.length ((rowLines rows).take n) =
          .error .TruncatedStream := by
  intro rows h
  induction rows with
  | nil => intro n hn; simp [rowLines] at hn
  | cons row rows ih =>
    intro n hn
    rw [rowLines_cons] at hn ⊢
    simp only [List.length_cons, readRows]
    by_cases hlt : n < (lineOf (joinSp (row.map renderCell))).length
    · rw [List.take_append_of_le_length (by omega),
        readRow_T (h row (List.mem_cons_self row rows)) n hlt]
      rfl
    · rw [List.take_append_eq_append_take,
        List.take_of_length_le (by omega),
        readRow_X (h row (List.mem_cons_self row rows))]
      simp only [okBind]
      rw [ih (fun r hr => h r (List.mem_cons_of_mem _ hr)) _
        (by simp [List.length_append] at hn; omega)]
      rfl

theorem renderCell_ne_nil (v : Value) : renderCell v ≠ [] := by
  cases v with
  | vString s => simp [renderCell]
  | vDouble bits => exact natDigits_ne_nil bits
  | vFloat bits => exact natDigits_ne_nil bits
  | vLong i => exact intDigits_ne_nil i
  | vShort i => exact intDigits_ne_nil i
  | vChar b => exact natDigits_ne_nil b
  | vBool b => cases b <;> simp [renderCell]

theorem readRowsNRC_X {ts : List ScalarType} (hts : ts ≠ []) :
    ∀ {rows : List (List Value)}, (∀ row ∈ rows, TypedListA ts row) →
      ∀ fuel rest, (rowLines rows).length + 1 ≤ fuel →
        readRowsNRC ts fuel (rowLines rows ++ 10 :: rest) =
          .ok (rows, rest) := by
  intro rows h
  induction rows with
  | nil =>
    intro fuel rest hfuel
    rcases fuel with _ | f
    · simp [rowLines] at hfuel
    · simp [rowLines, readRowsNRC]
  | cons row rows ih =>
    intro fuel rest hfuel
    have hrow := h row (List.mem_cons_self row rows)
    have hrowlen : row ≠ [] := by
      intro hc
      subst hc
      have := hrow.length_eq
      simp at this
      exact hts (by
        cases ts with
        | nil => rfl
        | cons a l => simp at this)
    rcases fuel with _ | f
    · rw [rowLines_cons] at hfuel
      simp [lineOf, List.length_append] at hfuel
    rw [rowLines_cons, List.append_assoc]
    obtain ⟨v0, row2, hv0⟩ : ∃ v0 row2, row = v0 :: row2 := by
      cases row with
      | nil => exact absurd rfl hrowlen
      | cons a l => exact ⟨a, l, rfl⟩
    have hne : joinSp (row.map renderCell) ≠ [] := by
      subst hv0
      cases row2 with
      | nil => simpa [joinSp] using renderCell_ne_nil v0
      | cons b l => simp [joinSp]
    obtain ⟨c, lrest, hc⟩ : ∃ c lrest, joinSp (row.map renderCell) = c :: lrest := by
      cases hl : joinSp (row.map renderCell) with
      | nil => exact absurd hl hne
      | cons a l => exact ⟨a, l, rfl⟩
    have hcne : c ≠ 10 := rowLine_no_nl hrow c (by rw [hc]; simp)
    have hstream : lineOf (joinSp (row.map renderCell)) ++
        (rowLines rows ++ 10 :: rest) = c :: (lrest ++ [10] ++
        (rowLines rows ++ 10 :: rest)) := by
      rw [lineOf, hc]
      simp
    rw [hstream]
    simp only [readRowsNRC]
    rw [if_neg (by simp [hcne])]
    rw [show (c :: (lrest ++ [10] ++ (rowLines rows ++ 10 :: rest)) : Bytes) =
      lineOf (joinSp (row.map renderCell)) ++ (rowLines rows ++ 10 :: rest) by
        rw [lineOf, hc]; simp]
    rw [readRow_X hrow]
    simp only [okBind]
    rw [ih (fun r hr => h r (List.mem_cons_of_mem _ hr)) f rest (by
      rw [rowLines_cons] at hfuel
      simp only [List.length_append] at hfuel
      have : (lineOf (joinSp (row.map renderCell))).length ≥ 1 := by
        simp [lineOf]
      omega)]
    rfl

/-! ## ASCII array lines -/

theorem readArrayLines_X :
    ∀ {fs : List (ScalarType × Nat)} {arrs : List (List Value)},
      List.Forall₂
        (fun q vals => TypedListA (List.replicate (Prod.snd q) (Prod.fst q)) vals)
        fs arrs →
      ∀ rest, readArrayLines fs (rowLines arrs ++ rest) = .ok (arrs, rest) := by
  intro fs arrs h
  induction h with
  | nil => intro rest; simp [readArrayLines, rowLines]
  | @cons q vals fs arrs hd _ ih =>
    intro rest
    rcases q with ⟨t, len⟩
    rw [rowLines_cons, List.append_assoc]
    simp only [readArrayLines]
    rw [show lineOf (joinSp (vals.map renderCell)) ++ (rowLines arrs ++ rest) =
      joinSp (vals.map renderCell) ++ 10 :: (rowLines arrs ++ rest) by
        simp [lineOf]]
    rw [readLine_X _ (rowLine_no_nl hd)]
    simp only [okBind]
    rw [show splitTokens (joinSp (vals.map renderCell)) =
      .ok (vals.map cellTok) from splitTokens_cells vals]
    simp only [okBind]
    have hlen : vals.length = len := by
      have := hd.length_eq
      simpa using this.symm
    rw [if_neg (by simp [List.length_map, hlen])]
    rw [parseCellList_cellToks hd]
    simp only [okBind]
    rw [ih rest]
    rfl

theorem readArrayLines_T :
    ∀ {fs : List (ScalarType × Nat)} {arrs : List (List Value)},
      List.Forall₂
        (fun q vals => TypedListA (List.replicate (Prod.snd q) (Prod.fst q)) vals)
        fs arrs →
      ∀ n, n < (rowLines arrs).length →
        readArrayLines fs ((rowLines arrs).take n) = .error .TruncatedStream := by
  intro fs arrs h
  induction h with
  | nil => intro n hn; simp [rowLines] at hn
  | @cons q vals fs arrs hd _ ih =>
    intro n hn
    rcases q with ⟨t, len⟩
    rw [rowLines_cons] at hn ⊢
    simp only [readArrayLines]
    by_cases hlt : n < (lineOf (joinSp (vals.map renderCell))).length
    · rw [List.take_append_of_le_length (by omega)]
      unfold lineOf at hlt ⊢
      simp only [List.length_append, List.length_cons, List.length_nil] at hlt
      rw [List.take_append_of_le_length (by omega)]
      rw [readLine_T _ (fun b hb =>
        rowLine_no_nl hd b (List.take_subset n _ hb))]
      rfl
    · rw [List.take_append_eq_append_take,
        List.take_of_length_le (by omega)]
      rw [show lineOf (joinSp (vals.map renderCell)) ++
        ((rowLines arrs).take (n - (lineOf (joinSp (vals.map renderCell))).length)) =
        joinSp (vals.map renderCell) ++ 10 ::
        ((rowLines arrs).take (n - (lineOf (joinSp (vals.map renderCell))).length)) by
          simp [lineOf]]
      rw [readLine_X _ (rowLine_no_nl hd)]
      simp only [okBind]
      rw [show splitTokens (joinSp (vals.map renderCell)) =
        .ok (vals.map cellTok) from splitTokens_cells vals]
      simp only [okBind]
      have hlen : vals.length = len := by
        have := hd.length_eq
        simpa using this.symm
      rw [if_neg (by simp [List.length_map, hlen])]
      rw [parseCellList_cellToks hd]
      simp only [okBind]
      rw [ih _ (by simp [List.length_append] at hn; omega)]
      rfl

/-! ## Transpose lemmas -/

theorem rowsOf_length (rc : Nat) (cols : List (List Value)) :
    (rowsOf rc cols).length = rc := by
  simp [rowsOf]

theorem colsOf_rowsOf (cols : List (List Value)) (rc : Nat)
    (h : ∀ col ∈ cols, col.length = rc) :
    colsOf cols.length (rowsOf rc cols) = cols := by
  unfold colsOf rowsOf
  apply List.ext_getElem (by simp)
  intro c hc1 hc2
  simp only [List.length_map, List.length_range] at hc1
  rw [List.getElem_map, List.getElem_range c (by simpa using hc1)]
  apply List.ext_getElem
  · simp [h cols[c] (List.getElem_mem hc2)]
  intro r hr1 hr2
  simp only [List.length_map, List.length_range] at hr1
  rw [List.getElem_map, List.getElem_map, List.getElem_range r (by simpa using hr1)]
  rw [List.getD_eq_getElem _ _ (by simpa using hc2), List.getElem_map]
  rw [List.getD_eq_getElem _ _ (by
    rw [h cols[c] (List.getElem_mem hc2)]
    exact hr1)]

theorem typedListA_mem {n : Nat} {t : ScalarType} {col : List Value}
    (h : TypedListA (List.replicate n t) col) :
    ∀ v ∈ col, hasType t v = true ∧ validValueB v = true ∧
      lineSafeB v = true := by
  induction col generalizing n with
  | nil => intro v hv; simp at hv
  | cons v0 col ih =>
    intro v hv
    cases n with
    | zero =>
      exact absurd h.length_eq (by simp)
    | succ n =>
      rw [List.replicate_succ] at h
      rcases h with _ | ⟨hd, tl⟩
      rcases List.mem_cons.mp hv with h1 | h1
      · exact h1 ▸ hd
      · exact ih tl v h1

theorem rowsOf_row_typed {ts : List ScalarType} {cols : List (List Value)}
    {rc : Nat}
    (hrel : List.Forall₂ (fun t col => TypedListA (List.replicate rc t) col)
      ts cols) :
    ∀ row ∈ rowsOf rc cols, TypedListA ts row := by
  intro row hrow
  unfold rowsOf at hrow
  rw [List.mem_map] at hrow
  obtain ⟨r, hr, hrowEq⟩ := hrow
  rw [List.mem_range] at hr
  subst hrowEq
  induction hrel with
  | nil => exact .nil
  | @cons t col ts cols hd _ ih =>
    simp only [List.map_cons]
    refine .cons ?_ ih
    have hlen : col.length = rc := by
      have := hd.length_eq
      simpa using this.symm
    exact typedListA_mem hd _ (by
      rw [List.getD_eq_getElem _ _ (by omega)]
      exact List.getElem_mem (by omega))

/-! ## ASCII validation bridging -/

theorem replicate_typedListA {t : ScalarType} {col : List Value} {rc : Nat}
    (hlen : col.length = rc)
    (hall : (col.all fun v =>
      hasType t v && validValueB v && (!(true : Bool) || lineSafeB v)) = true) :
    TypedListA (List.replicate rc t) col := by
  subst hlen
  induction col with
  | nil => exact .nil
  | cons v col ih =>
    simp only [List.all_cons, Bool.and_eq_true, Bool.not_true, Bool.false_or] at hall
    simp only [List.length_cons, List.replicate_succ]
    exact .cons ⟨hall.1.1.1, hall.1.1.2, hall.1.2⟩ (ih (by
      simp only [List.all_eq_true] at hall ⊢
      intro v hv
      have := hall.2 v hv
      simpa using this))

theorem typedValsA {fs : List FieldDef} {vs : List Value}
    (h : typedVals fs vs true = true) :
    TypedListA (fs.map fun f => f.type) vs := by
  unfold typedVals at h
  rw [Bool.and_eq_true] at h
  have hlen : fs.length = vs.length := by simpa using h.1
  have hall := h.2
  clear h
  induction fs generalizing vs with
  | nil =>
    cases vs with
    | nil => exact .nil
    | cons v vs => simp at hlen
  | cons f fs ih =>
    cases vs with
    | nil => simp at hlen
    | cons v vs =>
      simp only [List.zip_cons_cons, List.all_cons, Bool.and_eq_true,
        Bool.not_true, Bool.false_or] at hall
      simp only [List.map_cons]
      refine .cons ⟨hall.1.1.1, hall.1.1.2, hall.1.2⟩
        (ih (by simpa using hlen) ?_)
      simp only [List.all_eq_true]
      intro q hq
      have := hall.2
      simp only [List.all_eq_true] at this
      exact this q hq

theorem typedColsA_rel {fs : List FieldDef} {seqs : List (List Value)}
    {rc : Nat} (hlen : fs.length = seqs.length)
    (hrc : (seqs.all fun col => col.length == rc) = true)
    (hts : typedSeqs fs seqs true = true) :
    List.Forall₂ (fun t col => TypedListA (List.replicate rc t) col)
      (fs.map fun f => f.type) seqs := by
  unfold typedSeqs at hts
  rw [Bool.and_eq_true] at hts
  have hall := hts.2
  clear hts
  induction fs generalizing seqs with
  | nil =>
    cases seqs with
    | nil => exact .nil
    | cons c cs => simp at hlen
  | cons f fs ih =>
    cases seqs with
    | nil => simp at hlen
    | cons col seqs =>
      simp only [List.zip_cons_cons, List.all_cons, Bool.and_eq_true] at hrc hall
      simp only [List.map_cons]
      refine .cons (replicate_typedListA (by simpa using hrc.1) hall.1)
        (ih (by simpa using hlen) hrc.2 hall.2)

theorem typedArrsA_rel {fs : List FieldDef} {seqs : List (List Value)}
    (hlen : fs.length = seqs.length)
    (hzip : ((List.zip fs seqs).all
      fun q => q.2.length == q.1.field_length) = true)
    (hts : typedSeqs fs seqs true = true) :
    List.Forall₂
      (fun q vals => TypedListA (List.replicate (Prod.snd q) (Prod.fst q)) vals)
      (fs.map fun f => (f.type, f.field_length)) seqs := by
  unfold typedSeqs at hts
  rw [Bool.and_eq_true] at hts
  have hall := hts.2
  clear hts
  induction fs generalizing seqs with
  | nil =>
    cases seqs with
    | nil => exact .nil
    | cons c cs => simp at hlen
  | cons f fs ih =>
    cases seqs with
    | nil => simp at hlen
    | cons col seqs =>
      simp only [List.zip_cons_cons, List.all_cons, Bool.and_eq_true] at hzip hall
      simp only [List.map_cons]
      refine .cons (replicate_typedListA (by simpa using hzip.1) hall.1)
        (ih (by simpa using hlen) hzip.2 hall.2)

theorem readRows_rowsOf {ts : List ScalarType} {cols : List (List Value)}
    {rc : Nat} (h : ∀ row ∈ rowsOf rc cols, TypedListA ts row) (rest : Bytes) :
    readRows ts rc (rowLines (rowsOf rc cols) ++ rest) =
      .ok (rowsOf rc cols, rest) := by
  have hx := readRows_X h rest
  rw [rowsOf_length] at hx
  exact hx

/-! ## ASCII page round trip -/

theorem readPageAscii_X (s : Schema) (p : Page) (hm : s.mode = .ascii)
    (hnrc : s.no_row_counts = false) (hv : validate_page s p = .ok ())
    (rest : Bytes) :
    readPageAscii s (encodePageAscii s p ++ rest) = .ok (p, rest) := by
  obtain ⟨h1, h2, h3, h4, h5, h6, h7, h8⟩ := validate_page_ok hv
  rw [hm] at h1 h5 h8
  rw [show (Mode.ascii == Mode.ascii) = true from rfl] at h1 h5 h8
  have hparams := typedValsA h1
  have hcols := typedColsA_rel h2.symm h3 h5
  have harrs := typedArrsA_rel h6.symm h7 h8
  have hcollen : ∀ col ∈ p.columns, col.length = p.row_count := by
    intro col hcol
    simp only [List.all_eq_true] at h3
    simpa using h3 col hcol
  unfold readPageAscii encodePageAscii
  rw [hnrc]
  simp only [Bool.false_eq_true, if_false, List.append_nil, List.nil_append,
    List.append_assoc]
  rw [readCellLines_X hparams]
  simp only [okBind]
  rw [readCountLine_X p.row_count]
  simp only [okBind]
  rw [readRows_rowsOf (rowsOf_row_typed hcols)]
  simp only [okBind]
  rw [readArrayLines_X harrs rest]
  simp only [okBind]
  rw [show colsOf s.dataColumns.length (rowsOf p.row_count p.columns) =
    p.columns by rw [← h2]; exact colsOf_rowsOf p.columns p.row_count hcollen]

theorem readPageAscii_X_nrc (s : Schema) (p : Page) (hm : s.mode = .ascii)
    (hnrc : s.no_row_counts = true) (hv : validate_page s p = .ok ())
    (hne : s.dataColumns ≠ []) (rest : Bytes) :
    readPageAscii s (encodePageAscii s p ++ rest) = .ok (p, rest) := by
  obtain ⟨h1, h2, h3, h4, h5, h6, h7, h8⟩ := validate_page_ok hv
  rw [hm] at h1 h5 h8
  rw [show (Mode.ascii == Mode.ascii) = true from rfl] at h1 h5 h8
  have hparams := typedValsA h1
  have hcols := typedColsA_rel h2.symm h3 h5
  have harrs := typedArrsA_rel h6.symm h7 h8
  have hcollen : ∀ col ∈ p.columns, col.length = p.row_count := by
    intro col hcol
    simp only [List.all_eq_true] at h3
    simpa using h3 col hcol
  have htsne : (s.dataColumns.map fun f => f.type) ≠ [] := by
    simpa using hne
  unfold readPageAscii encodePageAscii
  rw [hnrc]
  simp only [if_true, List.append_nil, List.nil_append, List.append_assoc,
    List.cons_append, List.singleton_append]
  rw [readCellLines_X hparams]
  simp only [okBind]
  rw [readRowsNRC_X htsne (rowsOf_row_typed hcols) _ (rowLines p.arrays ++ rest)
    (by simp [List.length_append])]
  simp only [okBind, rowsOf_length]
  rw [readArrayLines_X harrs rest]
  simp only [okBind]
  rw [show colsOf s.dataColumns.length (rowsOf p.row_count p.columns) =
    p.columns by rw [← h2]; exact colsOf_rowsOf p.columns p.row_count hcollen]

theorem readPageAscii_T (s : Schema) (p : Page) (hm : s.mode = .ascii)
    (hnrc : s.no_row_counts = false) (hv : validate_page s p = .ok ()) :
    ∀ n, n < (encodePageAscii s p).length →
      readPageAscii s ((encodePageAscii s p).take n) =
        .error .TruncatedStream := by
  obtain ⟨h1, h2, h3, h4, h5, h6, h7, h8⟩ := validate_page_ok hv
  rw [hm] at h1 h5 h8
  rw [show (Mode.ascii == Mode.ascii) = true from rfl] at h1 h5 h8
  have hparams := typedValsA h1
  have hcols := typedColsA_rel h2.symm h3 h5
  have harrs := typedArrsA_rel h6.symm h7 h8
  intro n hn
  unfold encodePageAscii at hn ⊢
  rw [hnrc] at hn ⊢
  simp only [Bool.false_eq_true, if_false, List.append_nil, List.nil_append,
    List.append_assoc] at hn ⊢
  unfold readPageAscii
  simp only [List.length_append] at hn
  by_cases hp : n < (cellLines p.params).length
  · rw [List.take_append_of_le_length (by omega),
      readCellLines_T hparams n hp]
    rfl
  · rw [List.take_append_eq_append_take,
      List.take_of_length_le (by omega),
      readCellLines_X hparams]
    simp only [okBind]
    rw [hnrc]
    simp only [Bool.false_eq_true, if_false]
    by_cases hc : n - (cellLines p.params).length <
        (lineOf (natDigits p.row_count)).length
    · rw [List.take_append_of_le_length (by omega),
        readCountLine_T p.row_count _ hc]
      rfl
    · rw [List.take_append_eq_append_take,
        List.take_of_length_le (by omega),
        readCountLine_X p.row_count]
      simp only [okBind]
      by_cases hr : n - (cellLines p.params).length -
          (lineOf (natDigits p.row_count)).length <
          (rowLines (rowsOf p.row_count p.columns)).length
      · rw [List.take_append_of_le_length (by omega)]
        have hT := readRows_T (rowsOf_row_typed hcols) _ hr
        rw [rowsOf_length] at hT
        rw [hT]
        rfl
      · rw [List.take_append_eq_append_take,
          List.take_of_length_le (by omega),
          readRows_rowsOf (rowsOf_row_typed hcols)]
        simp only [okBind]
        rw [readArrayLines_T harrs _ (by omega)]
        rfl

/-! ## Page wrapper lemmas -/

theorem write_page_ok {s : Schema} {p : Page}
    (hv : validate_page s p = .ok ()) : write_page s p = .ok (pageBytes s p) := by
  unfold write_page
  rw [hv]

theorem pageBytes_ne_nil (s : Schema) (p : Page) : pageBytes s p ≠ [] := by
  intro hc
  have hlen : (pageBytes s p).length = 0 := by rw [hc]; rfl
  unfold pageBytes at hlen
  cases hm : s.mode <;> rw [hm] at hlen
  · unfold encodePageAscii at hlen
    by_cases hnrc : s.no_row_counts
    · rw [hnrc] at hlen
      simp [List.length_append, lineOf] at hlen
    · rw [show s.no_row_counts = false from by
        revert hnrc; cases s.no_row_counts <;> simp] at hlen
      simp [List.length_append, lineOf] at hlen
  · unfold encodePageBin at hlen
    simp [List.length_append, ordBytes_length] at hlen

theorem read_page_X (s : Schema) (p : Page) (hv : validate_page s p = .ok ())
    (hbin : s.mode = .binary → s.no_row_counts = false)
    (hcolsne : s.mode = .ascii → s.no_row_counts = true → s.dataColumns ≠ [])
    (rest : Bytes) :
    read_page s (pageBytes s p ++ rest) = .ok (some (p, rest)) := by
  unfold read_page
  rw [if_neg (by simp [pageBytes_ne_nil s p])]
  cases hm : s.mode
  · rw [show pageBytes s p = encodePageAscii s p from by unfold pageBytes; rw [hm]]
    by_cases hnrc : s.no_row_counts = true
    · rw [readPageAscii_X_nrc s p hm hnrc hv (hcolsne hm hnrc) rest]
    · rw [readPageAscii_X s p hm (by revert hnrc; cases s.no_row_counts <;> simp)
        hv rest]
  · rw [show pageBytes s p = encodePageBin s p from by unfold pageBytes; rw [hm]]
    rw [readPageBin_X s p (hbin hm) hv rest]

theorem read_page_T (s : Schema) (p : Page) (hv : validate_page s p = .ok ())
    (hnrc : s.no_row_counts = false) :
    ∀ n, 0 < n → n < (pageBytes s p).length →
      read_page s ((pageBytes s p).take n) = .error .TruncatedStream := by
  intro n hpos hn
  unfold read_page
  rw [if_neg (by
    intro hc
    have h0 : ((pageBytes s p).take n).length = 0 := by rw [hc]; rfl
    rw [List.length_take] at h0
    omega)]
  cases hm : s.mode
  · have hb : pageBytes s p = encodePageAscii s p := by unfold pageBytes; rw [hm]
    rw [hb] at hn ⊢
    rw [readPageAscii_T s p hm hnrc hv n hn]
  · have hb : pageBytes s p = encodePageBin s p := by unfold pageBytes; rw [hm]
    rw [hb] at hn ⊢
    rw [readPageBin_T s p hnrc hv n hn]

theorem read_page_none_iff (s : Schema) (str : Bytes) :
    read_page s str = .ok none ↔ str = [] := by
  constructor
  · intro h
    by_contra hne
    unfold read_page at h
    rw [if_neg hne] at h
    cases hm : s.mode <;> rw [hm] at h
    · rcases hres : readPageAscii s str with e | ⟨p, rest⟩ <;>
        rw [hres] at h <;> simp at h
    · rcases hres : readPageBin s str with e | ⟨p, rest⟩ <;>
        rw [hres] at h <;> simp at h
  · intro h
    subst h
    rfl

/-! ## Multi-page stream lemmas -/

theorem writePages_ok {s : Schema} :
    ∀ {pages : List Page}, (∀ p ∈ pages, validate_page s p = .ok ()) →
      writePages s pages = .ok ((pages.map (pageBytes s)).flatten) := by
  intro pages h
  induction pages with
  | nil => rfl
  | cons p ps ih =>
    simp only [writePages, List.map_cons, List.flatten_cons]
    rw [write_page_ok (h p (List.mem_cons_self p ps))]
    simp only [okBind]
    rw [ih (fun q hq => h q (List.mem_cons_of_mem _ hq))]
    rfl

theorem readPagesF_X {s : Schema} :
    ∀ {pages : List Page}, (∀ p ∈ pages, validate_page s p = .ok ()) →
      (s.mode = .binary → s.no_row_counts = false) →
      (s.mode = .ascii → s.no_row_counts = true → s.dataColumns ≠ []) →
      ∀ fuel, pages.length + 1 ≤ fuel →
        readPagesF s fuel ((pages.map (pageBytes s)).flatten) = .ok pages := by
  intro pages h hbin hcne
  induction pages with
  | nil =>
    intro fuel hfuel
    rcases fuel with _ | f
    · omega
    · simp only [List.map_nil, List.flatten_nil, readPagesF]
      rw [show read_page s [] = .ok none from rfl]
  | cons p ps ih =>
    intro fuel hfuel
    rcases fuel with _ | f
    · omega
    simp only [List.map_cons, List.flatten_cons, readPagesF]
    rw [read_page_X s p (h p (List.mem_cons_self p ps)) hbin hcne]
    show (do
      let qs ← readPagesF s f ((List.map (pageBytes s) ps).flatten)
      Except.ok (p :: qs)) = Except.ok (p :: ps)
    rw [ih (fun q hq => h q (List.mem_cons_of_mem _ hq)) f (by simp at hfuel; omega)]
    rfl

/-! ## Tokenizer step lemmas -/

theorem tkRun_step_none {st st2 : TkState} {b : Nat}
    (h : tkStep st b = .ok (st2, none)) (rest : Bytes) :
    tkRun st (b :: rest) = tkRun st2 rest := by
  simp [tkRun, h]

theorem tkRun_step_tok {st st2 : TkState} {b : Nat} {t : Token}
    (h : tkStep st b = .ok (st2, some t)) (rest : Bytes) :
    tkRun st (b :: rest) =
      if isDataTok t then .ok ([t], rest)
      else
        match tkRun st2 rest with
        | .error e => .error e
        | .ok (ts, rem) => .ok (t :: ts, rem) := by
  simp only [tkRun, h]

theorem wordChar_split {b : Nat} (h : wordChar b = true) :
    isWs b = false ∧ b ≠ 10 ∧ b ≠ 44 ∧ b ≠ 38 ∧ b ≠ 61 ∧ b ≠ 34 := by
  simp [wordChar] at h
  refine ⟨?_, ?_, ?_, ?_, ?_, ?_⟩ <;> tauto

theorem tkRun_seek_skip {cn : Bytes} {facc : List (Bytes × Bytes)} :
    ∀ l, ValidSeekWs l → ∀ rest,
      tkRun (.infield cn facc .seek) (l ++ rest) =
        tkRun (.infield cn facc .seek) rest := by
  intro l hl
  induction l with
  | nil => intro rest; rfl
  | cons b l ih =>
    intro rest
    have hb := hl b (List.mem_cons_self b l)
    rw [List.cons_append,
      tkRun_step_none (by simp only [tkStep, fStep]; rw [if_pos hb]),
      ih (fun c hc => hl c (List.mem_cons_of_mem _ hc)) rest]

theorem tkRun_cname_accum {acc : Bytes} :
    ∀ w, (∀ b ∈ w, wordChar b = true) → ∀ rest,
      tkRun (.cname acc) (w ++ rest) = tkRun (.cname (acc ++ w)) rest := by
  intro w hw
  induction w generalizing acc with
  | nil => intro rest; simp
  | cons b w ih =>
    intro rest
    obtain ⟨c1, c2, c3, c4, c5, c6⟩ := wordChar_split (hw b (List.mem_cons_self b w))
    rw [List.cons_append,
      tkRun_step_none (by
        simp only [tkStep]
        rw [if_neg (by simp [c1, c2, c3]), if_neg (by simp [c4, c5, c6])]),
      ih (fun c hc => hw c (List.mem_cons_of_mem _ hc))]
    simp

theorem tkRun_key_accum {cn : Bytes} {facc : List (Bytes × Bytes)} {acc : Bytes} :
    ∀ w, (∀ b ∈ w, wordChar b = true) → ∀ rest,
      tkRun (.infield cn facc (.key acc)) (w ++ rest) =
        tkRun (.infield cn facc (.key (acc ++ w))) rest := by
  intro w hw
  induction w generalizing acc with
  | nil => intro rest; simp
  | cons b w ih =>
    intro rest
    obtain ⟨c1, c2, c3, c4, c5, c6⟩ := wordChar_split (hw b (List.mem_cons_self b w))
    rw [List.cons_append,
      tkRun_step_none (by
        simp only [tkStep, fStep]
        rw [if_neg (by simp [c5]), if_neg (by simp [c1, c2]),
          if_neg (by simp [c3, c4, c6])]),
      ih (fun c hc => hw c (List.mem_cons_of_mem _ hc))]
    simp

theorem tkRun_eq_skip {cn : Bytes} {facc : List (Bytes × Bytes)} {k : Bytes} :
    ∀ l, ValidWs l → ∀ rest,
      tkRun (.infield cn facc (.eq k)) (l ++ rest) =
        tkRun (.infield cn facc (.eq k)) rest := by
  intro l hl
  induction l with
  | nil => intro rest; rfl
  | cons b l ih =>
    intro rest
    have hb := hl b (List.mem_cons_self b l)
    have hb61 : b ≠ 61 := by
      intro hc
      subst hc
      simp [isWs] at hb
    rw [List.cons_append,
      tkRun_step_none (by
        simp only [tkStep, fStep]
        rw [if_neg (by simp [hb61]), if_pos hb]),
      ih (fun c hc => hl c (List.mem_cons_of_mem _ hc)) rest]

theorem tkRun_vstart_skip {cn : Bytes} {facc : List (Bytes × Bytes)} {k : Bytes} :
    ∀ l, ValidWs l → ∀ rest,
      tkRun (.infield cn facc (.vstart k)) (l ++ rest) =
        tkRun (.infield cn facc (.vstart k)) rest := by
  intro l hl
  induction l with
  | nil => intro rest; rfl
  | cons b l ih =>
    intro rest
    have hb := hl b (List.mem_cons_self b l)
    rw [List.cons_append,
      tkRun_step_none (by simp only [tkStep, fStep]; rw [if_pos hb]),
      ih (fun c hc => hl c (List.mem_cons_of_mem _ hc)) rest]

theorem tkRun_bare_accum {cn : Bytes} {facc : List (Bytes × Bytes)}
    {k : Bytes} {acc : Bytes} :
    ∀ w, (∀ b ∈ w, b ≠ 44 ∧ b ≠ 10 ∧ b ≠ 38) → ∀ rest,
      tkRun (.infield cn facc (.bare k acc)) (w ++ rest) =
        tkRun (.infield cn facc (.bare k (acc ++ w))) rest := by
  intro w hw
  induction w generalizing acc with
  | nil => intro rest; simp
  | cons b w ih =>
    intro rest
    obtain ⟨c1, c2, c3⟩ := hw b (List.mem_cons_self b w)
    rw [List.cons_append,
      tkRun_step_none (by
        simp only [tkStep, fStep]
        rw [if_neg (by simp [c1, c2]), if_neg (by simp [c3])]),
      ih (fun c hc => hw c (List.mem_cons_of_mem _ hc))]
    simp

theorem tkRun_quoted_accum {cn : Bytes} {facc : List (Bytes × Bytes)}
    {k : Bytes} :
    ∀ (s : Bytes) (acc : Bytes) (rest : Bytes),
      tkRun (.infield cn facc (.quoted k acc)) (escapeB s ++ rest) =
        tkRun (.infield cn facc (.quoted k (acc ++ s))) rest := by
  intro s
  induction s with
  | nil => intro acc rest; simp [escapeB]
  | cons c s ih =>
    intro acc rest
    rw [escapeB_cons, List.append_assoc]
    by_cases h34 : c = 34
    · subst h34
      rw [show esc1 34 = [92, 34] from by simp [esc1]]
      rw [show ([92, 34] : Bytes) ++ (escapeB s ++ rest) =
        92 :: 34 :: (escapeB s ++ rest) from rfl]
      rw [tkRun_step_none (show tkStep (.infield cn facc (.quoted k acc)) 92 =
          .ok (.infield cn facc (.esc k acc), none) from rfl),
        tkRun_step_none (show tkStep (.infield cn facc (.esc k acc)) 34 =
          .ok (.infield cn facc (.quoted k (acc ++ [34])), none) from rfl),
        ih (acc ++ [34]) rest]
      simp
    · by_cases h92 : c = 92
      · subst h92
        rw [show esc1 92 = [92, 92] from by simp [esc1]]
        rw [show ([92, 92] : Bytes) ++ (escapeB s ++ rest) =
          92 :: 92 :: (escapeB s ++ rest) from rfl]
        rw [tkRun_step_none (show tkStep (.infield cn facc (.quoted k acc)) 92 =
            .ok (.infield cn facc (.esc k acc), none) from rfl),
          tkRun_step_none (show tkStep (.infield cn facc (.esc k acc)) 92 =
            .ok (.infield cn facc (.quoted k (acc ++ [92])), none) from rfl),
          ih (acc ++ [92]) rest]
        simp
      · rw [show esc1 c = [c] from by simp [esc1, h34, h92]]
        rw [show ([c] : Bytes) ++ (escapeB s ++ rest) =
          c :: (escapeB s ++ rest) from rfl]
        rw [tkRun_step_none (by
            simp only [tkStep, fStep]
            rw [if_neg (by simp [h34]), if_neg (by simp [h92])]),
          ih (acc ++ [c]) rest]
        simp

theorem tkRun_amp_accum {cn : Bytes} {facc : List (Bytes × Bytes)} {acc : Bytes} :
    ∀ w, (∀ b ∈ w, wordChar b = true) → ∀ rest,
      tkRun (.infield cn facc (.amp acc)) (w ++ rest) =
        tkRun (.infield cn facc (.amp (acc ++ w))) rest := by
  intro w hw
  induction w generalizing acc with
  | nil => intro rest; simp
  | cons b w ih =>
    intro rest
    obtain ⟨c1, c2, c3, c4, c5, c6⟩ := wordChar_split (hw b (List.mem_cons_self b w))
    rw [List.cons_append,
      tkRun_step_none (by
        simp only [tkStep, fStep]
        rw [if_neg (by simp [c1, c2, c3]), if_neg (by simp [c4])]),
      ih (fun c hc => hw c (List.mem_cons_of_mem _ hc))]
    simp

/-! ## Tokenizer field and command lemmas -/

theorem tkRun_field {cn : Bytes} {facc : List (Bytes × Bytes)} (f : RFld)
    (hf : ValidRFld f) (rest : Bytes) :
    tkRun (.infield cn facc .seek) (renderRFld f ++ rest) =
      tkRun (.infield cn (facc ++ [f.pair]) .seek) rest := by
  obtain ⟨⟨hkne, hkchars⟩, hpre, hpost, hrv, hterm⟩ := hf
  obtain ⟨k0, ks, hk⟩ : ∃ k0 ks, f.key = k0 :: ks := by
    cases hx : f.key with
    | nil => exact absurd hx hkne
    | cons a l => exact ⟨a, l, rfl⟩
  obtain ⟨c1, c2, c3, c4, c5, c6⟩ :=
    wordChar_split (hkchars k0 (by rw [hk]; simp))
  unfold renderRFld
  rw [hk]
  simp only [List.cons_append, List.append_assoc]
  rw [tkRun_step_none (by
    simp only [tkStep, fStep]
    rw [if_neg (by simp [c1, c2, c3]), if_neg (by simp [c4]),
      if_neg (by simp [c5, c6])])]
  rw [tkRun_key_accum ks (fun c hc => hkchars c (by rw [hk]; simp [hc]))]
  have hkey : ([k0] : Bytes) ++ ks = f.key := by simp [hk]
  rw [hkey]
  -- consume preEq and the equals sign
  have heq : ∀ rest2, tkRun (.infield cn facc (.key f.key))
      (f.preEq ++ 61 :: rest2) =
      tkRun (.infield cn facc (.vstart f.key)) rest2 := by
    intro rest2
    cases hpe : f.preEq with
    | nil =>
      simp only [List.nil_append]
      rw [tkRun_step_none (by
        simp only [tkStep, fStep]
        rw [if_pos (by simp)])]
    | cons p ps =>
      have hp := hpre p (by rw [hpe]; simp)
      have hp61 : p ≠ 61 := by
        intro hc
        subst hc
        simp [isWs] at hp
      simp only [List.cons_append]
      rw [tkRun_step_none (by
        simp only [tkStep, fStep]
        rw [if_neg (by simp [hp61]), if_pos hp])]
      rw [tkRun_eq_skip ps (fun c hc => hpre c (by rw [hpe]; simp [hc]))]
      rw [tkRun_step_none (by
        simp only [tkStep, fStep]
        rw [if_pos (by simp)])]
  rw [heq]
  simp only [List.nil_append]
  rw [tkRun_vstart_skip f.postEq hpost]
  -- consume the value and its terminator
  cases hrvv : f.rv with
  | quoted v =>
    rw [hrvv] at hterm
    simp only [RVal.text, List.cons_append, List.nil_append, List.append_assoc]
    rw [tkRun_step_none (by
      simp only [tkStep, fStep]
      rw [if_neg (by simp [isWs]), if_pos (by simp)])]
    rw [tkRun_quoted_accum v []]
    simp only [List.nil_append]
    rw [tkRun_step_none (by
      simp only [tkStep, fStep]
      rw [if_pos (by simp)])]
    rw [tkRun_seek_skip f.term hterm]
    have : f.pair = (f.key, v) := by
      unfold RFld.pair
      rw [hrvv]
      rfl
    rw [this]
  | bare v =>
    rw [hrvv] at hterm hrv
    obtain ⟨hchars, ⟨v0, vs, hv0, hv0ws, hv034⟩, hrtrim⟩ := hrv
    obtain ⟨tc, tcs, htc, htc2, htc3⟩ := hterm
    have hv044 : v0 ≠ 44 := (hchars v0 (by rw [hv0]; simp)).1
    have hv010 : v0 ≠ 10 := (hchars v0 (by rw [hv0]; simp)).2.1
    have hv038 : v0 ≠ 38 := (hchars v0 (by rw [hv0]; simp)).2.2
    simp only [RVal.text]
    rw [hv0, htc]
    simp only [List.cons_append, List.append_assoc]
    rw [tkRun_step_none (by
      simp only [tkStep, fStep]
      rw [if_neg (by simp [hv0ws, hv010]), if_neg (by simp [hv034]),
        if_neg (by simp [hv044]), if_neg (by simp [hv038])])]
    rw [tkRun_bare_accum vs (fun c hc => hchars c (by rw [hv0]; simp [hc]))]
    rw [tkRun_step_none (by
      simp only [tkStep, fStep]
      rw [if_pos (by rcases htc2 with h | h <;> simp [h])])]
    rw [tkRun_seek_skip tcs htc3]
    have hracc : rtrimB ([v0] ++ vs) = v := by
      rw [show ([v0] : Bytes) ++ vs = v0 :: vs from rfl, ← hv0, hrtrim]
    rw [hracc]
    have : f.pair = (f.key, v) := by
      unfold RFld.pair
      rw [hrvv]
      rfl
    rw [this]

theorem tkRun_fields {cn : Bytes} :
    ∀ (fs : List RFld), (∀ f ∈ fs, ValidRFld f) → ∀ facc rest,
      tkRun (.infield cn facc .seek) ((fs.map renderRFld).flatten ++ rest) =
        tkRun (.infield cn (facc ++ fs.map RFld.pair) .seek) rest := by
  intro fs hfs
  induction fs with
  | nil => intro facc rest; simp
  | cons f fs ih =>
    intro facc rest
    simp only [List.map_cons, List.flatten_cons, List.append_assoc]
    rw [tkRun_field f (hfs f (List.mem_cons_self f fs)),
      ih (fun g hg => hfs g (List.mem_cons_of_mem _ hg))]
    simp

theorem tkRun_cmd_end {cn : Bytes} {facc : List (Bytes × Bytes)} (d : Nat)
    (hd : (isWs d || d == 10 || d == 44) = true) (rest : Bytes) :
    tkRun (.infield cn facc .seek) (([38] ++ endWord) ++ d :: rest) =
      if isDataTok (.cmd ⟨cn, facc⟩) then .ok ([.cmd ⟨cn, facc⟩], rest)
      else
        match tkRun .top rest with
        | .error e => .error e
        | .ok (ts, rem) => .ok (.cmd ⟨cn, facc⟩ :: ts, rem) := by
  simp only [List.cons_append, List.nil_append]
  rw [tkRun_step_none (show tkStep (.infield cn facc .seek) 38 =
    .ok (.infield cn facc (.amp []), none) from rfl)]
  rw [show (endWord ++ d :: rest : Bytes) = endWord ++ (d :: rest) from rfl]
  rw [tkRun_amp_accum endWord (by decide)]
  simp only [List.nil_append]
  rw [tkRun_step_tok (show tkStep (.infield cn facc (.amp endWord)) d =
    .ok (.top, some (.cmd ⟨cn, facc⟩)) from by
      simp only [tkStep, fStep]
      rw [if_pos hd]
      simp)]

theorem tkRun_renderRCmd (name nameSep : Bytes) (fs : List RFld)
    (hname : ValidKey name)
    (hsep : ∃ c cs, nameSep = c :: cs ∧
      (isWs c || c == 10 || c == 44) = true ∧ ValidSeekWs cs)
    (hfs : ∀ f ∈ fs, ValidRFld f) (d : Nat)
    (hd : (isWs d || d == 10 || d == 44) = true) (rest : Bytes) :
    tkRun .top (renderRCmd name nameSep fs ++ d :: rest) =
      if name = dataWord then .ok ([.cmd ⟨name, fs.map RFld.pair⟩], rest)
      else
        match tkRun .top rest with
        | .error e => .error e
        | .ok (ts, rem) => .ok (.cmd ⟨name, fs.map RFld.pair⟩ :: ts, rem) := by
  obtain ⟨hnne, hnchars⟩ := hname
  obtain ⟨c, cs, hcs, hc, hcs2⟩ := hsep
  unfold renderRCmd
  rw [hcs]
  simp only [List.cons_append, List.nil_append, List.append_assoc]
  rw [tkRun_step_none (show tkStep .top 38 = .ok (.cname [], none) from rfl)]
  rw [tkRun_cname_accum name hnchars]
  simp only [List.nil_append]
  rw [tkRun_step_none (by
    simp only [tkStep]
    rw [if_pos hc, if_neg hnne])]
  rw [tkRun_seek_skip cs hcs2]
  rw [tkRun_fields fs hfs []]
  simp only [List.nil_append]
  rw [show (38 :: (endWord ++ d :: rest) : Bytes) =
    (([38] : Bytes) ++ endWord) ++ d :: rest from by simp]
  rw [tkRun_cmd_end d hd rest]
  by_cases hdt : name = dataWord
  · rw [if_pos (by simp [isDataTok, hdt]), if_pos hdt]
  · rw [if_neg (by simp [isDataTok, hdt]), if_neg hdt]

/-! ## Canonical single-line commands -/

theorem tkRun_renderCmd (name : Bytes) (fields : List (Bytes × Bytes))
    (hname : ValidKey name) (hkeys : ∀ p ∈ fields, ValidKey p.1)
    (rest : Bytes) :
    tkRun .top (renderCmd name fields ++ rest) =
      if name = dataWord then .ok ([.cmd ⟨name, fields⟩], rest)
      else
        match tkRun .top rest with
        | .error e => .error e
        | .ok (ts, rem) => .ok (.cmd ⟨name, fields⟩ :: ts, rem) := by
  have hshape : renderCmd name fields ++ rest =
      renderRCmd name [32]
        (fields.map (fun p => ⟨p.1, [], [], .quoted p.2, [44, 32]⟩)) ++
        10 :: rest := by
    unfold renderCmd renderRCmd
    rw [List.map_map]
    have hmap : (fields.map renderPair) = fields.map
        (renderRFld ∘ fun p => (⟨p.1, [], [], .quoted p.2, [44, 32]⟩ : RFld)) := by
      apply List.map_congr_left
      intro p hp
      simp [renderPair, renderRFld, RVal.text, Function.comp_def]
    rw [hmap]
    simp
  rw [hshape]
  rw [tkRun_renderRCmd name [32] _ hname
    ⟨32, [], rfl, by simp [isWs], by intro b hb; simp at hb⟩
    (by
      intro f hf
      rw [List.mem_map] at hf
      obtain ⟨p, hp, hfp⟩ := hf
      subst hfp
      exact ⟨hkeys p hp, by intro b hb; simp at hb, by intro b hb; simp at hb,
        trivial, by intro b hb; simp at hb; rcases hb with h | h <;>
          simp [h, isWs]⟩)
    10 (by simp) rest]
  have hpairs : (fields.map
      (fun p => (⟨p.1, [], [], .quoted p.2, [44, 32]⟩ : RFld))).map RFld.pair =
      fields := by
    rw [List.map_map]
    simp [Function.comp_def, RFld.pair, RVal.value]
  rw [hpairs]

theorem tkRun_cmds :
    ∀ (cmds : List (Bytes × List (Bytes × Bytes))),
      (∀ c ∈ cmds, ValidKey c.1 ∧ c.1 ≠ dataWord ∧ ∀ p ∈ c.2, ValidKey p.1) →
      ∀ rest,
      tkRun .top ((cmds.map (fun c => renderCmd c.1 c.2)).flatten ++ rest) =
        match tkRun .top rest with
        | .error e => .error e
        | .ok (ts, rem) =>
          .ok (cmds.map (fun c => Token.cmd ⟨c.1, c.2⟩) ++ ts, rem) := by
  intro cmds h
  induction cmds with
  | nil =>
    intro rest
    simp only [List.map_nil, List.flatten_nil, List.nil_append]
    rcases hres : tkRun .top rest with e | ⟨ts, rem⟩ <;> simp
  | cons c cs ih =>
    intro rest
    obtain ⟨hk, hnd, hkeys⟩ := h c (List.mem_cons_self c cs)
    simp only [List.map_cons, List.flatten_cons, List.append_assoc]
    rw [tkRun_renderCmd c.1 c.2 hk hkeys, if_neg hnd,
      ih (fun d hd => h d (List.mem_cons_of_mem _ hd)) rest]
    rcases hres : tkRun .top rest with e | ⟨ts, rem⟩ <;> simp

/-! ## Header prefix lemmas -/

theorem tkRun_word_accum {acc : Bytes} :
    ∀ w, (∀ b ∈ w, isWs b = false ∧ b ≠ 10 ∧ b ≠ 38) → ∀ rest,
      tkRun (.word acc) (w ++ rest) = tkRun (.word (acc ++ w)) rest := by
  intro w hw
  induction w generalizing acc with
  | nil => intro rest; simp
  | cons b w ih =>
    intro rest
    obtain ⟨c1, c2, c3⟩ := hw b (List.mem_cons_self b w)
    rw [List.cons_append,
      tkRun_step_none (by
        simp only [tkStep]
        rw [if_neg (by simp [c1, c2]), if_neg (by simp [c3])]),
      ih (fun c hc => hw c (List.mem_cons_of_mem _ hc))]
    simp

theorem tkRun_dirAcc_accum {acc : Bytes} :
    ∀ w, (∀ b ∈ w, b ≠ 10) → ∀ rest,
      tkRun (.dirAcc acc) (w ++ rest) = tkRun (.dirAcc (acc ++ w)) rest := by
  intro w hw
  induction w generalizing acc with
  | nil => intro rest; simp
  | cons b w ih =>
    intro rest
    have hb := hw b (List.mem_cons_self b w)
    rw [List.cons_append,
      tkRun_step_none (by
        simp only [tkStep]
        rw [if_neg (by simp [hb])]),
      ih (fun c hc => hw c (List.mem_cons_of_mem _ hc))]
    simp

theorem tkRun_sdds1 (rest : Bytes) :
    tkRun .top (83 :: 68 :: 68 :: 83 :: 49 :: 10 :: rest) =
      match tkRun .top rest with
      | .error e => .error e
      | .ok (ts, rem) => .ok (.cmd ⟨strB ("SDDS1"), []⟩ :: ts, rem) := by
  rw [show (83 :: 68 :: 68 :: 83 :: 49 :: 10 :: rest : Bytes) =
    83 :: ([68, 68, 83, 49] ++ (10 :: rest)) from rfl]
  rw [tkRun_step_none (show tkStep .top 83 = .ok (.word [83], none) from rfl)]
  rw [tkRun_word_accum [68, 68, 83, 49] (by decide)]
  rw [tkRun_step_tok (show tkStep (.word ([83] ++ [68, 68, 83, 49])) 10 =
    .ok (.top, some (.cmd ⟨[83, 68, 68, 83, 49], []⟩)) from rfl)]
  rw [if_neg (by decide)]
  rfl

theorem tkRun_endian_directive (en : Endian) (rest : Bytes) :
    tkRun .top (33 :: 35 :: 32 :: (endianName en ++ 10 :: rest)) =
      match tkRun .top rest with
      | .error e => .error e
      | .ok (ts, rem) => .ok (.directive (endianName en) :: ts, rem) := by
  cases en
  · rw [show (33 :: 35 :: 32 :: (endianName .little ++ 10 :: rest) : Bytes) =
      33 :: 35 :: ((32 :: strB ("little-endian")) ++ (10 :: rest)) from by
        simp [endianName]]
    rw [tkRun_step_none (show tkStep .top 33 = .ok (.bang, none) from rfl)]
    rw [tkRun_step_none (show tkStep .bang 35 = .ok (.dirAcc [], none) from rfl)]
    rw [tkRun_dirAcc_accum (32 :: strB ("little-endian")) (by decide)]
    rw [tkRun_step_tok (show tkStep
      (.dirAcc ([] ++ (32 :: strB ("little-endian")))) 10 =
      .ok (.top, some (.directive (strB ("little-endian")))) from by decide)]
    rw [if_neg (by decide)]
    rfl
  · rw [show (33 :: 35 :: 32 :: (endianName .big ++ 10 :: rest) : Bytes) =
      33 :: 35 :: ((32 :: strB ("big-endian")) ++ (10 :: rest)) from by
        simp [endianName]]
    rw [tkRun_step_none (show tkStep .top 33 = .ok (.bang, none) from rfl)]
    rw [tkRun_step_none (show tkStep .bang 35 = .ok (.dirAcc [], none) from rfl)]
    rw [tkRun_dirAcc_accum (32 :: strB ("big-endian")) (by decide)]
    rw [tkRun_step_tok (show tkStep
      (.dirAcc ([] ++ (32 :: strB ("big-endian")))) 10 =
      .ok (.top, some (.directive (strB ("big-endian")))) from by decide)]
    rw [if_neg (by decide)]
    rfl

/-! ## Tokenizing the rendered header -/

theorem fieldPairs_keys (f : FieldDef)
    (hf : ∀ p ∈ f.extra, ValidKey p.1 ∧ isSpecialKey p.1 = false) :
    ∀ p ∈ fieldPairs f, ValidKey p.1 := by
  intro p hp
  unfold fieldPairs at hp
  simp only [List.mem_append, List.mem_cons, List.not_mem_nil, or_false] at hp
  rcases hp with (((h | h) | h) | h) | h
  · subst h
    exact show ValidKey (strB ("name")) from ⟨by decide, by decide⟩
  · subst h
    exact show ValidKey (strB ("type")) from ⟨by decide, by decide⟩
  · rcases hfv : f.fixed_value with _ | v <;> rw [hfv] at h
    · simp at h
    · simp only [List.mem_cons, List.not_mem_nil, or_false] at h
      subst h
      exact show ValidKey (strB ("fixed_value")) from ⟨by decide, by decide⟩
  · by_cases hk : f.kind = .array
    · rw [if_pos hk] at h
      simp only [List.mem_cons, List.not_mem_nil, or_false] at h
      subst h
      exact show ValidKey (strB ("field_length")) from ⟨by decide, by decide⟩
    · rw [if_neg hk] at h
      simp at h
  · exact (hf p h).1

theorem tokenize_renderSchema (s : Schema) (hvs : ValidSchema s)
    (data : Bytes) :
    tokenize (renderSchema s ++ data) = .ok (schemaTokens s, data) := by
  obtain ⟨hnodup, hflds, hincl, hdesc, _, _⟩ := hvs
  have hshape : renderSchema s ++ data =
      83 :: 68 :: 68 :: 83 :: 49 :: 10 :: 33 :: 35 :: 32 ::
      (endianName s.endian ++ 10 ::
        ((match s.description with
          | some fl => renderCmd (strB ("description")) fl
          | none => []) ++
         (((s.includes.map (fun fl => (strB ("include"), fl))).map
            (fun c => renderCmd c.1 c.2)).flatten ++
          (((s.fields.map (fun f => (kindName f.kind, fieldPairs f))).map
            (fun c => renderCmd c.1 c.2)).flatten ++
           (renderCmd dataWord (dataPairs s) ++ data))))) := by
    unfold renderSchema
    rw [show strB ("SDDS1\n") = [83, 68, 68, 83, 49, 10] from rfl]
    rw [List.map_map, List.map_map]
    have h1 : ((fun c => renderCmd (Prod.fst c) (Prod.snd c)) ∘
        fun fl => (strB ("include"), fl)) = renderCmd (strB ("include")) := by
      funext fl
      rfl
    have h2 : ((fun c => renderCmd (Prod.fst c) (Prod.snd c)) ∘
        fun f => (kindName f.kind, fieldPairs f)) = renderField := by
      funext f
      rfl
    rw [h1, h2]
    simp
  unfold tokenize
  rw [hshape, tkRun_sdds1, tkRun_endian_directive]
  cases hd : s.description with
  | none =>
    simp only [hd, List.nil_append]
    rw [tkRun_cmds (s.includes.map (fun fl => (strB ("include"), fl))) (by
      intro c hc
      rw [List.mem_map] at hc
      obtain ⟨fl, hflmem, hflc⟩ := hc
      subst hflc
      exact ⟨show ValidKey (strB ("include")) from ⟨by decide, by decide⟩,
        show strB ("include") ≠ dataWord from (by decide), hincl fl hflmem⟩)]
    rw [tkRun_cmds (s.fields.map (fun f => (kindName f.kind, fieldPairs f))) (by
      intro c hc
      rw [List.mem_map] at hc
      obtain ⟨f, hfmem, hfc⟩ := hc
      subst hfc
      refine ⟨show ValidKey (kindName f.kind) from
          (by cases f.kind <;> exact ⟨by decide, by decide⟩),
        show kindName f.kind ≠ dataWord from (by cases f.kind <;> decide),
        fieldPairs_keys f (hflds f hfmem).1⟩)]
    rw [tkRun_renderCmd dataWord (dataPairs s) ⟨by decide, by decide⟩ (by
      intro p hp
      unfold dataPairs at hp
      simp only [List.mem_cons, List.not_mem_nil, or_false] at hp
      rcases hp with h | h
      · subst h
        exact show ValidKey (strB ("mode")) from ⟨by decide, by decide⟩
      · subst h
        exact show ValidKey (strB ("no_row_counts")) from ⟨by decide, by decide⟩),
      if_pos rfl]
    simp [schemaTokens, hd, Function.comp_def]
  | some fl =>
    simp only [hd, List.nil_append]
    rw [tkRun_renderCmd (strB ("description")) fl ⟨by decide, by decide⟩ (by
      intro p hp
      apply hdesc
      rw [hd]
      simpa using hp)]
    rw [if_neg (by decide)]
    rw [tkRun_cmds (s.includes.map (fun fl => (strB ("include"), fl))) (by
      intro c hc
      rw [List.mem_map] at hc
      obtain ⟨fl2, hflmem, hflc⟩ := hc
      subst hflc
      exact ⟨show ValidKey (strB ("include")) from ⟨by decide, by decide⟩,
        show strB ("include") ≠ dataWord from (by decide), hincl fl2 hflmem⟩)]
    rw [tkRun_cmds (s.fields.map (fun f => (kindName f.kind, fieldPairs f))) (by
      intro c hc
      rw [List.mem_map] at hc
      obtain ⟨f, hfmem, hfc⟩ := hc
      subst hfc
      refine ⟨show ValidKey (kindName f.kind) from
          (by cases f.kind <;> exact ⟨by decide, by decide⟩),
        show kindName f.kind ≠ dataWord from (by cases f.kind <;> decide),
        fieldPairs_keys f (hflds f hfmem).1⟩)]
    rw [tkRun_renderCmd dataWord (dataPairs s) ⟨by decide, by decide⟩ (by
      intro p hp
      unfold dataPairs at hp
      simp only [List.mem_cons, List.not_mem_nil, or_false] at hp
      rcases hp with h | h
      · subst h
        exact show ValidKey (strB ("mode")) from ⟨by decide, by decide⟩
      · subst h
        exact show ValidKey (strB ("no_row_counts")) from ⟨by decide, by decide⟩),
      if_pos rfl]
    simp [schemaTokens, hd, Function.comp_def]

/-! ## Parsing the rendered header -/

theorem lookup_special_none (k : Bytes) (hk : isSpecialKey k = true) :
    ∀ l : List (Bytes × Bytes),
      (∀ p ∈ l, isSpecialKey p.1 = false) → l.lookup k = none := by
  intro l
  induction l with
  | nil => intro _; rfl
  | cons a l ih =>
    intro h
    have hne : (k == a.1) = false := by
      by_cases he : k = a.1
      · exfalso
        have hsp := h a (List.mem_cons_self a l)
        rw [← he, hk] at hsp
        exact absurd hsp (by simp)
      · exact beq_false_of_ne he
    obtain ⟨a1, a2⟩ := a
    simp only [List.lookup, hne]
    exact ih (fun p hp => h p (List.mem_cons_of_mem _ hp))

theorem nameToType_typeName (t : ScalarType) :
    nameToType (typeName t) = some t := by
  cases t <;> rfl

theorem processFieldCmd_fieldPairs (f : FieldDef) (st : PState)
    (hextra : ∀ p ∈ f.extra, isSpecialKey p.1 = false)
    (hlen : f.kind ≠ .array → f.field_length = 0)
    (hnew : f.name ∉ st.names) :
    processFieldCmd f.kind st ⟨kindName f.kind, fieldPairs f⟩ =
      .ok { st with fields := st.fields ++ [f] } := by
  have hcon : st.names.contains f.name = false := by
    simpa using hnew
  have hname : fieldVal ⟨kindName f.kind, fieldPairs f⟩ (strB ("name")) =
      some f.name := rfl
  have htype : fieldVal ⟨kindName f.kind, fieldPairs f⟩ (strB ("type")) =
      some (typeName f.type) := rfl
  have hfv : fieldVal ⟨kindName f.kind, fieldPairs f⟩ (strB ("fixed_value")) =
      f.fixed_value := by
    rcases hfx : f.fixed_value with _ | v
    · unfold fieldVal fieldPairs
      rw [hfx]
      by_cases hk : f.kind = .array
      · rw [if_pos hk]
        exact lookup_special_none (strB ("fixed_value")) (by decide)
          f.extra hextra
      · rw [if_neg hk]
        exact lookup_special_none (strB ("fixed_value")) (by decide)
          f.extra hextra
    · unfold fieldVal fieldPairs
      rw [hfx]
      rfl
  have hex : (fieldPairs f).filter (fun p => !isSpecialKey p.1) = f.extra := by
    have hself : f.extra.filter (fun p => !isSpecialKey p.1) = f.extra := by
      rw [List.filter_eq_self]
      intro p hp
      rw [hextra p hp]
      rfl
    unfold fieldPairs
    rcases hfx : f.fixed_value with _ | v <;>
      by_cases hk : f.kind = .array
    · rw [if_pos hk]
      exact hself
    · rw [if_neg hk]
      exact hself
    · rw [if_pos hk]
      exact hself
    · rw [if_neg hk]
      exact hself
  by_cases hk : f.kind = .array
  · have hlook : fieldVal ⟨kindName f.kind, fieldPairs f⟩
        (strB ("field_length")) = some (natDigits f.field_length) := by
      unfold fieldVal fieldPairs
      rw [if_pos hk]
      rcases hfx : f.fixed_value with _ | v <;> rfl
    simp only [processFieldCmd, hname, hcon, Bool.false_eq_true, if_false,
      htype, nameToType_typeName, hfv, hlook, hex, parseNatB_natDigits,
      Option.getD_some]
  · have hlook : fieldVal ⟨kindName f.kind, fieldPairs f⟩
        (strB ("field_length")) = none := by
      unfold fieldVal fieldPairs
      rw [if_neg hk]
      rcases hfx : f.fixed_value with _ | v
      · exact lookup_special_none (strB ("field_length")) (by decide)
          f.extra hextra
      · exact lookup_special_none (strB ("field_length")) (by decide)
          f.extra hextra
    simp only [processFieldCmd, hname, hcon, Bool.false_eq_true, if_false,
      htype, nameToType_typeName, hfv, hlook, hex]
    rw [show (0 : Nat) = f.field_length from (hlen hk).symm]

theorem processData_dataPairs (st : PState) (endian : Endian) (s : Schema) :
    processData st endian ⟨dataWord, dataPairs s⟩ =
      .ok ⟨st.fields, s.mode, endian, s.no_row_counts,
        st.description, st.includes⟩ := by
  obtain ⟨fs, m, en, nrc, d, i⟩ := s
  cases m <;> cases nrc <;> rfl

theorem parseCmds_includes (en : Endian) :
    ∀ (fls : List (List (Bytes × Bytes))) (st : PState) (rest : List Token),
      parseCmds st en
        ((fls.map (fun fl => Token.cmd ⟨strB ("include"), fl⟩)) ++ rest) =
      parseCmds { st with includes := st.includes ++ fls } en rest := by
  intro fls
  induction fls with
  | nil =>
    intro st rest
    simp only [List.map_nil, List.nil_append]
    rw [List.append_nil]
  | cons fl fls ih =>
    intro st rest
    simp only [List.map_cons, List.cons_append]
    rw [show parseCmds st en (Token.cmd ⟨strB ("include"), fl⟩ ::
        (fls.map (fun fl => Token.cmd ⟨strB ("include"), fl⟩) ++ rest)) =
      parseCmds { st with includes := st.includes ++ [fl] } en
        (fls.map (fun fl => Token.cmd ⟨strB ("include"), fl⟩) ++ rest)
      from rfl]
    rw [ih]
    congr 1
    simp

theorem parseCmds_field_step (st st2 : PState) (en : Endian) (f : FieldDef)
    (rest : List Token)
    (h : processFieldCmd f.kind st ⟨kindName f.kind, fieldPairs f⟩ = .ok st2) :
    parseCmds st en (Token.cmd ⟨kindName f.kind, fieldPairs f⟩ :: rest) =
      parseCmds st2 en rest := by
  revert h
  cases f.kind <;> intro h
  · rw [show parseCmds st en
        (Token.cmd ⟨kindName .parameter, fieldPairs f⟩ :: rest) =
      (match processFieldCmd .parameter st
          ⟨kindName .parameter, fieldPairs f⟩ with
        | .error e => .error e
        | .ok t => parseCmds t en rest) from rfl, h]
  · rw [show parseCmds st en
        (Token.cmd ⟨kindName .column, fieldPairs f⟩ :: rest) =
      (match processFieldCmd .column st
          ⟨kindName .column, fieldPairs f⟩ with
        | .error e => .error e
        | .ok t => parseCmds t en rest) from rfl, h]
  · rw [show parseCmds st en
        (Token.cmd ⟨kindName .array, fieldPairs f⟩ :: rest) =
      (match processFieldCmd .array st
          ⟨kindName .array, fieldPairs f⟩ with
        | .error e => .error e
        | .ok t => parseCmds t en rest) from rfl, h]

theorem parseCmds_fields (en : Endian) :
    ∀ (fs : List FieldDef) (st : PState) (rest : List Token),
      (∀ f ∈ fs, (∀ p ∈ f.extra, isSpecialKey p.1 = false) ∧
        (f.kind ≠ .array → f.field_length = 0)) →
      (st.names ++ fs.map (fun f => f.name)).Nodup →
      parseCmds st en
        ((fs.map (fun f => Token.cmd ⟨kindName f.kind, fieldPairs f⟩)) ++
          rest) =
      parseCmds { st with fields := st.fields ++ fs } en rest := by
  intro fs
  induction fs with
  | nil =>
    intro st rest _ _
    simp only [List.map_nil, List.nil_append]
    rw [List.append_nil]
  | cons f fs ih =>
    intro st rest hside hnd
    obtain ⟨hex, hlen⟩ := hside f (List.mem_cons_self f fs)
    have hnew : f.name ∉ st.names := by
      rw [List.nodup_append] at hnd
      intro hmem
      exact hnd.2.2 hmem (List.mem_cons_self _ _)
    simp only [List.map_cons, List.cons_append]
    rw [parseCmds_field_step st _ en f _
      (processFieldCmd_fieldPairs f st hex hlen hnew)]
    rw [ih { st with fields := st.fields ++ [f] } rest
      (fun g hg => hside g (List.mem_cons_of_mem _ hg))
      (by
        have he : ({ st with fields := st.fields ++ [f] } : PState).names ++
            fs.map (fun f => f.name) =
            st.names ++ f.name :: fs.map (fun f => f.name) := by
          simp [PState.names]
        rw [he]
        exact hnd)]
    congr 1
    simp

theorem parseCmds_data_step (st : PState) (en : Endian)
    (ps : List (Bytes × Bytes)) :
    parseCmds st en [Token.cmd ⟨dataWord, ps⟩] =
      processData st en ⟨dataWord, ps⟩ := rfl

theorem parseCmds_descr_step (en : Endian) (fl : List (Bytes × Bytes))
    (rest : List Token) :
    parseCmds PState.init en (Token.cmd ⟨strB ("description"), fl⟩ :: rest) =
      parseCmds ⟨[], some fl, []⟩ en rest := rfl

theorem parseHeader_sdds1 (dflt en : Endian) (rest2 : List Token) :
    parseHeader dflt (Token.cmd ⟨strB ("SDDS1"), []⟩ ::
        Token.directive (endianName en) :: rest2) =
      parseCmds .init en rest2 := by
  cases en <;> rfl

theorem parseHeader_schemaTokens (s : Schema) (hvs : ValidSchema s)
    (dflt : Endian) :
    parseHeader dflt (schemaTokens s) = .ok s := by
  obtain ⟨hnodup, hflds, _, _, _, _⟩ := hvs
  have hshape : schemaTokens s =
      Token.cmd ⟨strB ("SDDS1"), []⟩ ::
      Token.directive (endianName s.endian) ::
      ((match s.description with
        | some fl => [Token.cmd ⟨strB ("description"), fl⟩]
        | none => []) ++
       (s.includes.map (fun fl => Token.cmd ⟨strB ("include"), fl⟩) ++
        (s.fields.map (fun f => Token.cmd ⟨kindName f.kind, fieldPairs f⟩) ++
         [Token.cmd ⟨dataWord, dataPairs s⟩]))) := by
    unfold schemaTokens
    simp
  rw [hshape, parseHeader_sdds1]
  have hsides : ∀ f ∈ s.fields, (∀ p ∈ f.extra, isSpecialKey p.1 = false) ∧
      (f.kind ≠ .array → f.field_length = 0) :=
    fun f hf => ⟨fun p hp => ((hflds f hf).1 p hp).2, (hflds f hf).2⟩
  cases hd : s.description with
  | none =>
    simp only [List.nil_append]
    rw [parseCmds_includes s.endian s.includes PState.init]
    rw [parseCmds_fields s.endian s.fields _ _ hsides
      (by simpa [PState.names, PState.init] using hnodup)]
    rw [parseCmds_data_step, processData_dataPairs]
    simp [PState.init, hd]
    rw [← hd]
  | some fl =>
    simp only [List.singleton_append, List.cons_append, List.nil_append]
    rw [parseCmds_descr_step]
    rw [parseCmds_includes s.endian s.includes ⟨[], some fl, []⟩]
    rw [parseCmds_fields s.endian s.fields _ _ hsides
      (by simpa [PState.names] using hnodup)]
    rw [parseCmds_data_step, processData_dataPairs]
    simp
    rw [← hd]


/-! ## Document round trip -/

theorem writeDocument_ok (d : Document) (hvd : ValidDocument d) :
    writeDocument d =
      .ok (renderSchema d.schema ++
        ((d.pages.map (pageBytes d.schema)).flatten)) := by
  unfold writeDocument
  rw [writePages_ok hvd.2]
  rfl

theorem readDocument_writeDocument (d : Document) (hvd : ValidDocument d)
    (dflt : Endian) (bytes : Bytes) (hw : writeDocument d = .ok bytes) :
    readDocument dflt bytes = .ok d := by
  obtain ⟨hvs, hvp⟩ := hvd
  rw [writeDocument_ok d ⟨hvs, hvp⟩] at hw
  cases hw
  unfold readDocument
  rw [tokenize_renderSchema d.schema hvs
    ((d.pages.map (pageBytes d.schema)).flatten)]
  simp only [okBind]
  rw [parseHeader_schemaTokens d.schema hvs dflt]
  simp only [okBind]
  have hlen : ∀ ps : List Page,
      ps.length ≤ ((ps.map (pageBytes d.schema)).flatten).length := by
    intro ps
    induction ps with
    | nil => simp
    | cons p ps ih =>
      simp only [List.map_cons, List.flatten_cons, List.length_append,
        List.length_cons]
      have hne := pageBytes_ne_nil d.schema p
      have h1 : 1 ≤ (pageBytes d.schema p).length := by
        cases hpb : pageBytes d.schema p
        · exact absurd hpb hne
        · simp
      omega
  have hfuel : d.pages.length + 1 ≤
      ((d.pages.map (pageBytes d.schema)).flatten).length + 1 := by
    have h2 := hlen d.pages
    omega
  rw [readPagesF_X hvp hvs.2.2.2.2.1 (fun _ => hvs.2.2.2.2.2) _ hfuel]
  rfl

/-! ## Helpers for the claims -/

theorem find_param_name {l : List FieldDef}
    (hnd : (l.map (fun g => g.name)).Nodup) {f : FieldDef} (hf : f ∈ l) :
    l.find? (fun g => g.name == f.name) = some f := by
  induction l with
  | nil => cases hf
  | cons a l ih =>
    rcases List.mem_cons.mp hf with rfl | hmem
    · rw [List.find?_cons_of_pos]
      exact beq_self_eq_true _
    · have hne : a.name ≠ f.name := by
        intro he
        rw [List.map_cons, List.nodup_cons] at hnd
        exact hnd.1 (he ▸ List.mem_map.mpr ⟨f, hmem, rfl⟩)
      rw [List.find?_cons_of_neg]
      · exact ih (by
          rw [List.map_cons, List.nodup_cons] at hnd
          exact hnd.2) hmem
      · simp [hne]

theorem processFieldCmd_dup (k : FieldKind) (st : PState) (c : Command)
    (n : Bytes) (hname : fieldVal c (strB ("name")) = some n)
    (hmem : n ∈ st.names) :
    processFieldCmd k st c = .error .DuplicateFieldName := by
  have hcon : st.names.contains n = true := by simpa using hmem
  simp only [processFieldCmd, hname, hcon, if_true]

/-! ## Claims -/

/-- C1: for every document built from in-memory values that passes
validation, `write` followed by `read` yields a field-for-field,
page-for-page equal document, whatever the mode and endianness. -/
theorem c1_write_read_round_trip (d : Document) (hvd : ValidDocument d)
    (dflt : Endian) (bytes : Bytes) (hw : writeDocument d = .ok bytes) :
    readDocument dflt bytes = .ok d :=
  readDocument_writeDocument d hvd dflt bytes hw

set_option maxRecDepth 100000 in
theorem c1_write_read_round_trip_witness :
    ValidDocument exDocAsc ∧ ValidDocument exDocBin ∧
    readDocument .big (renderSchema exSchemaAsc ++
      ((exDocAsc.pages.map (pageBytes exSchemaAsc)).flatten)) = .ok exDocAsc ∧
    readDocument .little (renderSchema exSchemaBin ++
      ((exDocBin.pages.map (pageBytes exSchemaBin)).flatten)) = .ok exDocBin :=
  ⟨by decide, by decide,
   c1_write_read_round_trip exDocAsc (by decide) .big _ (by decide),
   c1_write_read_round_trip exDocBin (by decide) .little _ (by decide)⟩

/-- C2: the binary encoding of a string value is a 4-byte signed length
prefix in the schema endianness followed by exactly the raw bytes and no
terminator; decoding consumes exactly that; and the value `abc` under a
little-endian schema produces `03 00 00 00 61 62 63`. -/
theorem c2_string_binary_encoding :
    (∀ (e : Endian) (bs : Bytes),
      encodeBin e (.vString bs) =
        ordBytes e 4 (toTwos 32 (bs.length : Int)) ++ bs ∧
      (ordBytes e 4 (toTwos 32 (bs.length : Int))).length = 4) ∧
    (∀ (e : Endian) (bs rest : Bytes), bs.length < 2 ^ 31 →
      (∀ b ∈ bs, b < 256) →
      decodeBin .string e (encodeBin e (.vString bs) ++ rest) =
        .ok (.vString bs, rest)) ∧
    encodeBin .little (.vString (strB ("abc"))) =
      [3, 0, 0, 0, 97, 98, 99] := by
  refine ⟨fun e bs => ⟨rfl, ordBytes_length e 4 _⟩, ?_, by decide⟩
  intro e bs rest hlen hbytes
  exact decodeBin_X .string e (.vString bs) (by simp [hasType])
    (by simp [validValueB]; exact ⟨hlen, fun b hb => hbytes b hb⟩) rest

theorem c2_string_binary_encoding_witness :
    (strB ("abc")).length < 2 ^ 31 ∧ (∀ b ∈ strB ("abc"), b < 256) ∧
    decodeBin .string .little
      (encodeBin .little (.vString (strB ("abc"))) ++ [7]) =
      .ok (.vString (strB ("abc")), [7]) :=
  ⟨by decide, by decide,
   c2_string_binary_encoding.2.1 .little (strB ("abc")) [7] (by decide)
     (by decide)⟩

/-- C3: a fixed_value parameter (such as header4 SVNVersion with
fixed_value=26104M) is not among the data-carrying parameters, parameter
lookup on any page yields the header-declared literal, and a valid page
stores exactly one value per data-carrying parameter (hence none for the
fixed field). -/
theorem c3_fixed_value_fields (s : Schema) (hvs : ValidSchema s)
    (f : FieldDef) (hf : f ∈ s.fields) (hk : f.kind = .parameter)
    (lit : Bytes) (hfx : f.fixed_value = some lit) :
    f ∉ s.dataParameters ∧
    (∀ p : Page, getParam s p f.name = some (fixedLiteralValue f.type lit)) ∧
    (∀ p : Page, validate_page s p = .ok () →
      p.params.length = s.dataParameters.length) := by
  refine ⟨?_, ?_, ?_⟩
  · intro hmem
    unfold Schema.dataParameters at hmem
    have hno := (List.mem_filter.mp hmem).2
    rw [hfx] at hno
    simp [Option.isNone] at hno
  · intro p
    have hpar : f ∈ s.parameters := by
      unfold Schema.parameters
      exact List.mem_filter.mpr ⟨hf, by simp [hk]⟩
    have hnd : (s.parameters.map (fun g => g.name)).Nodup := by
      have hsub : List.Sublist (s.parameters.map (fun g => g.name))
          (s.fields.map (fun g => g.name)) :=
        List.Sublist.map _ (List.filter_sublist _)
      exact hvs.1.sublist hsub
    simp only [getParam, find_param_name hnd hpar, hfx]
  · intro p hv
    have h1 := (validate_page_ok hv).1
    unfold typedVals at h1
    simp only [Bool.and_eq_true, beq_iff_eq] at h1
    exact h1.1.symm

theorem c3_fixed_value_fields_witness :
    ValidSchema exSchemaFixed ∧
    svnVersionField ∉ exSchemaFixed.dataParameters ∧
    getParam exSchemaFixed exPageFixed (strB ("SVNVersion")) =
      some (.vString (strB ("26104M"))) ∧
    validate_page exSchemaFixed exPageFixed = .ok () ∧
    exPageFixed.params.length = exSchemaFixed.dataParameters.length :=
  ⟨by decide,
   (c3_fixed_value_fields exSchemaFixed (by decide) svnVersionField
     (by decide) rfl (strB ("26104M")) rfl).1,
   (c3_fixed_value_fields exSchemaFixed (by decide) svnVersionField
     (by decide) rfl (strB ("26104M")) rfl).2.1 exPageFixed,
   by decide,
   (c3_fixed_value_fields exSchemaFixed (by decide) svnVersionField
     (by decide) rfl (strB ("26104M")) rfl).2.2 exPageFixed (by decide)⟩

/-- C4: a field command whose name is already defined, whatever its
kind, makes the header parser fail with DuplicateFieldName; parameters,
columns and arrays share one namespace. -/
theorem c4_duplicate_field_name (st : PState) (en : Endian) (n : Bytes)
    (hmem : n ∈ st.names) (k : FieldKind) (c : Command)
    (hck : c.name = kindName k)
    (hname : fieldVal c (strB ("name")) = some n) (rest : List Token) :
    parseCmds st en (Token.cmd c :: rest) = .error .DuplicateFieldName := by
  obtain ⟨cn, cf⟩ := c
  have hck2 : cn = kindName k := hck
  subst hck2
  have hdup := processFieldCmd_dup k st ⟨kindName k, cf⟩ n hname hmem
  cases k
  · rw [show parseCmds st en (Token.cmd ⟨kindName .parameter, cf⟩ :: rest) =
      (match processFieldCmd .parameter st ⟨kindName .parameter, cf⟩ with
       | .error e => .error e
       | .ok t => parseCmds t en rest) from rfl, hdup]
  · rw [show parseCmds st en (Token.cmd ⟨kindName .column, cf⟩ :: rest) =
      (match processFieldCmd .column st ⟨kindName .column, cf⟩ with
       | .error e => .error e
       | .ok t => parseCmds t en rest) from rfl, hdup]
  · rw [show parseCmds st en (Token.cmd ⟨kindName .array, cf⟩ :: rest) =
      (match processFieldCmd .array st ⟨kindName .array, cf⟩ with
       | .error e => .error e
       | .ok t => parseCmds t en rest) from rfl, hdup]

theorem c4_duplicate_field_name_witness :
    parseCmds ⟨[⟨.column, strB ("col1"), .double, none, 0, []⟩], none, []⟩
      .little
      [Token.cmd ⟨strB ("parameter"),
        [(strB ("name"), strB ("col1")), (strB ("type"), strB ("long"))]⟩] =
      .error .DuplicateFieldName :=
  c4_duplicate_field_name _ .little (strB ("col1")) (by decide) .parameter
    ⟨strB ("parameter"),
      [(strB ("name"), strB ("col1")), (strB ("type"), strB ("long"))]⟩
    rfl rfl []

/-- C5: a page read returns the end-of-document signal exactly on the
empty stream (a page boundary); a strict prefix of a valid page fails
with TruncatedStream; and reading a well-formed multi-page stream
consumes every page and ends cleanly, never with an error. -/
theorem c5_end_of_document (s : Schema) :
    (∀ str : Bytes, read_page s str = .ok none ↔ str = []) ∧
    (∀ p : Page, validate_page s p = .ok () → s.no_row_counts = false →
      ∀ n, 0 < n → n < (pageBytes s p).length →
        read_page s ((pageBytes s p).take n) = .error .TruncatedStream) ∧
    (∀ pages : List Page, (∀ p ∈ pages, validate_page s p = .ok ()) →
      (s.mode = .binary → s.no_row_counts = false) →
      (s.mode = .ascii → s.no_row_counts = true → s.dataColumns ≠ []) →
      ∀ fuel, pages.length + 1 ≤ fuel →
        readPagesF s fuel ((pages.map (pageBytes s)).flatten) = .ok pages) :=
  ⟨read_page_none_iff s,
   fun p hv hnrc => read_page_T s p hv hnrc,
   fun _ h hbin hcne _ hf => readPagesF_X h hbin hcne _ hf⟩

theorem c5_end_of_document_witness :
    read_page exSchemaBin [] = .ok none ∧
    validate_page exSchemaBin exPageBin = .ok () ∧
    read_page exSchemaBin ((pageBytes exSchemaBin exPageBin).take 3) =
      .error .TruncatedStream ∧
    readPagesF exSchemaBin
      (((exDocBin.pages.map (pageBytes exSchemaBin)).flatten).length + 1)
      ((exDocBin.pages.map (pageBytes exSchemaBin)).flatten) =
      .ok exDocBin.pages :=
  ⟨((c5_end_of_document exSchemaBin).1 []).mpr rfl,
   by decide,
   (c5_end_of_document exSchemaBin).2.1 exPageBin (by decide) rfl 3 (by decide)
     (by decide),
   (c5_end_of_document exSchemaBin).2.2 exDocBin.pages (by decide)
     (fun _ => rfl) (fun h => absurd h (by decide)) _ (by decide)⟩

/-- C6: a page that fails validation (row-count mismatch, type mismatch,
or any other validation error) produces no bytes: write_page returns the
error and an appending write leaves the output stream unchanged. -/
theorem c6_atomic_write (s : Schema) (p : Page) (e : Err)
    (hv : validate_page s p = .error e) (stream : Bytes) :
    write_page s p = .error e ∧ writeTo s p stream = (stream, some e) := by
  have hw : write_page s p = .error e := by
    unfold write_page
    rw [hv]
  refine ⟨hw, ?_⟩
  unfold writeTo
  rw [hw]

theorem c6_atomic_write_witness :
    validate_page exSchemaAsc { exPageAsc with row_count := 3 } =
      .error .RowCountMismatch ∧
    writeTo exSchemaAsc { exPageAsc with row_count := 3 } (strB ("prev")) =
      (strB ("prev"), some .RowCountMismatch) ∧
    validate_page exSchemaAsc { exPageAsc with params := [.vLong 3] } =
      .error .TypeMismatch ∧
    writeTo exSchemaAsc { exPageAsc with params := [.vLong 3] }
      (strB ("prev")) = (strB ("prev"), some .TypeMismatch) :=
  ⟨by decide,
   (c6_atomic_write exSchemaAsc _ .RowCountMismatch (by decide) _).2,
   by decide,
   (c6_atomic_write exSchemaAsc _ .TypeMismatch (by decide) _).2⟩

/-- C7: under no_row_counts the ASCII reader consumes exactly one page
and leaves the following bytes (the next page) untouched, and a page
with zero rows is a real page, not the end-of-document signal. -/
theorem c7_no_row_counts_boundary (s : Schema) (p : Page)
    (hm : s.mode = .ascii) (hnrc : s.no_row_counts = true)
    (hv : validate_page s p = .ok ()) (hcne : s.dataColumns ≠ [])
    (rest : Bytes) :
    read_page s (pageBytes s p ++ rest) = .ok (some (p, rest)) ∧
    read_page s (pageBytes s p ++ rest) ≠ .ok none := by
  have h := read_page_X s p hv
    (fun hb => Mode.noConfusion (hm.symm.trans hb))
    (fun _ _ => hcne) rest
  refine ⟨h, ?_⟩
  rw [h]
  intro hx
  exact Option.noConfusion (Except.ok.inj hx)

set_option maxRecDepth 100000 in
theorem c7_no_row_counts_boundary_witness :
    validate_page schemaHeader3 pageHeader3Zero = .ok () ∧
    pageHeader3Zero.row_count = 0 ∧
    read_page schemaHeader3
      (pageBytes schemaHeader3 pageHeader3Zero ++
       pageBytes schemaHeader3 pageHeader3Two) =
      .ok (some (pageHeader3Zero, pageBytes schemaHeader3 pageHeader3Two)) ∧
    read_page schemaHeader3
      (pageBytes schemaHeader3 pageHeader3Zero ++
       pageBytes schemaHeader3 pageHeader3Two) ≠ .ok none :=
  ⟨by decide, rfl,
   (c7_no_row_counts_boundary schemaHeader3 pageHeader3Zero rfl rfl (by decide)
     (by decide) _).1,
   (c7_no_row_counts_boundary schemaHeader3 pageHeader3Zero rfl rfl (by decide)
     (by decide) _).2⟩

/-- C8: whitespace between the tokens of a command, embedded newlines
included, is insignificant outside quoted strings: a command rendered
with an arbitrary valid layout tokenizes exactly as its canonical
single-line rendering, with the same ordered field pairs. -/
theorem c8_whitespace_insensitivity (name nameSep : Bytes) (fs : List RFld)
    (hname : ValidKey name)
    (hsep : ∃ c cs, nameSep = c :: cs ∧ (isWs c || c == 10 || c == 44) = true ∧
      ValidSeekWs cs)
    (hfs : ∀ f ∈ fs, ValidRFld f) (d : Nat)
    (hd : (isWs d || d == 10 || d == 44) = true) (rest : Bytes) :
    tokenize (renderRCmd name nameSep fs ++ d :: rest) =
      tokenize (renderCmd name (fs.map RFld.pair) ++ rest) := by
  unfold tokenize
  rw [tkRun_renderRCmd name nameSep fs hname hsep hfs d hd rest,
    tkRun_renderCmd name (fs.map RFld.pair) hname (by
      intro p hp
      rw [List.mem_map] at hp
      obtain ⟨f, hf, hfp⟩ := hp
      subst hfp
      exact (hfs f hf).1) rest]

set_option maxRecDepth 100000 in
theorem c8_whitespace_insensitivity_witness :
    renderRCmd (strB ("parameter")) (10 :: List.replicate 8 32) h3ParamFlds =
      strB ("&parameter\n        name=processors,\n        type=long,\n        description=") ++
        [34] ++ strB ("Number of Cores used") ++ [34] ++ strB ("\n&end") ∧
    tokenize (renderRCmd (strB ("parameter")) (10 :: List.replicate 8 32)
        h3ParamFlds ++ 10 :: []) =
      tokenize (renderCmd (strB ("parameter"))
        (h3ParamFlds.map RFld.pair) ++ []) ∧
    h3ParamFlds.map RFld.pair =
      [(strB ("name"), strB ("processors")), (strB ("type"), strB ("long")),
       (strB ("description"), strB ("Number of Cores used"))] :=
  ⟨by decide,
   c8_whitespace_insensitivity (strB ("parameter")) _ h3ParamFlds (by decide)
     ⟨10, List.replicate 8 32, rfl, by decide, by decide⟩ (by decide) 10
     (by decide) [],
   by decide⟩

/-- C9: an ampersand inside a double-quoted value is ordinary text: the
command still tokenizes to a single Command holding the listed fields,
ampersand-containing values intact (header1 symbol equals the
two-character string ampersand-n). -/
theorem c9_ampersand_in_quoted_value (name : Bytes)
    (fields : List (Bytes × Bytes)) (hname : ValidKey name)
    (hkeys : ∀ p ∈ fields, ValidKey p.1) (k v : Bytes)
    (hmem : (k, v) ∈ fields) (h38 : 38 ∈ v) (hnd : name ≠ dataWord)
    (rest : Bytes) :
    tokenize (renderCmd name fields ++ rest) =
      match tokenize rest with
      | .error e => .error e
      | .ok (ts, rem) => .ok (.cmd ⟨name, fields⟩ :: ts, rem) := by
  unfold tokenize
  rw [tkRun_renderCmd name fields hname hkeys rest, if_neg hnd]

theorem c9_ampersand_in_quoted_value_witness :
    (strB ("symbol"), strB ("&n")) ∈ h1Col2Pairs ∧ 38 ∈ strB ("&n") ∧
    tokenize (renderCmd (strB ("column")) h1Col2Pairs ++ []) =
      match tokenize [] with
      | .error e => .error e
      | .ok (ts, rem) =>
        .ok (.cmd ⟨strB ("column"), h1Col2Pairs⟩ :: ts, rem) :=
  ⟨by decide, by decide,
   c9_ampersand_in_quoted_value (strB ("column")) h1Col2Pairs (by decide)
     (by decide) (strB ("symbol")) (strB ("&n")) (by decide) (by decide)
     (by decide) []⟩

/-- C10: a trailing comma after the last key=value pair, immediately
before the end word, is accepted: the command tokenizes identically to
the same command without the trailing comma, to exactly the listed
fields and no extra empty field. -/
theorem c10_trailing_comma (name : Bytes) (hname : ValidKey name)
    (ps : List (Bytes × Bytes)) (q : Bytes × Bytes)
    (hkeys : ∀ p ∈ ps ++ [q], ValidKey p.1) (rest : Bytes) :
    tokenize (renderCmd name (ps ++ [q]) ++ rest) =
      tokenize (renderRCmd name [32]
        ((ps.map (fun r => (⟨r.1, [], [], .quoted r.2, [44, 32]⟩ : RFld))) ++
         [⟨q.1, [], [], .quoted q.2, [32]⟩]) ++ 10 :: rest) ∧
    tokenize (renderCmd name (ps ++ [q]) ++ rest) =
      (if name = dataWord then .ok ([.cmd ⟨name, ps ++ [q]⟩], rest)
       else
         match tokenize rest with
         | .error e => .error e
         | .ok (ts, rem) => .ok (.cmd ⟨name, ps ++ [q]⟩ :: ts, rem)) := by
  have hfs : ∀ f ∈ (ps.map
      (fun r => (⟨r.1, [], [], .quoted r.2, [44, 32]⟩ : RFld))) ++
      [(⟨q.1, [], [], .quoted q.2, [32]⟩ : RFld)], ValidRFld f := by
    intro f hf
    rw [List.mem_append] at hf
    rcases hf with hf | hf
    · rw [List.mem_map] at hf
      obtain ⟨r, hr, hrf⟩ := hf
      subst hrf
      refine ⟨hkeys r (List.mem_append.mpr (Or.inl hr)), ?_, ?_, trivial, ?_⟩
      · intro b hb
        cases hb
      · intro b hb
        cases hb
      · exact (by decide : ValidSeekWs [44, 32])
    · rw [List.mem_cons] at hf
      rcases hf with rfl | hf
      · refine ⟨hkeys q (List.mem_append.mpr
            (Or.inr (List.mem_cons_self q []))), ?_, ?_, trivial, ?_⟩
        · intro b hb
          cases hb
        · intro b hb
          cases hb
        · exact (by decide : ValidSeekWs [32])
      · cases hf
  have hpair : ((ps.map
      (fun r => (⟨r.1, [], [], .quoted r.2, [44, 32]⟩ : RFld))) ++
      [(⟨q.1, [], [], .quoted q.2, [32]⟩ : RFld)]).map RFld.pair =
      ps ++ [q] := by
    simp [RFld.pair, RVal.value, Function.comp_def]
  unfold tokenize
  rw [tkRun_renderCmd name (ps ++ [q]) hname hkeys rest]
  constructor
  · rw [tkRun_renderRCmd name [32] _ hname
      ⟨32, [], rfl, by decide, by intro b hb; cases hb⟩ hfs 10 (by decide)
      rest]
    rw [hpair]
  · rfl

theorem c10_trailing_comma_witness :
    tokenize (renderCmd (strB ("parameter"))
        ([(strB ("name"), strB ("par1"))] ++
         [(strB ("type"), strB ("double"))]) ++ []) =
      tokenize (renderRCmd (strB ("parameter")) [32]
        (([(strB ("name"), strB ("par1"))].map
            (fun r => (⟨r.1, [], [], .quoted r.2, [44, 32]⟩ : RFld))) ++
         [⟨strB ("type"), [], [], .quoted (strB ("double")), [32]⟩]) ++
        10 :: []) ∧
    tokenize (strB ("&parameter name=par1, type=double, &end\n")) =
      .ok ([.cmd ⟨strB ("parameter"),
        [(strB ("name"), strB ("par1")),
         (strB ("type"), strB ("double"))]⟩], []) :=
  ⟨(c10_trailing_comma (strB ("parameter")) (by decide)
      [(strB ("name"), strB ("par1"))] (strB ("type"), strB ("double"))
      (by decide) []).1,
   by decide⟩

end SDDS

